import Mathlib

/-!
Verification development for the loro text-CRDT repository.

The container hierarchy and observer dispatch (src/crates/loro-internal/src/hierarchy.rs)
is embedded directly from the source.  The sequence CRDT, the sync driver and the
RLE tree internals are not part of the provided sources; where a claim depends on
them they are modelled from the specification (each such definition carries a
doc comment starting with `Modelled from the spec:`).

Conventions of the embedding:
* Rust `FxHashSet` / `FxHashMap` values are modelled as duplicate-free lists /
  association lists; set insertion is insert-if-absent, removal is `List.erase`.
* Rust loops that can diverge on cyclic inputs (parent walks, the descendant
  stack walk) are written with an explicit fuel argument; `none` denotes
  exhaustion of the fuel (divergence of the original loop).
* Strings are modelled as `List Char`; the fuzz harness pre-aligns all indices
  to character boundaries, so character-level positions are faithful.
-/

namespace Loro

/-- Container type tag (text / map / list); only its identity matters here. -/
inductive ContainerType
  | text
  | map
  | seqList
deriving DecidableEq, Repr

/-- `OpId = (SiteId, Counter)`: globally unique identity of one atomic unit. -/
structure OpId where
  site : Nat
  counter : Nat
deriving DecidableEq, Repr

/-- `ContainerID`: `Root{name, container_type}` or `Normal{op_id, container_type}`. -/
inductive ContainerID
  | root (rname : String) (ty : ContainerType)
  | normal (id : OpId) (ty : ContainerType)
deriving DecidableEq, Repr

/-- `ContainerID::is_root`. -/
def ContainerID.isRoot : ContainerID → Bool
  | .root _ _ => true
  | .normal _ _ => false

/-- `ContainerID::name` (only ever used on root ids in the embedded paths). -/
def ContainerID.name : ContainerID → String
  | .root n _ => n
  | .normal _ _ => ""

/-- `SubscriptionID` (a `u32`-like counter value in the source). -/
abbrev SubscriptionID := Nat

/-- A path component: string key of a map / root name, or a sequence index. -/
inductive Index
  | key (k : String)
  | seq (n : Nat)
deriving DecidableEq, Repr

/-- A container path, as produced by `Hierarchy::get_path`. -/
abbrev Path := List Index

/-- Per-container hierarchy record (`struct Node` in hierarchy.rs): optional
parent, children set, shallow-observer set, deep-observer set. -/
structure HNode where
  parent : Option ContainerID := none
  children : List ContainerID := []
  observers : List SubscriptionID := []
  deepObservers : List SubscriptionID := []
deriving DecidableEq, Repr

/-- `PathAndTarget` (the `rewrite` payload of an `EventDispatch`). -/
structure PathAndTarget where
  relativePath : Path
  target : Option ContainerID
deriving DecidableEq, Repr

/-- `EventDispatch`: the subscription ids to invoke plus an optional path rewrite. -/
structure EventDispatch where
  subIds : List SubscriptionID := []
  rewrite : Option PathAndTarget := none
deriving DecidableEq, Repr

/-- A raw event as fed to `Hierarchy::notify_without_lock`; the diff payload is
abstracted away, `key` tags the event so delivery logs can name it. -/
structure MRawEvent where
  target : ContainerID
  absPath : Path
  key : Nat
deriving DecidableEq, Repr

/-- The `Hierarchy` state (hierarchy.rs).  The `observers` table maps ids to
boxed closures in Rust; here only the key set is kept, the closures' behaviour
is supplied separately as scripts when dispatch is executed. -/
structure Hierarchy where
  observers : List SubscriptionID := []
  nodes : List (ContainerID × HNode) := []
  rootObservers : List SubscriptionID := []
  latestDeleted : List ContainerID := []
  eventCounter : SubscriptionID := 0
  deletedObservers : List SubscriptionID := []
  pending : Option (MRawEvent × List EventDispatch) := none
  calling : Bool := false
deriving DecidableEq, Repr

/-- Set-style insertion for subscription-id sets (FxHashSet::insert). -/
def insertSub (id : SubscriptionID) (l : List SubscriptionID) : List SubscriptionID :=
  if id ∈ l then l else l ++ [id]

/-- Set-style insertion for container-id sets (FxHashSet::insert). -/
def insertCID (id : ContainerID) (l : List ContainerID) : List ContainerID :=
  if id ∈ l then l else l ++ [id]

/-- Map lookup on the `nodes` association list (FxHashMap::get). -/
def lookupNode (nodes : List (ContainerID × HNode)) (id : ContainerID) : Option HNode :=
  (nodes.find? (fun p => p.1 = id)).map Prod.snd

/-- Map insertion/replacement on `nodes` (FxHashMap::insert / entry-and-modify). -/
def setNode (nodes : List (ContainerID × HNode)) (id : ContainerID) (n : HNode) :
    List (ContainerID × HNode) :=
  if (nodes.find? (fun p => p.1 = id)).isSome then
    nodes.map (fun p => if p.1 = id then (id, n) else p)
  else
    nodes ++ [(id, n)]

/-- Map removal on `nodes` (FxHashMap::remove). -/
def eraseNode (nodes : List (ContainerID × HNode)) (id : ContainerID) :
    List (ContainerID × HNode) :=
  nodes.filter (fun p => p.1 ≠ id)

/-- `Hierarchy::contains`: a node entry exists, or the id is a root. -/
def Hierarchy.containsId (h : Hierarchy) (id : ContainerID) : Bool :=
  (lookupNode h.nodes id).isSome || id.isRoot

/-- `Hierarchy::add_child`: register `child` under `parent`. -/
def Hierarchy.addChild (h : Hierarchy) (parent child : ContainerID) : Hierarchy :=
  let pnode := (lookupNode h.nodes parent).getD {}
  let nodes := setNode h.nodes parent { pnode with children := insertCID child pnode.children }
  let cnode := (lookupNode nodes child).getD {}
  { h with nodes := setNode nodes child { cnode with parent := some parent } }

/-- `Hierarchy::subscribe`: mint the next id, add it to the container's shallow
or deep observer set, insert the observer into the table. -/
def Hierarchy.subscribe (h : Hierarchy) (container : ContainerID) (deep : Bool) :
    SubscriptionID × Hierarchy :=
  let id := h.eventCounter
  let node := (lookupNode h.nodes container).getD {}
  let node :=
    if deep then { node with deepObservers := insertSub id node.deepObservers }
    else { node with observers := insertSub id node.observers }
  (id, { h with
          eventCounter := id + 1
          nodes := setNode h.nodes container node
          observers := insertSub id h.observers })

/-- `Hierarchy::subscribe_root`. -/
def Hierarchy.subscribeRoot (h : Hierarchy) : SubscriptionID × Hierarchy :=
  let id := h.eventCounter
  (id, { h with
          eventCounter := id + 1
          rootObservers := insertSub id h.rootObservers
          observers := insertSub id h.observers })

/-- `Hierarchy::unsubscribe`: remove the id from the container's shallow
observer set; when a dispatch is running, buffer the id in
`deleted_observers`.  Returns whether a removal happened. -/
def Hierarchy.unsubscribe (h : Hierarchy) (container : ContainerID)
    (id : SubscriptionID) : Bool × Hierarchy :=
  match lookupNode h.nodes container with
  | some node =>
    if id ∈ node.observers then
      let node1 : HNode := { node with observers := node.observers.erase id }
      let h := { h with nodes := setNode h.nodes container node1 }
      (true, if h.calling then { h with deletedObservers := h.deletedObservers ++ [id] } else h)
    else
      (false, h)
  | none => (false, h)

/-- `Hierarchy::unsubscribe_root`. -/
def Hierarchy.unsubscribeRoot (h : Hierarchy) (id : SubscriptionID) : Bool × Hierarchy :=
  if id ∈ h.rootObservers then
    let h := { h with rootObservers := h.rootObservers.erase id }
    (true, if h.calling then { h with deletedObservers := h.deletedObservers ++ [id] } else h)
  else
    (false, h)

/-- The stack walk of `Hierarchy::remove_child`: pop an id, record it as
visited, push its children; `none` = fuel exhausted (the Rust loop diverges on
a cyclic child graph, since `visited` is recorded but never consulted). -/
def collectDesc (nodes : List (ContainerID × HNode)) :
    Nat → List ContainerID → List ContainerID → Option (List ContainerID)
  | 0, _, _ => none
  | _ + 1, [], visited => some visited
  | fuel + 1, c :: stack, visited =>
    let visited := insertCID c visited
    match lookupNode nodes c with
    | none => collectDesc nodes fuel stack visited
    | some node => collectDesc nodes fuel (node.children ++ stack) visited

/-- `Hierarchy::remove_child`: drop `child` from the parent's children set,
walk every descendant reachable through children links, delete their node
records and extend `latest_deleted` with the visited set. -/
def Hierarchy.removeChild (h : Hierarchy) (parent child : ContainerID) (fuel : Nat) :
    Option Hierarchy :=
  match lookupNode h.nodes parent with
  | none => some h
  | some pnode =>
    let nodes := setNode h.nodes parent { pnode with children := pnode.children.erase child }
    match collectDesc nodes fuel [child] [] with
    | none => none
    | some visited =>
      some { h with
              nodes := visited.foldl eraseNode nodes
              latestDeleted := visited.foldl (fun acc c => insertCID c acc) h.latestDeleted }

/-- `Hierarchy::take_deleted`: return and clear `latest_deleted`. -/
def Hierarchy.takeDeleted (h : Hierarchy) : List ContainerID × Hierarchy :=
  (h.latestDeleted, { h with latestDeleted := [] })

/-- The child-reachability closure walked by `remove_child`: `Reaches nodes c d`
holds when `d` can be reached from `c` by following `children` links. -/
inductive Reaches (nodes : List (ContainerID × HNode)) : ContainerID → ContainerID → Prop
  | refl (c : ContainerID) : Reaches nodes c c
  | step {c d e : ContainerID} {n : HNode} :
      Reaches nodes c d → lookupNode nodes d = some n → e ∈ n.children → Reaches nodes c e

/-- The external container registry reduced to what `get_path` consumes: the
`Index` of a child inside its parent (`reg.get(parent)...index_of_child(child)`),
modelled as a total function since the registry is out of scope. -/
abbrev RegIdx := ContainerID → ContainerID → Index

/-- The parent-link loop of `Hierarchy::get_path`: push the child's index at
each step, stop at a missing node (root name or Rust-`None`), at a parentless
node, or when the parent equals `target`.  The accumulator is in push order;
the wrapper reverses it like the source.  Outer `none` = fuel exhausted (the
original loop diverges on a cyclic parent chain). -/
def getPathVisit (nodes : List (ContainerID × HNode)) (reg : RegIdx)
    (target : Option ContainerID) (id : ContainerID) (acc : Path)
    (cont : ContainerID → Path → Option (Option Path)) : Option (Option Path) :=
  match lookupNode nodes id with
  | none =>
    if id.isRoot then some (some (acc ++ [Index.key id.name])) else some none
  | some node =>
    match node.parent with
    | some p =>
      let acc2 := acc ++ [reg p id]
      if target = some p then some (some acc2)
      else cont p acc2
    | none =>
      match id with
      | .root nm _ => some (some (acc ++ [Index.key nm]))
      | .normal _ _ => some none

/-- Fueled iteration of the loop body above. -/
def getPathAux (nodes : List (ContainerID × HNode)) (reg : RegIdx)
    (target : Option ContainerID) :
    Nat → ContainerID → Path → Option (Option Path)
  | 0, _, _ => none
  | fuel + 1, id, acc =>
    getPathVisit nodes reg target id acc (getPathAux nodes reg target fuel)

/-- `Hierarchy::get_path` (with the two early returns for a root descendant
and for `target == descendant`). -/
def Hierarchy.getPath (h : Hierarchy) (reg : RegIdx) (descendant : ContainerID)
    (target : Option ContainerID) (fuel : Nat) : Option (Option Path) :=
  match descendant with
  | .root nm _ => some (some [Index.key nm])
  | .normal _ _ =>
    if target = some descendant then some (some [])
    else (getPathAux h.nodes reg target fuel descendant []).map (Option.map List.reverse)

/-- `Hierarchy::get_abs_path`: `get_path` with no target, mapping an empty
path to `None`. -/
def Hierarchy.getAbsPath (h : Hierarchy) (reg : RegIdx) (descendant : ContainerID)
    (fuel : Nat) : Option (Option Path) :=
  (h.getPath reg descendant none fuel).map
    (fun r => r.bind (fun p => if p = [] then none else some p))

/-- The walk of the claim: the parent chain from a container terminates at a
root (either a root with no node entry, or a parentless node whose id is a
root); a non-root missing node or a parentless non-root node breaks the chain. -/
inductive TerminatesAtRoot (nodes : List (ContainerID × HNode)) : ContainerID → Prop
  | missing {id : ContainerID} :
      lookupNode nodes id = none → id.isRoot = true → TerminatesAtRoot nodes id
  | noParent {id : ContainerID} {n : HNode} :
      lookupNode nodes id = some n → n.parent = none → id.isRoot = true →
      TerminatesAtRoot nodes id
  | step {id p : ContainerID} {n : HNode} :
      lookupNode nodes id = some n → n.parent = some p → TerminatesAtRoot nodes p →
      TerminatesAtRoot nodes id

/-- Spec invariant "Roots have no parent" (§3), assumed for path claims;
stated entry-wise so it is decidable on concrete hierarchies. -/
def RootsNoParent (nodes : List (ContainerID × HNode)) : Prop :=
  ∀ p ∈ nodes, p.1.isRoot = true → p.2.parent = none

instance decRootsNoParent (nodes : List (ContainerID × HNode)) :
    Decidable (RootsNoParent nodes) :=
  inferInstanceAs (Decidable (∀ p ∈ nodes, p.1.isRoot = true → p.2.parent = none))

/-- The ancestor loop of `notify_without_lock`: walk parent links from the
target, appending a deep-observer dispatch (with a relative-path rewrite using
the first `count` components of the reversed absolute path) at each node with
deep observers; `break` at a missing node entry, end after a parentless node. -/
def deepDispatches (nodes : List (ContainerID × HNode)) (pathToRoot : Path) :
    Nat → Nat → ContainerID → List EventDispatch → Option (List EventDispatch)
  | 0, _, _, _ => none
  | fuel + 1, count, id, acc =>
    match lookupNode nodes id with
    | none => some acc
    | some node =>
      let acc2 :=
        if node.deepObservers ≠ [] then
          acc ++ [{ subIds := node.deepObservers,
                    rewrite := some ⟨(pathToRoot.take count).reverse, some id⟩ }]
        else acc
      match node.parent with
      | none => some acc2
      | some p => deepDispatches nodes pathToRoot fuel (count + 1) p acc2

/-- Dispatch construction of `notify_without_lock`: an `entry(..).or_default()`
for the target, the target's shallow observers first (no rewrite), then the
deep-observer dispatches along the ancestor chain, then the root observers
with the absolute path.  Returns the dispatch list and the hierarchy after the
`or_default` insertion. -/
def Hierarchy.buildDispatches (h : Hierarchy) (target : ContainerID) (absPath : Path)
    (fuel : Nat) : Option (List EventDispatch × Hierarchy) :=
  let nodes :=
    if (lookupNode h.nodes target).isSome then h.nodes else setNode h.nodes target {}
  let node := (lookupNode nodes target).getD {}
  let shallow : List EventDispatch :=
    if node.observers ≠ [] then [{ subIds := node.observers, rewrite := none }] else []
  match deepDispatches nodes absPath.reverse fuel 0 target shallow with
  | none => none
  | some ds =>
    let ds2 :=
      if h.rootObservers ≠ [] then
        ds ++ [{ subIds := h.rootObservers, rewrite := some ⟨absPath, none⟩ }]
      else ds
    some (ds2, { h with nodes := nodes })

/-- The observer-invocation sequence of `call_observers`: the event's
`relative_path`/`current_target` persist across dispatches and are overwritten
by each dispatch that carries a rewrite; every listed subscription is invoked
with the values current at its dispatch. -/
def invocationsFrom (dispatches : List EventDispatch) (relPath : Path)
    (cur : Option ContainerID) : List (SubscriptionID × Path × Option ContainerID) :=
  match dispatches with
  | [] => []
  | d :: ds =>
    let pc := match d.rewrite with
      | some pt => (pt.relativePath, pt.target)
      | none => (relPath, cur)
    d.subIds.map (fun s => (s, pc.1, pc.2)) ++ invocationsFrom ds pc.1 pc.2

/-- Invocations of one dispatch pass: the event starts with an empty relative
path and `current_target = Some target`. -/
def invocations (target : ContainerID) (dispatches : List EventDispatch) :
    List (SubscriptionID × Path × Option ContainerID) :=
  invocationsFrom dispatches [] (some target)

/-- The ancestor chain processed by the loop of `notify_without_lock`:
`AncChain nodes id l` lists, in walk order, the ids whose node entries the
loop visits, ending at a parentless node; a missing entry ends the chain
without being listed. -/
inductive AncChain (nodes : List (ContainerID × HNode)) : ContainerID → List ContainerID → Prop
  | stopMissing {id : ContainerID} :
      lookupNode nodes id = none → AncChain nodes id []
  | stopNoParent {id : ContainerID} {n : HNode} :
      lookupNode nodes id = some n → n.parent = none → AncChain nodes id [id]
  | consStep {id p : ContainerID} {n : HNode} {l : List ContainerID} :
      lookupNode nodes id = some n → n.parent = some p → AncChain nodes p l →
      AncChain nodes id (id :: l)

/-- Specification-side rendering of the deep dispatches along an ancestor
chain: the element at depth `i` below the walk start contributes its deep
observers with relative path `(pathToRoot.take i).reverse` (the suffix of the
absolute path from that ancestor down to the target). -/
def expectedDeep (nodes : List (ContainerID × HNode)) (pathToRoot : Path) :
    Nat → List ContainerID → List EventDispatch
  | _, [] => []
  | i, a :: rest =>
    (match lookupNode nodes a with
     | some n =>
       if n.deepObservers ≠ [] then
         [{ subIds := n.deepObservers,
            rewrite := some ⟨(pathToRoot.take i).reverse, some a⟩ }]
       else []
     | none => []) ++ expectedDeep nodes pathToRoot (i + 1) rest

/-- A command an observer callback may issue while it runs: trigger another
notification, or unsubscribe a shallow / root subscription. -/
inductive ObsCmd
  | emit (ev : MRawEvent)
  | unsub (c : ContainerID) (id : SubscriptionID)
  | unsubRoot (id : SubscriptionID)
deriving DecidableEq, Repr

/-- Observer behaviour: the commands each subscription id issues when invoked. -/
abbrev Scripts := SubscriptionID → List ObsCmd

/-- A pending unit of dispatch work.  `obs` is the observer table taken out of
the hierarchy for the duration of the pass (the take-and-restore protocol). -/
inductive Work
  | disp (obs : List SubscriptionID) (ds : List EventDispatch) (ev : MRawEvent)
      (rp : Path) (ct : Option ContainerID)
  | subs (obs : List SubscriptionID) (ss : List SubscriptionID) (ev : MRawEvent)
      (rp : Path) (ct : Option ContainerID)
  | cmds (cs : List ObsCmd)
  | resetW (obs : List SubscriptionID)
deriving DecidableEq, Repr

/-- Execution state of the dispatch machine: the hierarchy, the delivery log
(subscription id, event key, relative path, current target), the panic flag
(`observers.get_mut(sub_id).unwrap()` on a missing id), the fuel-exhaustion
flag, and the work stack. -/
structure MState where
  hier : Hierarchy
  delivered : List (SubscriptionID × Nat × Path × Option ContainerID) := []
  panicked : Bool := false
  fuelOut : Bool := false
  stack : List Work := []
deriving DecidableEq, Repr

/-- `Hierarchy::notify_without_lock` up to the point observers start running:
build the dispatches (with the `or_default` side effect); if a dispatch is in
progress (`calling`), store the event and dispatches as the pending dispatch,
overwriting any previous one, and return; otherwise mark `calling`, take the
observer table out and push the pass (dispatch run, then the reset/drain). -/
def doNotify (st : MState) (ev : MRawEvent) : MState :=
  match st.hier.buildDispatches ev.target ev.absPath (st.hier.nodes.length + 1) with
  | none => { st with fuelOut := true, stack := [] }
  | some (ds, h) =>
    if h.calling then
      { st with hier := { h with pending := some (ev, ds) } }
    else
      let obs := h.observers
      { st with
          hier := { h with observers := [], calling := true }
          stack := Work.disp obs ds ev [] (some ev.target) :: Work.resetW obs :: st.stack }

/-- One step of the dispatch machine.  Mirrors `call_observers` (invoke each
subscription of each dispatch in order, applying rewrites), the observer
callbacks (running their scripts), and `reset` (drop buffered deletions from
the taken table, restore it, drain the pending dispatch recursively, else
clear `calling`). -/
def step (sc : Scripts) (st : MState) : MState :=
  match st.stack with
  | [] => st
  | w :: rest =>
    match w with
    | .disp _ [] _ _ _ => { st with stack := rest }
    | .disp obs (d :: ds) ev rp ct =>
      let pc := match d.rewrite with
        | some pt => (pt.relativePath, pt.target)
        | none => (rp, ct)
      { st with stack := Work.subs obs d.subIds ev pc.1 pc.2 ::
                          Work.disp obs ds ev pc.1 pc.2 :: rest }
    | .subs _ [] _ _ _ => { st with stack := rest }
    | .subs obs (s :: ss) ev rp ct =>
      if s ∈ obs then
        { st with
            delivered := st.delivered ++ [(s, ev.key, rp, ct)]
            stack := Work.cmds (sc s) :: Work.subs obs ss ev rp ct :: rest }
      else
        { st with panicked := true, stack := [] }
    | .cmds [] => { st with stack := rest }
    | .cmds (c :: cs) =>
      let st := { st with stack := Work.cmds cs :: rest }
      match c with
      | .emit ev => doNotify st ev
      | .unsub cid id => { st with hier := (st.hier.unsubscribe cid id).2 }
      | .unsubRoot id => { st with hier := (st.hier.unsubscribeRoot id).2 }
    | .resetW obs =>
      let deleted := st.hier.deletedObservers
      let obs2 := obs.filter (fun s => s ∉ deleted)
      let h := { st.hier with
                  deletedObservers := []
                  observers := obs2.foldl (fun acc s => insertSub s acc) st.hier.observers }
      match h.pending with
      | some (ev, ds) =>
        let obs3 := h.observers
        { st with
            hier := { h with observers := [], pending := none }
            stack := Work.disp obs3 ds ev [] (some ev.target) :: Work.resetW obs3 :: rest }
      | none =>
        { st with hier := { h with calling := false }, stack := rest }

/-- Run the dispatch machine until the work stack empties or fuel runs out. -/
def runSteps (sc : Scripts) : Nat → MState → MState
  | 0, st => if st.stack = [] then st else { st with fuelOut := true }
  | fuel + 1, st => if st.stack = [] then st else runSteps sc fuel (step sc st)

/-- A full `notify_without_lock` call: queue-or-start the dispatch, then run
to completion. -/
def notifyExec (sc : Scripts) (fuel : Nat) (h : Hierarchy) (ev : MRawEvent) : MState :=
  runSteps sc fuel (doNotify { hier := h } ev)

/-- Whether a reset/drain frame is on the work stack. -/
def hasReset : List Work → Bool
  | [] => false
  | .resetW _ :: _ => true
  | _ :: rest => hasReset rest

/-- Machine invariant: unless halted, a running dispatch (`calling`) or a
queued pending dispatch always has its drain frame on the stack. -/
def DispInv (st : MState) : Prop :=
  st.panicked = true ∨ st.fuelOut = true ∨
    ((st.hier.calling = true → hasReset st.stack = true) ∧
     (st.hier.pending.isSome = true → hasReset st.stack = true))

instance decDispInv (st : MState) : Decidable (DispInv st) := by
  unfold DispInv
  infer_instance

/-- A work frame does not reference the subscription id. -/
def WorkClean (id : SubscriptionID) : Work → Prop
  | .disp _ ds _ _ _ => ∀ d ∈ ds, id ∉ d.subIds
  | .subs _ ss _ _ _ => id ∉ ss
  | .cmds _ => True
  | .resetW _ => True

instance decWorkClean (id : SubscriptionID) : (w : Work) → Decidable (WorkClean id w)
  | .disp a ds b c d => inferInstanceAs (Decidable (∀ e ∈ ds, id ∉ e.subIds))
  | .subs a ss b c d => inferInstanceAs (Decidable (id ∉ ss))
  | .cmds cs => inferInstanceAs (Decidable True)
  | .resetW o => inferInstanceAs (Decidable True)

/-- The queued pending dispatch does not reference the subscription id. -/
def PendClean (id : SubscriptionID) : Option (MRawEvent × List EventDispatch) → Prop
  | none => True
  | some pd => ∀ d ∈ pd.2, id ∉ d.subIds

instance decPendClean (id : SubscriptionID) :
    (p : Option (MRawEvent × List EventDispatch)) → Decidable (PendClean id p)
  | none => inferInstanceAs (Decidable True)
  | some pd => inferInstanceAs (Decidable (∀ d ∈ pd.2, id ∉ d.subIds))

/-- The hierarchy holds no reference to the subscription id in any observer
set or in the pending dispatch. -/
def HierClean (id : SubscriptionID) (h : Hierarchy) : Prop :=
  (∀ p ∈ h.nodes, id ∉ p.2.observers ∧ id ∉ p.2.deepObservers) ∧
  id ∉ h.rootObservers ∧
  PendClean id h.pending

instance decHierClean (id : SubscriptionID) (h : Hierarchy) : Decidable (HierClean id h) := by
  unfold HierClean
  infer_instance

/-- The whole machine state holds no reference to the subscription id. -/
def CleanSt (id : SubscriptionID) (st : MState) : Prop :=
  HierClean id st.hier ∧ ∀ w ∈ st.stack, WorkClean id w

instance decCleanSt (id : SubscriptionID) (st : MState) : Decidable (CleanSt id st) := by
  unfold CleanSt
  infer_instance

/-- Fixture: three root containers used by the reentrancy scenarios. -/
def exCa : ContainerID := .root "a" .text

/-- Fixture root container b. -/
def exCb : ContainerID := .root "b" .text

/-- Fixture root container c. -/
def exCc : ContainerID := .root "c" .text

/-- Fixture events targeting the three fixture roots. -/
def exEv0 : MRawEvent := ⟨exCa, [Index.key "a"], 100⟩

/-- Fixture event targeting root b. -/
def exEv1 : MRawEvent := ⟨exCb, [Index.key "b"], 101⟩

/-- Fixture event targeting root c. -/
def exEv2 : MRawEvent := ⟨exCc, [Index.key "c"], 102⟩

/-- Fixture hierarchy for the lost-pending scenario: shallow observers 0@a,
1@b, 2@c. -/
def exHc4 : Hierarchy :=
  (((({} : Hierarchy).subscribe exCa false).2.subscribe exCb false).2.subscribe
    exCc false).2

/-- Fixture scripts: observer 0 notifies event 1 and then event 2 while the
primary dispatch is running; observers 1 and 2 do nothing. -/
def exSc4 : Scripts := fun s => if s = 0 then [ObsCmd.emit exEv1, ObsCmd.emit exEv2] else []

/-- Fixture hierarchy for the unsubscribe-during-dispatch scenario: shallow
observers 0 and 1 at root a. -/
def exHc5 : Hierarchy :=
  ((({} : Hierarchy).subscribe exCa false).2.subscribe exCa false).2

/-- Fixture scripts: observer 0 unsubscribes observer 1 during the dispatch. -/
def exSc5 : Scripts := fun s => if s = 0 then [ObsCmd.unsub exCa 1] else []

/-- Modelled from the spec: a sequence element at character granularity
(§3 "Sequence element").  `ctx` is the creator's version vector (the causal
context; the spec stores a `deps` frontier, which carries the same causal
information), `origLeft`/`origRight` the origins, `alive` the tombstone flag. -/
structure CElem where
  eid : OpId
  ch : Char
  origLeft : Option OpId
  origRight : Option OpId
  alive : Bool
  lamport : Nat
  ctx : List Nat
deriving DecidableEq, Repr

/-- Version-vector membership: `(site, counter)` is covered when
`counter < vv[site]` (missing sites count as 0). -/
def idInVV (vv : List Nat) (i : OpId) : Bool :=
  i.counter < vv.getD i.site 0

/-- Two elements are concurrent when neither is in the other's causal context. -/
def concurrentB (e f : CElem) : Bool :=
  !(idInVV e.ctx f.eid) && !(idInVV f.ctx e.eid)

/-- Modelled from the spec: the walk of the deterministic placement algorithm
(§4.3 `remote_insert` step 2): advance over concurrent peers (same origins)
with a smaller `(site, counter)` id; stop at `origin_right` or a non-peer. -/
def walkPeers (e : CElem) : List CElem → Nat
  | [] => 0
  | f :: fs =>
    if some f.eid = e.origRight then 0
    else if f.origLeft = e.origLeft ∧ f.origRight = e.origRight ∧ concurrentB e f then
      if e.eid.site < f.eid.site ∨ (e.eid.site = f.eid.site ∧ e.eid.counter < f.eid.counter)
      then 0
      else walkPeers e fs + 1
    else 0

/-- Index of the element carrying a given id (length when absent). -/
def idxOfId (doc : List CElem) (i : OpId) : Nat :=
  doc.findIdx (fun f => decide (f.eid = i))

/-- Modelled from the spec: `remote_insert` (§4.3): seek right after
`origin_left` (document start when null), walk over concurrent peers, insert. -/
def integrate (doc : List CElem) (e : CElem) : List CElem :=
  let start := match e.origLeft with
    | none => 0
    | some l => idxOfId doc l + 1
  let j := start + walkPeers e (doc.drop start)
  doc.take j ++ e :: doc.drop j

/-- Modelled from the spec: a change's primitive ops (§3 "Change"): an insert
carrying its already-origined elements, or a delete of target ids. -/
inductive COp
  | ins (elems : List CElem)
  | del (targets : List OpId)
deriving DecidableEq, Repr

/-- Modelled from the spec: a change — an `OpIdSpan` (site, start counter,
implicit length), a lamport clock and one primitive op. -/
structure Change where
  csite : Nat
  ccounter : Nat
  lamport : Nat
  op : COp
deriving DecidableEq, Repr

/-- Number of op ids consumed by a change (its span length). -/
def Change.spanLen (c : Change) : Nat :=
  match c.op with
  | .ins es => es.length
  | .del ts => ts.length

/-- Canonical sibling order of §4.2: `(lamport asc, site asc)` (start counter
as final component).  Causal order is contained in it since
`lamport = 1 + max(dep.lamport)`. -/
def keyLeB (c d : Change) : Bool :=
  decide (c.lamport < d.lamport ∨
    (c.lamport = d.lamport ∧ (c.csite < d.csite ∨
      (c.csite = d.csite ∧ c.ccounter ≤ d.ccounter))))

/-- Insertion into a canonically sorted change list. -/
def insortChange (c : Change) : List Change → List Change
  | [] => [c]
  | d :: ds => if keyLeB c d then c :: d :: ds else d :: insortChange c ds

/-- Insertion sort by the canonical `(lamport, site, counter)` order:
the replay order every replica uses (§4.2 "all replicas replay identically"). -/
def sortChanges : List Change → List Change
  | [] => []
  | c :: cs => insortChange c (sortChanges cs)

/-- Apply one change to a document: integrate each inserted element in order,
or tombstone every element whose id is targeted (`remote_delete`; idempotent). -/
def applyChange (doc : List CElem) (c : Change) : List CElem :=
  match c.op with
  | .ins es => es.foldl integrate doc
  | .del ts => doc.map (fun f => if f.eid ∈ ts then { f with alive := false } else f)

/-- Modelled from the spec: the visible document state as a pure function of
the held set of changes — replay them in the canonical causal order (§5
"final visible state is a pure function of the set of applied changes"). -/
def interp (cs : List Change) : List CElem :=
  (sortChanges cs).foldl applyChange []

/-- The visible text: characters of the alive elements, in document order. -/
def visibleChars (doc : List CElem) : List Char :=
  doc.filterMap (fun f => if f.alive then some f.ch else none)

/-- The alive (visible) elements of a document. -/
def aliveList (doc : List CElem) : List CElem :=
  doc.filter (fun f => f.alive)

/-- Modelled from the spec: a replica — its site id, the set of changes it
holds (§4.2 append-only log), and the local counter/lamport clocks. -/
structure Replica where
  rsite : Nat
  changes : List Change
  nextCounter : Nat
  nextLamport : Nat
deriving DecidableEq, Repr

/-- Per-site version-vector component: ids consumed by the held changes. -/
def siteVV (cs : List Change) (s : Nat) : Nat :=
  ((cs.filter (fun c => c.csite = s)).map Change.spanLen).sum

/-- The version vector of a change set over `n` sites. -/
def vvOf (n : Nat) (cs : List Change) : List Nat :=
  (List.range n).map (siteVV cs)

/-- The replica's document (canonical replay of its changes). -/
def Replica.doc (r : Replica) : List CElem := interp r.changes

/-- `get_value()`: the replica's visible text. -/
def Replica.value (r : Replica) : List Char := visibleChars r.doc

/-- `origin_left` for an insertion at visible position `pos`: the id of the
live element just before the insertion point (null at the start). -/
def originLeftAt (doc : List CElem) (pos : Nat) : Option OpId :=
  (((aliveList doc).take pos).getLast?).map (fun f => f.eid)

/-- `origin_right` for an insertion at visible position `pos`: the id of the
live element just after the insertion point (null at the end). -/
def originRightAt (doc : List CElem) (pos : Nat) : Option OpId :=
  (((aliveList doc).drop pos).head?).map (fun f => f.eid)

/-- Build the element run of a local insert: the first element is origined
between the captured neighbours, each later element hangs off its predecessor. -/
def mkInsElems (site lam : Nat) (ctx : List Nat) (oR : Option OpId) :
    Nat → Option OpId → List Char → List CElem
  | _, _, [] => []
  | cnt, oL, ch :: rest =>
    { eid := ⟨site, cnt⟩, ch := ch, origLeft := oL, origRight := oR,
      alive := true, lamport := lam, ctx := ctx } ::
      mkInsElems site lam ctx oR (cnt + 1) (some ⟨site, cnt⟩) rest

/-- Modelled from the spec: local `insert(pos, content)` (§4.3): capture the
origins at `pos`, mint a counter span, append the change. -/
def localInsert (n : Nat) (r : Replica) (pos : Nat) (s : List Char) : Replica :=
  if s.isEmpty then r
  else
    let doc := r.doc
    let es := mkInsElems r.rsite r.nextLamport (vvOf n r.changes)
      (originRightAt doc pos) r.nextCounter (originLeftAt doc pos) s
    let c : Change :=
      { csite := r.rsite, ccounter := r.nextCounter, lamport := r.nextLamport, op := .ins es }
    { r with
        changes := r.changes ++ [c]
        nextCounter := r.nextCounter + s.length
        nextLamport := r.nextLamport + 1 }

/-- Modelled from the spec: local `delete(pos, len)` (§4.3 and §6): a no-op on
an empty document, otherwise tombstone the live range
`[pos, min(pos+len, visible_len))`. -/
def localDelete (r : Replica) (pos len : Nat) : Replica :=
  let doc := r.doc
  let av := aliveList doc
  if av.length = 0 then r
  else
    let targets := ((av.drop pos).take len).map (fun f => f.eid)
    if targets.isEmpty then r
    else
      let c : Change :=
        { csite := r.rsite, ccounter := r.nextCounter, lamport := r.nextLamport,
          op := .del targets }
      { r with
          changes := r.changes ++ [c]
          nextCounter := r.nextCounter + targets.length
          nextLamport := r.nextLamport + 1 }

/-- Whether the log already holds a change starting at `(site, counter)`. -/
def hasStart (cs : List Change) (s cnt : Nat) : Bool :=
  cs.any (fun c => c.csite = s && c.ccounter = cnt)

/-- Modelled from the spec: `import(changes)` (§4.2): integrate the changes
not already present; bump the lamport clock past everything seen. -/
def importChanges (r : Replica) (incoming : List Change) : Replica :=
  let newcs := incoming.filter (fun c => !(hasStart r.changes c.csite c.ccounter))
  { r with
      changes := r.changes ++ newcs
      nextLamport := newcs.foldl (fun a c => max a (c.lamport + 1)) r.nextLamport }

/-- Modelled from the spec: `export(remote_vv)` (§4.2): every change present
locally whose span is absent from the remote version vector. -/
def exportFrom (r : Replica) (remote : List Nat) : List Change :=
  r.changes.filter (fun c => !(idInVV remote ⟨c.csite, c.ccounter⟩))

/-- The multi-site world of `test_multi_sites`: `n` replicas with distinct
site ids plus the append-only creation history (ghost state used to relate
replicas). -/
structure World where
  siteCount : Nat
  replicas : List Replica
  hist : List Change
deriving Repr

/-- Fuzz actions (src/crates/loro-core/src/fuzz.rs `Action`): local insert,
local delete, one-way sync `from → to` (`to.import(from.export(to.vv))`). -/
inductive WAct
  | ains (site pos : Nat) (s : List Char)
  | adel (site pos len : Nat)
  | async (src dst : Nat)
deriving DecidableEq, Repr

/-- The replica at index `i` (a fresh default when out of range). -/
def World.rep (w : World) (i : Nat) : Replica :=
  w.replicas.getD i { rsite := i, changes := [], nextCounter := 0, nextLamport := 0 }

/-- One world step: apply a local edit (recording the created change in the
history) or a one-way sync; out-of-range sites are ignored. -/
def stepW (w : World) (a : WAct) : World :=
  match a with
  | .ains i pos s =>
    if i < w.replicas.length then
      let r := w.rep i
      let r2 := localInsert w.siteCount r pos s
      { w with
          replicas := w.replicas.set i r2
          hist := w.hist ++ r2.changes.drop r.changes.length }
    else w
  | .adel i pos len =>
    if i < w.replicas.length then
      let r := w.rep i
      let r2 := localDelete r pos len
      { w with
          replicas := w.replicas.set i r2
          hist := w.hist ++ r2.changes.drop r.changes.length }
    else w
  | .async src dst =>
    if src < w.replicas.length ∧ dst < w.replicas.length then
      let rs := w.rep src
      let rd := w.rep dst
      let rd2 := importChanges rd (exportFrom rs (vvOf w.siteCount rd.changes))
      { w with replicas := w.replicas.set dst rd2 }
    else w

/-- `R(n)`: `n` fresh replicas with distinct site ids. -/
def initWorld (n : Nat) : World :=
  { siteCount := n
    replicas := (List.range n).map
      (fun i => { rsite := i, changes := [], nextCounter := 0, nextLamport := 0 })
    hist := [] }

/-- Run a schedule of actions from `R(n)`. -/
def runW (n : Nat) (acts : List WAct) : World :=
  acts.foldl stepW (initWorld n)

/-- Single-client fuzz actions (insert / delete only). -/
inductive SAct
  | sins (pos : Nat) (s : List Char)
  | sdel (pos len : Nat)
deriving DecidableEq, Repr

/-- `impl Actionable for String::apply_action`: `insert_str` for inserts,
`drain(pos..pos+len)` (after the emptiness guard) for deletes. -/
def naiveApply (st : List Char) (a : SAct) : List Char :=
  match a with
  | .sins pos s => st.take pos ++ s ++ st.drop pos
  | .sdel pos len => if st.isEmpty then st else st.take pos ++ st.drop (pos + len)

/-- `impl Actionable for String::preprocess` at character granularity:
`pos %= len+1` for inserts; for deletes clamp `pos` into the text and `len`
into the remainder (the UTF-8 boundary loops are identities on characters). -/
def preprocessS (st : List Char) (a : SAct) : SAct :=
  match a with
  | .sins pos s => .sins (pos % (st.length + 1)) s
  | .sdel pos len =>
    if st.length = 0 then .sdel 0 0
    else
      let p := pos % st.length
      .sdel p (min len (st.length - p))

/-- Apply a single-client action to the replica's text container
(`impl Actionable for TextContainer`, with its `text_len() == 0` guard
matching the guard inside `localDelete`). -/
def applySR (r : Replica) (a : SAct) : Replica :=
  match a with
  | .sins pos s => localInsert 1 r pos s
  | .sdel pos len => localDelete r pos len

/-- The `test_single_client` loop: preprocess each action against the ground
truth, apply it both to the ground-truth string and to the replica. -/
def runSingle (acts : List SAct) : List Char × Replica :=
  acts.foldl
    (fun p a =>
      let a2 := preprocessS p.1 a
      (naiveApply p.1 a2, applySR p.2 a2))
    ([], { rsite := 0, changes := [], nextCounter := 0, nextLamport := 0 })

/-- A `CustomString` run (string_tree.rs). -/
abbrev CString := List Char

/-- An RLE-tree node: a leaf holding runs, or an internal node holding
children, each with its aggregate cache (`usize` in the source). -/
inductive RNode
  | leaf (runs : List CString) (cache : Nat)
  | inNode (children : List RNode) (cache : Nat)

/-- `len_leaf` / `len_internal` (string_tree.rs): a node's length is its cache. -/
def nodeLen : RNode → Nat
  | .leaf _ c => c
  | .inNode _ c => c

/-- `update_cache_leaf` (string_tree.rs): the sum of the runs' lengths. -/
def updateCacheLeaf (runs : List CString) : Nat :=
  (runs.map List.length).sum

/-- `update_cache_internal` (string_tree.rs): the sum of `Node::len` of the
children, i.e. of the children's caches. -/
def updateCacheInternal (cs : List RNode) : Nat :=
  (cs.map nodeLen).sum

/-- `check_cache_leaf` (string_tree.rs): the stored cache equals the sum of
the runs' lengths. -/
def checkCacheLeafB (runs : List CString) (cache : Nat) : Bool :=
  cache = (runs.map List.length).sum

/-- `check_cache_internal` (string_tree.rs): the stored cache equals the sum
of the children's lengths (their caches). -/
def checkCacheInternalB (cs : List RNode) (cache : Nat) : Bool :=
  cache = (cs.map nodeLen).sum

/-- Build a leaf with its cache recomputed by `update_cache_leaf`. -/
def mkLeaf (runs : List CString) : RNode :=
  .leaf runs (updateCacheLeaf runs)

/-- Build an internal node with its cache recomputed by `update_cache_internal`. -/
def mkInternal (cs : List RNode) : RNode :=
  .inNode cs (updateCacheInternal cs)

/-- The `check_cache_leaf` / `check_cache_internal` assertions, recursively
over a whole tree. -/
inductive CacheOk : RNode → Prop
  | leaf (runs : List CString) (cache : Nat) :
      checkCacheLeafB runs cache = true → CacheOk (.leaf runs cache)
  | inNode (cs : List RNode) (cache : Nat) :
      checkCacheInternalB cs cache = true → (∀ c ∈ cs, CacheOk c) →
      CacheOk (.inNode cs cache)

/-- `CustomString::is_mergable` (string_tree.rs): merged length below 64. -/
def mergableCS (a b : CString) : Bool :=
  a.length + b.length < 64

/-- Merge adjacent mergeable runs and drop empty runs (§3 "adjacent mergeable
runs at leaf boundaries are merged when legal"). -/
def mergeRuns : List CString → List CString
  | [] => []
  | [r] => [r]
  | r :: r2 :: rest =>
    if r.isEmpty then mergeRuns (r2 :: rest)
    else if mergableCS r r2 then mergeRuns ((r ++ r2) :: rest)
    else r :: mergeRuns (r2 :: rest)
termination_by l => l.length
decreasing_by all_goals simp <;> omega

/-- Modelled from the spec: splice a run into a leaf's run list at a character
index, slicing the containing run at an interior offset (§4.1 `insert`). -/
def spliceRuns : List CString → Nat → CString → List CString
  | [], _, s => [s]
  | r :: rest, idx, s =>
    if idx < r.length then r.take idx :: s :: r.drop idx :: rest
    else r :: spliceRuns rest (idx - r.length) s

/-- Modelled from the spec: delete the character range `[f, t)` from a leaf's
runs, slicing the boundary runs (§4.1 `delete_range`). -/
def deleteRuns : List CString → Nat → Nat → List CString
  | [], _, _ => []
  | r :: rest, f, t =>
    let l := r.length
    if t ≤ f then r :: rest
    else if f ≥ l then r :: deleteRuns rest (f - l) (t - l)
    else if t ≤ l then (r.take f ++ r.drop t) :: rest
    else r.take f :: deleteRuns rest 0 (t - l)

/-- Number of direct children of a node (runs of a leaf). -/
def childCount : RNode → Nat
  | .leaf rs _ => rs.length
  | .inNode cs _ => cs.length

/-- Modelled from the spec: merge two underfull siblings at the same level,
splitting the combination when it exceeds `MAX_CHILDREN_NUM = 4` (§4.1
rebalancing by merging). -/
def mergeNodes : RNode → RNode → List RNode
  | .leaf r1 _, .leaf r2 _ =>
    let rs := mergeRuns (r1 ++ r2)
    if rs.length ≤ 4 then [mkLeaf rs]
    else [mkLeaf (rs.take ((rs.length + 1) / 2)), mkLeaf (rs.drop ((rs.length + 1) / 2))]
  | .inNode c1 _, .inNode c2 _ =>
    let cs := c1 ++ c2
    if cs.length ≤ 4 then [mkInternal cs]
    else [mkInternal (cs.take ((cs.length + 1) / 2)), mkInternal (cs.drop ((cs.length + 1) / 2))]
  | a, b => [a, b]

/-- Modelled from the spec: after a deletion, merge an underfull node
(`< MIN_CHILDREN_NUM = 2` children) with its right neighbour (§4.1). -/
def rebalance : List RNode → List RNode
  | [] => []
  | [c] => [c]
  | a :: b :: rest =>
    if childCount a < 2 ∨ childCount b < 2 then mergeNodes a b ++ rebalance rest
    else a :: rebalance (b :: rest)

mutual

/-- Modelled from the spec: RLE-tree insert at a character index (§4.1):
descend by cached lengths, splice into the leaf, split an overfull node into
two; caches are recomputed with the `update_cache_*` callbacks at every
rebuilt node. -/
def insertNode : RNode → Nat → CString → List RNode
  | .leaf runs _, idx, s =>
    let rs := mergeRuns (spliceRuns runs idx s)
    if rs.length ≤ 4 then [mkLeaf rs]
    else [mkLeaf (rs.take ((rs.length + 1) / 2)), mkLeaf (rs.drop ((rs.length + 1) / 2))]
  | .inNode cs _, idx, s =>
    let cs2 := insertChildren cs idx s
    if cs2.length ≤ 4 then [mkInternal cs2]
    else [mkInternal (cs2.take ((cs2.length + 1) / 2)),
          mkInternal (cs2.drop ((cs2.length + 1) / 2))]

/-- Child location of `find_pos_internal` (string_tree.rs): take the first
child whose cached length the index does not exceed, else recurse with the
index reduced by the child's cache. -/
def insertChildren : List RNode → Nat → CString → List RNode
  | [], _, s => [mkLeaf [s]]
  | [c], idx, s => insertNode c idx s
  | c :: c2 :: rest, idx, s =>
    if idx ≤ nodeLen c then insertNode c idx s ++ c2 :: rest
    else c :: insertChildren (c2 :: rest) (idx - nodeLen c) s

end

mutual

/-- Modelled from the spec: RLE-tree range deletion (§4.1 `delete_range`):
slice boundary runs, remove interior content, rebalance underfull children;
caches recomputed at every rebuilt node. -/
def deleteNode : RNode → Nat → Nat → RNode
  | .leaf runs _, f, t => mkLeaf (mergeRuns (deleteRuns runs f t))
  | .inNode cs _, f, t => mkInternal (rebalance (deleteChildren cs f t))

/-- Distribute a character-range deletion over an internal node's children by
their cached lengths. -/
def deleteChildren : List RNode → Nat → Nat → List RNode
  | [], _, _ => []
  | c :: rest, f, t =>
    let l := nodeLen c
    if t ≤ f then c :: rest
    else if f ≥ l then c :: deleteChildren rest (f - l) (t - l)
    else if t ≤ l then deleteNode c f t :: rest
    else deleteNode c f l :: deleteChildren rest 0 (t - l)

end

/-- Top-level insert: grow the root when it splits. -/
def insertTree (t : RNode) (idx : Nat) (s : CString) : RNode :=
  match insertNode t idx s with
  | [x] => x
  | xs => mkInternal xs

/-- Top-level range delete (`delete(pos, len)`). -/
def deleteTree (t : RNode) (pos len : Nat) : RNode :=
  deleteNode t pos (pos + len)


/-- The rewrite application of one dispatch (the relative-path/current-target
update inside `call_observers`). -/
def pcOf (d : EventDispatch) (rp : Path) (ct : Option ContainerID) :
    Path × Option ContainerID :=
  match d.rewrite with
  | some pt => (pt.relativePath, pt.target)
  | none => (rp, ct)


/-- Fixture: a tiny hierarchy (root "r" with child A, grandchild B) used by
concrete witnesses. -/
def exRoot : ContainerID := .root "r" .map

/-- Fixture container A (a normal container under the root). -/
def exA : ContainerID := .normal ⟨1, 0⟩ .text

/-- Fixture container B (a normal container under A). -/
def exB : ContainerID := .normal ⟨2, 0⟩ .text

/-- Fixture hierarchy: root "r" → A → B. -/
def exH : Hierarchy := (({} : Hierarchy).addChild exRoot exA).addChild exA exB

/-- The invocation entries contributed by the deep dispatches along a chain. -/
def expectedDeepInv (nodes : List (ContainerID × HNode)) (ptr : Path) :
    Nat → List ContainerID → List (SubscriptionID × Path × Option ContainerID)
  | _, [] => []
  | i, a :: rest =>
    (match lookupNode nodes a with
     | some n =>
       if n.deepObservers ≠ [] then
         n.deepObservers.map (fun s => (s, (ptr.take i).reverse, some a))
       else []
     | none => []) ++ expectedDeepInv nodes ptr (i + 1) rest

/-- The concatenation of the deep-observer sets along a chain. -/
def deepJoin (nodes : List (ContainerID × HNode)) (chain : List ContainerID) :
    List SubscriptionID :=
  (chain.map (fun a => ((lookupNode nodes a).getD {}).deepObservers)).join

/-- Fixture hierarchy with observers: root "r" → A; shallow id 0 at A, deep
id 1 at A, deep id 2 at the root node, root observer id 3. -/
def exHobs : Hierarchy :=
  (((((({} : Hierarchy).addChild exRoot exA).subscribe exA false).2.subscribe exA
    true).2.subscribe exRoot true).2.subscribeRoot).2


/-- Tree states reachable from the empty tree by inserts and range deletes. -/
inductive ReachT : RNode → Prop
  | init : ReachT (mkLeaf [])
  | ins {t : RNode} (idx : Nat) (s : CString) : ReachT t → ReachT (insertTree t idx s)
  | del {t : RNode} (pos len : Nat) : ReachT t → ReachT (deleteTree t pos len)



def insChangeOf (n : Nat) (r : Replica) (pos : Nat) (s : List Char) : Change :=
  { csite := r.rsite, ccounter := r.nextCounter, lamport := r.nextLamport,
    op := .ins (mkInsElems r.rsite r.nextLamport (vvOf n r.changes)
      (originRightAt r.doc pos) r.nextCounter (originLeftAt r.doc pos) s) }

/-- The single-client replica invariant. -/
def SInv (r : Replica) : Prop :=
  r.rsite = 0 ∧
  (∀ c ∈ r.changes, c.lamport < r.nextLamport) ∧
  ((r.doc.map (fun f => f.eid)).Nodup) ∧
  (∀ f ∈ r.doc, f.eid.site = 0 ∧ f.eid.counter < r.nextCounter) ∧
  siteVV r.changes 0 = r.nextCounter

/-- A concrete three-character replica used by the delete-clamping witness. -/
def rC7 : Replica :=
  localInsert 1 { rsite := 0, changes := [], nextCounter := 0, nextLamport := 0 } 0
    ('a' :: 'b' :: 'c' :: [])

/-- The identity of a change: its span start `(site, counter)`. -/
def startKey (c : Change) : Nat × Nat := (c.csite, c.ccounter)

/-- The site-`s` changes of the creation history, in creation order. -/
def histSite (h : List Change) (s : Nat) : List Change :=
  h.filter (fun c => c.csite = s)

/-- Total number of op ids consumed by a change list. -/
def sumSpans (cs : List Change) : Nat := (cs.map Change.spanLen).sum

/-- Contiguity of a per-site change sequence starting at counter `k`. -/
def contig : Nat → List Change → Prop
  | _, [] => True
  | k, c :: cs => c.ccounter = k ∧ contig (k + c.spanLen) cs

/-- The multi-site invariant: each replica's per-site change set is (a
permutation of) a prefix of that site's creation history, its own site's
prefix is complete, counters are contiguous, and history keys are unique. -/
def WInv (w : World) : Prop :=
  w.replicas.length = w.siteCount ∧
  (w.hist.map startKey).Nodup ∧
  (∀ c ∈ w.hist, 1 ≤ c.spanLen ∧ c.csite < w.siteCount) ∧
  (∀ s : Nat, contig 0 (histSite w.hist s)) ∧
  (∀ i, i < w.siteCount →
    (w.rep i).rsite = i ∧
    (∀ s : Nat, ∃ k, k ≤ (histSite w.hist s).length ∧
      List.Perm ((w.rep i).changes.filter (fun c => decide (c.csite = s)))
        ((histSite w.hist s).take k)) ∧
    List.Perm ((w.rep i).changes.filter (fun c => decide (c.csite = i))) (histSite w.hist i) ∧
    (w.rep i).nextCounter = sumSpans (histSite w.hist i))

/-- The delete change appended by `localDelete` (when it is not a no-op). -/
def delChangeOf (r : Replica) (ts : List OpId) : Change :=
  { csite := r.rsite, ccounter := r.nextCounter, lamport := r.nextLamport, op := .del ts }


theorem lookupNode_nil (id : ContainerID) : lookupNode [] id = none := rfl

theorem lookupNode_cons (k : ContainerID) (n : HNode) (rest : List (ContainerID × HNode))
    (id : ContainerID) :
    lookupNode ((k, n) :: rest) id = if k = id then some n else lookupNode rest id := by
  by_cases h : k = id <;> simp [lookupNode, List.find?_cons, h]

theorem lookupNode_append (l1 l2 : List (ContainerID × HNode)) (id : ContainerID) :
    lookupNode (l1 ++ l2) id =
      if (lookupNode l1 id).isSome then lookupNode l1 id else lookupNode l2 id := by
  induction l1 with
  | nil => simp [lookupNode_nil]
  | cons p rest ih =>
    obtain ⟨k, n⟩ := p
    by_cases h : k = id <;> simp [List.cons_append, lookupNode_cons, h, ih]

theorem lookup_map_replace (nodes : List (ContainerID × HNode)) (id : ContainerID)
    (n : HNode) (id2 : ContainerID) :
    lookupNode (nodes.map (fun p => if p.1 = id then (id, n) else p)) id2 =
      if id = id2 then (lookupNode nodes id).map (fun _ => n) else lookupNode nodes id2 := by
  induction nodes with
  | nil => simp [lookupNode_nil]
  | cons p rest ih =>
    obtain ⟨k, m⟩ := p
    by_cases hk : k = id
    · subst hk
      by_cases h2 : k = id2
      · subst h2
        simp [lookupNode_cons]
      · simp [lookupNode_cons, h2, ih]
    · by_cases h2 : k = id2
      · subst h2
        have : ¬ id = k := fun h => hk h.symm
        simp [lookupNode_cons, hk, this]
      · simp [lookupNode_cons, hk, h2, ih]

theorem isSome_find_iff (nodes : List (ContainerID × HNode)) (id : ContainerID) :
    (List.find? (fun p => decide (p.1 = id)) nodes).isSome = (lookupNode nodes id).isSome := by
  simp [lookupNode]

theorem lookupNode_setNode (nodes : List (ContainerID × HNode)) (id : ContainerID)
    (n : HNode) (id2 : ContainerID) :
    lookupNode (setNode nodes id n) id2 =
      if id = id2 then some n else lookupNode nodes id2 := by
  unfold setNode
  by_cases hf : (List.find? (fun p => decide (p.1 = id)) nodes).isSome
  · rw [if_pos hf, lookup_map_replace]
    rw [isSome_find_iff] at hf
    obtain ⟨x, hx⟩ := Option.isSome_iff_exists.mp hf
    by_cases h2 : id = id2
    · subst h2
      simp [hx]
    · simp [h2]
  · rw [if_neg hf, lookupNode_append]
    rw [isSome_find_iff] at hf
    have hf2 : lookupNode nodes id = none := by
      cases hlk : lookupNode nodes id with
      | none => rfl
      | some x => rw [hlk] at hf; simp at hf
    by_cases h2 : id = id2
    · subst h2
      simp [hf2, lookupNode_cons, lookupNode_nil]
    · cases hlk : lookupNode nodes id2 with
      | none => simp [hlk, lookupNode_cons, lookupNode_nil, h2]
      | some x => simp [hlk, h2]

theorem lookupNode_eraseNode (nodes : List (ContainerID × HNode)) (id id2 : ContainerID) :
    lookupNode (eraseNode nodes id) id2 =
      if id = id2 then none else lookupNode nodes id2 := by
  induction nodes with
  | nil => simp [eraseNode, lookupNode_nil]
  | cons p rest ih =>
    obtain ⟨k, m⟩ := p
    by_cases hk : k = id
    · subst hk
      have hstep : eraseNode ((k, m) :: rest) k = eraseNode rest k := by
        simp [eraseNode]
      rw [hstep, ih]
      by_cases h2 : k = id2
      · simp [h2]
      · simp [h2, lookupNode_cons]
    · have hstep : eraseNode ((k, m) :: rest) id = (k, m) :: eraseNode rest id := by
        simp [eraseNode, hk]
      rw [hstep, lookupNode_cons, ih, lookupNode_cons]
      by_cases h2 : k = id2
      · subst h2
        have hne : ¬ id = k := fun h => hk h.symm
        simp [hne]
      · simp [h2]



theorem mem_insertCID (x c : ContainerID) (l : List ContainerID) :
    x ∈ insertCID c l ↔ x = c ∨ x ∈ l := by
  unfold insertCID
  by_cases h : c ∈ l
  · simp [h]
    intro hx
    subst hx
    exact h
  · simp [h, or_comm]

theorem Reaches.trans {nodes : List (ContainerID × HNode)} {a b c : ContainerID}
    (h1 : Reaches nodes a b) (h2 : Reaches nodes b c) : Reaches nodes a c := by
  induction h2 with
  | refl => exact h1
  | step _ hl hc ih => exact Reaches.step ih hl hc

theorem collectDesc_inv (nodes : List (ContainerID × HNode)) :
    ∀ (fuel : Nat) (stack visited out : List ContainerID),
    collectDesc nodes fuel stack visited = some out →
    (∀ x ∈ visited, x ∈ out) ∧
    (∀ s ∈ stack, s ∈ out) ∧
    (∀ x ∈ out, x ∈ visited ∨ ∃ s ∈ stack, Reaches nodes s x) ∧
    ((∀ x ∈ visited, ∀ n, lookupNode nodes x = some n →
        ∀ y ∈ n.children, y ∈ visited ∨ y ∈ stack) →
      ∀ x ∈ out, ∀ n, lookupNode nodes x = some n → ∀ y ∈ n.children, y ∈ out) := by
  intro fuel
  induction fuel with
  | zero => intro stack visited out h; simp [collectDesc] at h
  | succ fuel ih =>
    intro stack visited out h
    match stack with
    | [] =>
      simp [collectDesc] at h
      subst h
      refine ⟨fun x hx => hx, by simp, fun x hx => Or.inl hx, ?_⟩
      intro hcl x hx n hn y hy
      rcases hcl x hx n hn y hy with h1 | h1
      · exact h1
      · simp at h1
    | c :: stack2 =>
      rw [collectDesc] at h
      cases hl : lookupNode nodes c with
      | none =>
        rw [hl] at h
        obtain ⟨h1, h2, h3, h4⟩ := ih stack2 (insertCID c visited) out h
        refine ⟨fun x hx => h1 x ((mem_insertCID x c visited).mpr (Or.inr hx)), ?_, ?_, ?_⟩
        · intro s hs
          rcases List.mem_cons.mp hs with rfl | hs
          · exact h1 s ((mem_insertCID s s visited).mpr (Or.inl rfl))
          · exact h2 s hs
        · intro x hx
          rcases h3 x hx with hv | ⟨s, hs, hr⟩
          · rcases (mem_insertCID x c visited).mp hv with rfl | hv
            · exact Or.inr ⟨x, List.mem_cons_self x stack2, Reaches.refl x⟩
            · exact Or.inl hv
          · exact Or.inr ⟨s, List.mem_cons.mpr (Or.inr hs), hr⟩
        · intro hcl
          refine h4 ?_
          intro x hx n hn y hy
          rcases (mem_insertCID x c visited).mp hx with rfl | hx
          · rw [hn] at hl; cases hl
          · rcases hcl x hx n hn y hy with h5 | h5
            · exact Or.inl ((mem_insertCID y c visited).mpr (Or.inr h5))
            · rcases List.mem_cons.mp h5 with rfl | h5
              · exact Or.inl ((mem_insertCID y y visited).mpr (Or.inl rfl))
              · exact Or.inr h5
      | some node =>
        rw [hl] at h
        obtain ⟨h1, h2, h3, h4⟩ := ih (node.children ++ stack2) (insertCID c visited) out h
        have hcmem : c ∈ out := h1 c ((mem_insertCID c c visited).mpr (Or.inl rfl))
        refine ⟨fun x hx => h1 x ((mem_insertCID x c visited).mpr (Or.inr hx)), ?_, ?_, ?_⟩
        · intro s hs
          rcases List.mem_cons.mp hs with rfl | hs
          · exact hcmem
          · exact h2 s (List.mem_append.mpr (Or.inr hs))
        · intro x hx
          rcases h3 x hx with hv | ⟨s, hs, hr⟩
          · rcases (mem_insertCID x c visited).mp hv with rfl | hv
            · exact Or.inr ⟨x, List.mem_cons_self x stack2, Reaches.refl x⟩
            · exact Or.inl hv
          · rcases List.mem_append.mp hs with hch | hs
            · refine Or.inr ⟨c, List.mem_cons_self c stack2, ?_⟩
              exact Reaches.trans (Reaches.step (Reaches.refl c) hl hch) hr
            · exact Or.inr ⟨s, List.mem_cons.mpr (Or.inr hs), hr⟩
        · intro hcl
          refine h4 ?_
          intro x hx n hn y hy
          rcases (mem_insertCID x c visited).mp hx with rfl | hx
          · rw [hn] at hl
            cases hl
            exact Or.inr (List.mem_append.mpr (Or.inl hy))
          · rcases hcl x hx n hn y hy with h5 | h5
            · exact Or.inl ((mem_insertCID y c visited).mpr (Or.inr h5))
            · rcases List.mem_cons.mp h5 with rfl | h5
              · exact Or.inl ((mem_insertCID y y visited).mpr (Or.inl rfl))
              · exact Or.inr (List.mem_append.mpr (Or.inr h5))

theorem collectDesc_eq_reach (nodes : List (ContainerID × HNode)) (fuel : Nat)
    (child : ContainerID) (out : List ContainerID)
    (h : collectDesc nodes fuel [child] [] = some out) :
    ∀ x, x ∈ out ↔ Reaches nodes child x := by
  obtain ⟨_, h2, h3, h4⟩ := collectDesc_inv nodes fuel [child] [] out h
  intro x
  constructor
  · intro hx
    rcases h3 x hx with hv | ⟨s, hs, hr⟩
    · simp at hv
    · simp at hs
      subst hs
      exact hr
  · intro hr
    induction hr with
    | refl => exact h2 child (by simp)
    | step hr1 hl hc ih =>
      exact h4 (by intro x hx; simp at hx) _ ih _ hl _ hc



theorem lookup_foldl_erase (visited : List ContainerID) :
    ∀ (nodes : List (ContainerID × HNode)) (id : ContainerID),
    lookupNode (visited.foldl eraseNode nodes) id =
      if id ∈ visited then none else lookupNode nodes id := by
  induction visited with
  | nil => intro nodes id; simp
  | cons v rest ih =>
    intro nodes id
    rw [List.foldl_cons, ih, lookupNode_eraseNode]
    by_cases h1 : id ∈ rest
    · simp [h1]
    · by_cases h2 : v = id
      · subst h2; simp [h1]
      · have : ¬ id = v := fun hh => h2 hh.symm
        simp [h1, h2, this]

theorem mem_foldl_insertCID (visited : List ContainerID) :
    ∀ (acc : List ContainerID) (x : ContainerID),
    x ∈ visited.foldl (fun acc c => insertCID c acc) acc ↔ x ∈ acc ∨ x ∈ visited := by
  induction visited with
  | nil => intro acc x; simp
  | cons v rest ih =>
    intro acc x
    rw [List.foldl_cons, ih, mem_insertCID]
    constructor
    · rintro ((h | h) | h)
      · exact Or.inr (by simp [h])
      · exact Or.inl h
      · exact Or.inr (by simp [h])
    · rintro (h | h)
      · exact Or.inl (Or.inr h)
      · rcases List.mem_cons.mp h with rfl | h
        · exact Or.inl (Or.inl rfl)
        · exact Or.inr h

/-- Claim C10: `remove_child` removes `child` from the parent's children set,
deletes the node records of `child` and of every container transitively
reachable from it via children links (so `contains` becomes false for each
non-root descendant), leaves all other nodes untouched, accumulates exactly
the removed ids into `latest_deleted`, which the next `take_deleted` returns
and clears; with no node entry for the parent, nothing changes. -/
theorem C10_remove_child_deletes_descendants (h : Hierarchy) (parent child : ContainerID)
    (fuel : Nat) :
    (lookupNode h.nodes parent = none → h.removeChild parent child fuel = some h) ∧
    (∀ pnode nodes1, lookupNode h.nodes parent = some pnode →
      nodes1 = setNode h.nodes parent
        { pnode with children := pnode.children.erase child } →
      ∀ h2, h.removeChild parent child fuel = some h2 →
      (∀ x, Reaches nodes1 child x →
        lookupNode h2.nodes x = none ∧ (x.isRoot = false → h2.containsId x = false)) ∧
      (∀ x, ¬ Reaches nodes1 child x → lookupNode h2.nodes x = lookupNode nodes1 x) ∧
      (¬ Reaches nodes1 child parent →
        lookupNode h2.nodes parent =
          some { pnode with children := pnode.children.erase child }) ∧
      (∀ x, x ∈ h2.latestDeleted ↔ x ∈ h.latestDeleted ∨ Reaches nodes1 child x) ∧
      (h2.takeDeleted.1 = h2.latestDeleted ∧ h2.takeDeleted.2.latestDeleted = []) ∧
      (h.latestDeleted = [] →
        ∀ x, x ∈ h2.takeDeleted.1 ↔ Reaches nodes1 child x)) := by
  constructor
  · intro hnone
    unfold Hierarchy.removeChild
    rw [hnone]
  · intro pnode nodes1 hsome hn1 h2 hrem
    unfold Hierarchy.removeChild at hrem
    rw [hsome] at hrem
    simp only [← hn1] at hrem
    cases hcd : collectDesc nodes1 fuel [child] [] with
    | none => rw [hcd] at hrem; cases hrem
    | some visited =>
      rw [hcd] at hrem
      have hreach := collectDesc_eq_reach nodes1 fuel child visited hcd
      have hinj : h2 = { h with
          nodes := visited.foldl eraseNode nodes1
          latestDeleted := visited.foldl (fun acc c => insertCID c acc) h.latestDeleted } := by
        cases hrem; rfl
      subst hinj
      refine ⟨?_, ?_, ?_, ?_, ⟨rfl, rfl⟩, ?_⟩
      · intro x hx
        have hmem : x ∈ visited := (hreach x).mpr hx
        constructor
        · simp [lookup_foldl_erase, hmem]
        · intro hroot
          simp [Hierarchy.containsId, lookup_foldl_erase, hmem, hroot]
      · intro x hx
        have hmem : x ∉ visited := fun hm => hx ((hreach x).mp hm)
        simp [lookup_foldl_erase, hmem]
      · intro hpar
        have hmem : parent ∉ visited := fun hm => hpar ((hreach parent).mp hm)
        simp [lookup_foldl_erase, hmem, hn1, lookupNode_setNode]
      · intro x
        rw [show ({ h with
            nodes := visited.foldl eraseNode nodes1,
            latestDeleted :=
              visited.foldl (fun acc c => insertCID c acc) h.latestDeleted } : Hierarchy).latestDeleted
          = visited.foldl (fun acc c => insertCID c acc) h.latestDeleted from rfl]
        rw [mem_foldl_insertCID, hreach]
      · intro hemp x
        rw [show ({ h with
            nodes := visited.foldl eraseNode nodes1,
            latestDeleted :=
              visited.foldl (fun acc c => insertCID c acc) h.latestDeleted } : Hierarchy).takeDeleted.1
          = visited.foldl (fun acc c => insertCID c acc) h.latestDeleted from rfl]
        rw [mem_foldl_insertCID, hreach, hemp]
        simp




theorem C10_witness :
    lookupNode ((exH.removeChild exRoot exA 5).getD {}).nodes exA = none := by
  have happ := (C10_remove_child_deletes_descendants exH exRoot exA 5).2
    { parent := none, children := [exA], observers := [], deepObservers := [] }
    (setNode exH.nodes exRoot
      { ({ parent := none, children := [exA], observers := [], deepObservers := [] } : HNode) with
          children := List.erase [exA] exA })
    (by decide) rfl ((exH.removeChild exRoot exA 5).getD {}) (by decide)
  exact (happ.1 exA (Reaches.refl exA)).1

/-- Claim C9: `unsubscribe` removes the id only from the container's shallow
observer set (deep sets, root observers and the observer table are untouched);
after a deep subscription, `unsubscribe` with the minted id returns false and
leaves the state unchanged; with no node entry it returns false and changes
nothing. -/
theorem C9_unsubscribe_shallow_only :
    (∀ (h : Hierarchy) (c : ContainerID) (id : SubscriptionID) (n : HNode),
      lookupNode h.nodes c = some n →
      (∀ cid, cid ≠ c →
        lookupNode ((h.unsubscribe c id).2).nodes cid = lookupNode h.nodes cid) ∧
      lookupNode ((h.unsubscribe c id).2).nodes c =
        some { n with observers := n.observers.erase id } ∧
      ((h.unsubscribe c id).2).rootObservers = h.rootObservers ∧
      ((h.unsubscribe c id).2).observers = h.observers) ∧
    (∀ (h : Hierarchy) (c : ContainerID),
      (∀ n, lookupNode h.nodes c = some n → h.eventCounter ∉ n.observers) →
      (((h.subscribe c true).2).unsubscribe c (h.subscribe c true).1) =
        (false, (h.subscribe c true).2)) ∧
    (∀ (h : Hierarchy) (c : ContainerID) (id : SubscriptionID),
      lookupNode h.nodes c = none → h.unsubscribe c id = (false, h)) := by
  refine ⟨?_, ?_, ?_⟩
  · intro h c id n hn
    by_cases hmem : id ∈ n.observers
    · have hnodes : ((h.unsubscribe c id).2).nodes =
          setNode h.nodes c { n with observers := n.observers.erase id } := by
        unfold Hierarchy.unsubscribe
        rw [hn]
        by_cases hc : h.calling <;> simp [hmem, hc]
      have hroot : ((h.unsubscribe c id).2).rootObservers = h.rootObservers := by
        unfold Hierarchy.unsubscribe
        rw [hn]
        by_cases hc : h.calling <;> simp [hmem, hc]
      have hobs : ((h.unsubscribe c id).2).observers = h.observers := by
        unfold Hierarchy.unsubscribe
        rw [hn]
        by_cases hc : h.calling <;> simp [hmem, hc]
      rw [hnodes]
      refine ⟨?_, ?_, hroot, hobs⟩
      · intro cid hcid
        rw [lookupNode_setNode]
        have : ¬ c = cid := fun hh => hcid hh.symm
        simp [this]
      · rw [lookupNode_setNode]
        simp
    · have hres : h.unsubscribe c id = (false, h) := by
        unfold Hierarchy.unsubscribe
        rw [hn]
        simp [hmem]
      rw [hres]
      exact ⟨fun cid _ => rfl, by rw [hn, List.erase_of_not_mem hmem], rfl, rfl⟩
  · intro h c hfresh
    unfold Hierarchy.subscribe Hierarchy.unsubscribe
    simp only [lookupNode_setNode, if_pos rfl]
    have hobs : ((lookupNode h.nodes c).getD {}).observers =
        (({ (lookupNode h.nodes c).getD {} with
            deepObservers := insertSub h.eventCounter
              ((lookupNode h.nodes c).getD {}).deepObservers } : HNode)).observers := rfl
    have hnotmem : h.eventCounter ∉ ((lookupNode h.nodes c).getD {}).observers := by
      cases hl : lookupNode h.nodes c with
      | none => simp [hl, HNode]
      | some n => simpa [hl] using hfresh n hl
    simp [hnotmem]
  · intro h c id hnone
    unfold Hierarchy.unsubscribe
    rw [hnone]

theorem C9_witness :
    ((((({} : Hierarchy).addChild exRoot exA).subscribe exA true).2).unsubscribe exA
      ((({} : Hierarchy).addChild exRoot exA).subscribe exA true).1) =
      (false, ((({} : Hierarchy).addChild exRoot exA).subscribe exA true).2) := by
  exact C9_unsubscribe_shallow_only.2.1 (({} : Hierarchy).addChild exRoot exA) exA
    (by decide)




theorem rootsNoParent_lookup {nodes : List (ContainerID × HNode)}
    (hr : RootsNoParent nodes) :
    ∀ id n, lookupNode nodes id = some n → id.isRoot = true → n.parent = none := by
  intro id n hl hroot
  unfold lookupNode at hl
  cases hfind : nodes.find? (fun p => decide (p.1 = id)) with
  | none => rw [hfind] at hl; cases hl
  | some p =>
    rw [hfind] at hl
    simp at hl
    have hkey : p.1 = id := by
      have := List.find?_some hfind
      simpa using this
    have hmem := List.mem_of_find?_eq_some hfind
    subst hl
    exact hr p hmem (hkey ▸ hroot)

theorem getPathAux_isSome_iff (nodes : List (ContainerID × HNode)) (reg : RegIdx) :
    ∀ (fuel : Nat) (id : ContainerID) (acc : Path) (r : Option Path),
    getPathAux nodes reg none fuel id acc = some r →
    (r.isSome = true ↔ TerminatesAtRoot nodes id) := by
  intro fuel
  induction fuel with
  | zero => intro id acc r h; simp [getPathAux] at h
  | succ fuel ih =>
    intro id acc r h
    rw [getPathAux] at h; rw [getPathVisit.eq_def] at h
    cases hl : lookupNode nodes id with
    | none =>
      simp only [hl] at h
      by_cases hroot : id.isRoot = true
      · rw [if_pos hroot] at h
        cases h
        simp
        exact TerminatesAtRoot.missing hl hroot
      · rw [if_neg hroot] at h
        cases h
        simp
        intro hterm
        cases hterm with
        | missing h1 h2 => exact hroot h2
        | noParent h1 h2 h3 => simp only [hl] at h1; cases h1
        | step h1 h2 h3 => simp only [hl] at h1; cases h1
    | some node =>
      simp only [hl] at h
      cases hp : node.parent with
      | some p =>
        simp only [hp] at h
        have hne : ¬ (none : Option ContainerID) = some p := by simp
        rw [if_neg hne] at h
        rw [ih p (acc ++ [reg p id]) r h]
        constructor
        · intro hterm
          exact TerminatesAtRoot.step hl hp hterm
        · intro hterm
          cases hterm with
          | missing h1 h2 => simp only [hl] at h1; cases h1
          | noParent h1 h2 h3 =>
            simp only [hl] at h1; cases h1; simp only [hp] at h2; cases h2
          | step h1 h2 h3 =>
            simp only [hl] at h1
            cases h1
            simp only [hp] at h2
            cases h2
            exact h3
      | none =>
        simp only [hp] at h
        cases id with
        | root nm ty =>
          cases h
          simp
          exact TerminatesAtRoot.noParent hl hp rfl
        | normal oid ty =>
          cases h
          simp
          intro hterm
          cases hterm with
          | missing h1 h2 => simp only [hl] at h1; cases h1
          | noParent h1 h2 h3 => simp [ContainerID.isRoot] at h3
          | step h1 h2 h3 =>
            simp only [hl] at h1; cases h1; simp only [hp] at h2; cases h2

theorem getPathAux_complete (nodes : List (ContainerID × HNode)) (reg : RegIdx)
    {id : ContainerID} (hterm : TerminatesAtRoot nodes id) :
    ∀ acc, ∃ fuel r, getPathAux nodes reg none fuel id acc = some (some r) := by
  induction hterm with
  | @missing id h1 h2 =>
    intro acc
    exact ⟨1, acc ++ [Index.key id.name], by simp [getPathAux, getPathVisit.eq_def, h1, h2]⟩
  | @noParent id n h1 h2 h3 =>
    intro acc
    cases id with
    | root nm ty => exact ⟨1, acc ++ [Index.key nm], by simp [getPathAux, getPathVisit.eq_def, h1, h2]⟩
    | normal oid ty => simp [ContainerID.isRoot] at h3
  | @step id p n h1 h2 h3 ih =>
    intro acc
    obtain ⟨fuel, r, hr⟩ := ih (acc ++ [reg p id])
    refine ⟨fuel + 1, r, ?_⟩
    rw [getPathAux]; rw [getPathVisit.eq_def]; rw [h1]
    simp only [h2]
    rw [if_neg (by simp)]
    exact hr

theorem getPathAux_nonempty (nodes : List (ContainerID × HNode)) (reg : RegIdx)
    (target : Option ContainerID) :
    ∀ (fuel : Nat) (id : ContainerID) (acc : Path) (r : Path),
    getPathAux nodes reg target fuel id acc = some (some r) →
    ∃ x rest, r = acc ++ x :: rest := by
  intro fuel
  induction fuel with
  | zero => intro id acc r h; simp [getPathAux] at h
  | succ fuel ih =>
    intro id acc r h
    rw [getPathAux] at h; rw [getPathVisit.eq_def] at h
    cases hl : lookupNode nodes id with
    | none =>
      simp only [hl] at h
      by_cases hroot : id.isRoot = true
      · rw [if_pos hroot] at h
        cases h
        exact ⟨Index.key id.name, [], rfl⟩
      · rw [if_neg hroot] at h
        cases h
    | some node =>
      simp only [hl] at h
      cases hp : node.parent with
      | some p =>
        simp only [hp] at h
        by_cases htgt : target = some p
        · rw [if_pos htgt] at h
          cases h
          exact ⟨reg p id, [], rfl⟩
        · rw [if_neg htgt] at h
          obtain ⟨x, rest, hxr⟩ := ih p (acc ++ [reg p id]) r h
          exact ⟨reg p id, x :: rest, by simpa using hxr⟩
      | none =>
        simp only [hp] at h
        cases id with
        | root nm ty =>
          cases h
          exact ⟨Index.key nm, [], rfl⟩
        | normal oid ty => cases h




/-- Claim C6: `get_path` (and `get_abs_path`) returns `Some` iff the walk
along parent links from the container terminates at a root; in particular a
descendant one of whose ancestors is detached or deleted gets `None`; and a
terminating walk yields a path for sufficient fuel. -/
theorem C6_get_path_iff_root (h : Hierarchy) (reg : RegIdx) (d : ContainerID) (fuel : Nat)
    (hroots : RootsNoParent h.nodes) :
    (∀ r, h.getPath reg d none fuel = some r →
      (r.isSome = true ↔ TerminatesAtRoot h.nodes d)) ∧
    (∀ r, h.getAbsPath reg d fuel = some r →
      (r.isSome = true ↔ TerminatesAtRoot h.nodes d)) ∧
    (∀ r, h.getPath reg d none fuel = some r →
      ¬ TerminatesAtRoot h.nodes d → r = none) ∧
    (TerminatesAtRoot h.nodes d → ∃ f p, h.getPath reg d none f = some (some p)) := by
  have hterm_root : ∀ nm ty, d = ContainerID.root nm ty → TerminatesAtRoot h.nodes d := by
    intro nm ty hd
    subst hd
    cases hl : lookupNode h.nodes (ContainerID.root nm ty) with
    | none => exact TerminatesAtRoot.missing hl rfl
    | some n =>
      exact TerminatesAtRoot.noParent hl
        (rootsNoParent_lookup hroots _ n hl rfl) rfl
  have hmain : ∀ r, h.getPath reg d none fuel = some r →
      (r.isSome = true ↔ TerminatesAtRoot h.nodes d) := by
    intro r hr
    cases d with
    | root nm ty =>
      unfold Hierarchy.getPath at hr
      cases hr
      simp
      exact hterm_root nm ty rfl
    | normal oid ty =>
      unfold Hierarchy.getPath at hr
      rw [if_neg (by simp)] at hr
      cases haux : getPathAux h.nodes reg none fuel (ContainerID.normal oid ty) [] with
      | none => rw [haux] at hr; cases hr
      | some r0 =>
        rw [haux] at hr
        simp at hr
        subst hr
        have hiff := getPathAux_isSome_iff h.nodes reg fuel _ [] r0 haux
        cases r0 with
        | none => simpa using hiff
        | some q => simpa using hiff
  refine ⟨hmain, ?_, ?_, ?_⟩
  · intro r hr
    unfold Hierarchy.getAbsPath at hr
    cases hgp : h.getPath reg d none fuel with
    | none => rw [hgp] at hr; cases hr
    | some r1 =>
      rw [hgp] at hr
      simp at hr
      subst hr
      rw [← hmain r1 hgp]
      cases r1 with
      | none => simp
      | some p =>
        simp
        have hne : p ≠ [] := by
          cases d with
          | root nm ty =>
            unfold Hierarchy.getPath at hgp
            cases hgp
            simp
          | normal oid ty =>
            unfold Hierarchy.getPath at hgp
            rw [if_neg (by simp)] at hgp
            cases haux : getPathAux h.nodes reg none fuel (ContainerID.normal oid ty) [] with
            | none => rw [haux] at hgp; cases hgp
            | some r0 =>
              rw [haux] at hgp
              simp at hgp
              cases r0 with
              | none => simp at hgp
              | some q =>
                simp at hgp
                obtain ⟨x, rest, hq⟩ :=
                  getPathAux_nonempty h.nodes reg none fuel _ [] q haux
                subst hgp
                simp [hq]
        simp [hne]
  · intro r hr hnt
    have := (hmain r hr).not.mpr hnt
    cases r with
    | none => rfl
    | some p => simp at this
  · intro hterm
    cases d with
    | root nm ty =>
      exact ⟨0, [Index.key nm], rfl⟩
    | normal oid ty =>
      obtain ⟨f, r, hfr⟩ := getPathAux_complete h.nodes reg hterm []
      refine ⟨f, r.reverse, ?_⟩
      unfold Hierarchy.getPath
      rw [if_neg (by simp), hfr]
      rfl

theorem C6_witness : TerminatesAtRoot exH.nodes exB := by
  have happ := (C6_get_path_iff_root exH (fun _ _ => Index.seq 0) exB 5 (by decide)).1
  exact (happ (some [Index.key "r", Index.seq 0, Index.seq 0]) (by decide)).mp (by decide)


theorem deepDispatches_chain (nodes : List (ContainerID × HNode)) (ptr : Path)
    {id : ContainerID} {chain : List ContainerID}
    (hchain : AncChain nodes id chain) :
    ∀ fuel count acc, chain.length < fuel →
    deepDispatches nodes ptr fuel count id acc =
      some (acc ++ expectedDeep nodes ptr count chain) := by
  induction hchain with
  | @stopMissing id hl =>
    intro fuel count acc hf
    match fuel, hf with
    | fuel + 1, _ =>
      rw [deepDispatches]
      simp only [hl]
      simp [expectedDeep]
  | @stopNoParent id n hl hp =>
    intro fuel count acc hf
    match fuel, hf with
    | fuel + 1, _ =>
      rw [deepDispatches]
      simp only [hl, hp]
      by_cases hne : n.deepObservers = []
      · simp [hne, expectedDeep, hl]
      · simp [hne, expectedDeep, hl]
  | @consStep id p n l hl hp hrest ih =>
    intro fuel count acc hf
    match fuel, hf with
    | fuel + 1, hf =>
      rw [deepDispatches]
      simp only [hl, hp]
      have hlen : l.length < fuel := by
        simp at hf
        omega
      by_cases hne : n.deepObservers = []
      · rw [if_neg (by simpa using hne)]
        rw [ih fuel (count + 1) acc hlen]
        simp [expectedDeep, hl, hne]
      · rw [if_pos (by simpa using hne)]
        rw [ih fuel (count + 1) _ hlen]
        simp [expectedDeep, hl, hne]

theorem invocationsFrom_all_rewrite (ds : List EventDispatch)
    (hall : ∀ d ∈ ds, d.rewrite ≠ none) :
    ∀ rp ct rp2 ct2, invocationsFrom ds rp ct = invocationsFrom ds rp2 ct2 := by
  induction ds with
  | nil => intro rp ct rp2 ct2; rfl
  | cons d rest ih =>
    intro rp ct rp2 ct2
    have hd := hall d (by simp)
    cases hrw : d.rewrite with
    | none => exact absurd hrw hd
    | some pt =>
      rw [invocationsFrom, invocationsFrom]
      simp only [hrw]

theorem invocationsFrom_deep (nodes : List (ContainerID × HNode)) (ptr : Path) :
    ∀ (chain : List ContainerID) (i : Nat) (tail : List EventDispatch)
      (rp : Path) (ct : Option ContainerID),
    (∀ d ∈ tail, d.rewrite ≠ none) →
    invocationsFrom (expectedDeep nodes ptr i chain ++ tail) rp ct =
      expectedDeepInv nodes ptr i chain ++ invocationsFrom tail rp ct := by
  intro chain
  induction chain with
  | nil => intro i tail rp ct htail; simp [expectedDeep, expectedDeepInv]
  | cons a rest ih =>
    intro i tail rp ct htail
    cases hl : lookupNode nodes a with
    | none =>
      rw [show expectedDeep nodes ptr i (a :: rest) = expectedDeep nodes ptr (i+1) rest by
        rw [expectedDeep]; simp [hl]]
      rw [show expectedDeepInv nodes ptr i (a :: rest) = expectedDeepInv nodes ptr (i+1) rest by
        rw [expectedDeepInv]; simp [hl]]
      exact ih (i+1) tail rp ct htail
    | some n =>
      by_cases hne : n.deepObservers = []
      · rw [show expectedDeep nodes ptr i (a :: rest) = expectedDeep nodes ptr (i+1) rest by
          rw [expectedDeep]; simp [hl, hne]]
        rw [show expectedDeepInv nodes ptr i (a :: rest) = expectedDeepInv nodes ptr (i+1) rest by
          rw [expectedDeepInv]; simp [hl, hne]]
        exact ih (i+1) tail rp ct htail
      · rw [show expectedDeep nodes ptr i (a :: rest) =
            { subIds := n.deepObservers,
              rewrite := some ⟨(ptr.take i).reverse, some a⟩ } ::
              expectedDeep nodes ptr (i+1) rest by
          rw [expectedDeep]; simp [hl, hne]]
        rw [show expectedDeepInv nodes ptr i (a :: rest) =
            n.deepObservers.map (fun s => (s, (ptr.take i).reverse, some a)) ++
              expectedDeepInv nodes ptr (i+1) rest by
          rw [expectedDeepInv]; simp [hl, hne]]
        rw [List.cons_append, invocationsFrom]
        simp only []
        rw [ih (i+1) tail _ _ htail]
        rw [invocationsFrom_all_rewrite tail htail _ _ rp ct]
        simp



theorem count_map_trip_self (l : List SubscriptionID) (rp : Path) (ct : Option ContainerID)
    (s : SubscriptionID) (hnd : l.Nodup) (hs : s ∈ l) :
    (l.map (fun x => (x, rp, ct))).count (s, rp, ct) = 1 := by
  induction l with
  | nil => simp at hs
  | cons x rest ih =>
    rw [List.map_cons, List.count_cons]
    rcases List.mem_cons.mp hs with heq | hs2
    · have hxr : x ∉ rest := (List.nodup_cons.mp hnd).1
      have hsr : s ∉ rest := heq ▸ hxr
      have hzero : (rest.map (fun y => (y, rp, ct))).count (s, rp, ct) = 0 := by
        rw [List.count_eq_zero]
        intro hmem
        obtain ⟨y, hy, hyeq⟩ := List.mem_map.mp hmem
        have : y = s := by
          have := congrArg Prod.fst hyeq
          simpa using this
        exact hsr (this ▸ hy)
      rw [hzero]
      simp [heq]
    · have hne : s ≠ x := by
        rintro rfl
        exact (List.nodup_cons.mp hnd).1 hs2
      rw [ih (List.nodup_cons.mp hnd).2 hs2]
      simp [hne, Ne.symm hne]

theorem count_map_trip_zero (l : List SubscriptionID) (rp : Path) (ct : Option ContainerID)
    (t : SubscriptionID × Path × Option ContainerID) (ht : t.1 ∉ l) :
    (l.map (fun x => (x, rp, ct))).count t = 0 := by
  rw [List.count_eq_zero]
  intro hmem
  obtain ⟨y, hy, hyeq⟩ := List.mem_map.mp hmem
  apply ht
  have : y = t.1 := by
    have := congrArg Prod.fst hyeq
    simpa using this
  exact this ▸ hy

theorem edi_count_zero (nodes : List (ContainerID × HNode)) (ptr : Path) :
    ∀ (chain : List ContainerID) (i : Nat)
      (t : SubscriptionID × Path × Option ContainerID),
    t.1 ∉ deepJoin nodes chain →
    (expectedDeepInv nodes ptr i chain).count t = 0 := by
  intro chain
  induction chain with
  | nil => intro i t ht; simp [expectedDeepInv]
  | cons a rest ih =>
    intro i t ht
    have hnj : t.1 ∉ deepJoin nodes rest := by
      intro hmem
      exact ht (by simp [deepJoin] at hmem ⊢; exact Or.inr hmem)
    have hna : t.1 ∉ ((lookupNode nodes a).getD {}).deepObservers := by
      intro hmem
      exact ht (by simp [deepJoin]; exact Or.inl hmem)
    rw [expectedDeepInv, List.count_append, ih (i + 1) t hnj]
    cases hl : lookupNode nodes a with
    | none => simp
    | some n =>
      by_cases hne : n.deepObservers = []
      · simp [hne]
      · simp only [hne]
        rw [if_pos (by simpa using hne)]
        rw [count_map_trip_zero _ _ _ _ (by simpa [hl] using hna)]

theorem edi_count_one (nodes : List (ContainerID × HNode)) (ptr : Path) :
    ∀ (chain : List ContainerID) (i0 i : Nat) (a : ContainerID) (n : HNode)
      (s : SubscriptionID),
    (deepJoin nodes chain).Nodup →
    chain.get? i = some a → lookupNode nodes a = some n → s ∈ n.deepObservers →
    (expectedDeepInv nodes ptr i0 chain).count (s, (ptr.take (i0 + i)).reverse, some a) = 1 := by
  intro chain
  induction chain with
  | nil => intro i0 i a n s hnd hget; simp at hget
  | cons b rest ih =>
    intro i0 i a n s hnd hget hl hs
    have hdj : deepJoin nodes (b :: rest) =
        ((lookupNode nodes b).getD {}).deepObservers ++ deepJoin nodes rest := by
      simp [deepJoin]
    rw [hdj] at hnd
    obtain ⟨hnd1, hnd2, hdisj⟩ := List.nodup_append.mp hnd
    cases i with
    | zero =>
      rw [List.get?_cons_zero] at hget
      have heq := Option.some.inj hget
      subst heq
      rw [expectedDeepInv, List.count_append]
      have hne : n.deepObservers ≠ [] := by
        intro hh
        rw [hh] at hs
        simp at hs
      have hblock : (match lookupNode nodes b with
          | some n =>
            if n.deepObservers ≠ [] then
              n.deepObservers.map (fun s => (s, (ptr.take i0).reverse, some b))
            else []
          | none => []) =
          n.deepObservers.map (fun s => (s, (ptr.take i0).reverse, some b)) := by
        rw [hl]
        simp [hne]
      rw [hblock]
      have hcnt1 : (n.deepObservers.map
          (fun s => (s, (ptr.take i0).reverse, some b))).count
            (s, (ptr.take (i0 + 0)).reverse, some b) = 1 := by
        rw [Nat.add_zero]
        exact count_map_trip_self _ _ _ _ (by simpa [hl] using hnd1) hs
      rw [hcnt1]
      rw [edi_count_zero nodes ptr rest (i0 + 1) _ ?_]
      exact fun hmem => (hdisj (by simp [hl]; exact hs) hmem)
    | succ i2 =>
      rw [List.get?_cons_succ] at hget
      rw [expectedDeepInv, List.count_append]
      have hsj : s ∈ deepJoin nodes rest := by
        have hmem : a ∈ rest := List.get?_mem hget
        simp only [deepJoin, List.mem_join]
        refine ⟨((lookupNode nodes a).getD {}).deepObservers, ?_, by simp [hl]; exact hs⟩
        exact List.mem_map.mpr ⟨a, hmem, rfl⟩
      have hcnt2 : (expectedDeepInv nodes ptr (i0 + 1) rest).count
          (s, (ptr.take (i0 + (i2 + 1))).reverse, some a) = 1 := by
        have hh := ih (i0 + 1) i2 a n s hnd2 hget hl hs
        rw [show i0 + 1 + i2 = i0 + (i2 + 1) by omega] at hh
        exact hh
      rw [hcnt2]
      have hns : s ∉ ((lookupNode nodes b).getD {}).deepObservers := by
        intro hmem
        exact hdisj hmem hsj
      cases hlb : lookupNode nodes b with
      | none => simp
      | some nb =>
        by_cases hne : nb.deepObservers = []
        · simp [hne]
        · simp only [hne]
          rw [if_pos (by simpa using hne)]
          rw [count_map_trip_zero _ _ _ _ (by simpa [hlb] using hns)]



theorem invocationsFrom_cons_none (os : List SubscriptionID) (ds : List EventDispatch)
    (rp : Path) (ct : Option ContainerID) :
    invocationsFrom ({ subIds := os, rewrite := none } :: ds) rp ct =
      os.map (fun s => (s, rp, ct)) ++ invocationsFrom ds rp ct := rfl

theorem invocationsFrom_cons_some (os : List SubscriptionID) (p : Path)
    (t : Option ContainerID) (ds : List EventDispatch) (rp : Path) (ct : Option ContainerID) :
    invocationsFrom ({ subIds := os, rewrite := some ⟨p, t⟩ } :: ds) rp ct =
      os.map (fun s => (s, p, t)) ++ invocationsFrom ds p t := rfl

/-- Claim C3: for a mutation at container C whose ancestor chain reaches a
root, the dispatch pass invokes C's shallow observers first (relative path
`[]`), then the deep observers at C and each ancestor in ancestor-to-root
order (each with the suffix of the absolute path from that ancestor down to
C), then the root observers with the absolute path; under distinct
subscription ids each observer is invoked exactly once with its path. -/
theorem C3_observer_delivery (h : Hierarchy) (target : ContainerID) (absPath : Path)
    (fuel : Nat) (chain : List ContainerID) (nodes1 : List (ContainerID × HNode))
    (hn1 : nodes1 = if (lookupNode h.nodes target).isSome then h.nodes
        else setNode h.nodes target {})
    (hchain : AncChain nodes1 target chain)
    (hfuel : chain.length < fuel) :
    ∃ ds, h.buildDispatches target absPath fuel = some (ds, { h with nodes := nodes1 }) ∧
      invocations target ds =
        ((lookupNode nodes1 target).getD {}).observers.map
            (fun s => (s, ([] : Path), some target)) ++
          expectedDeepInv nodes1 absPath.reverse 0 chain ++
          (if h.rootObservers ≠ [] then
            h.rootObservers.map (fun s => (s, absPath, none)) else []) ∧
      ((((lookupNode nodes1 target).getD {}).observers ++ deepJoin nodes1 chain ++
          h.rootObservers).Nodup →
        (∀ s ∈ ((lookupNode nodes1 target).getD {}).observers,
          (invocations target ds).count (s, ([] : Path), some target) = 1) ∧
        (∀ i a n s, chain.get? i = some a → lookupNode nodes1 a = some n →
          s ∈ n.deepObservers →
          (invocations target ds).count
            (s, (absPath.reverse.take i).reverse, some a) = 1) ∧
        (∀ s ∈ h.rootObservers,
          (invocations target ds).count (s, absPath, none) = 1)) := by
  have hS : ∀ os : List SubscriptionID, os ≠ [] →
      (if os ≠ [] then
        [({ subIds := os, rewrite := none } : EventDispatch)] else []) =
        [{ subIds := os, rewrite := none }] := by
    intro os hos
    simp [hos]
  have htail : ∀ d ∈ (if h.rootObservers ≠ [] then
      [({ subIds := h.rootObservers, rewrite := some ⟨absPath, none⟩ } : EventDispatch)]
      else []), d.rewrite ≠ none := by
    intro d hd
    by_cases hro : h.rootObservers = []
    · simp [hro] at hd
    · simp [hro] at hd
      subst hd
      simp
  have hrootinv : invocationsFrom (if h.rootObservers ≠ [] then
      [({ subIds := h.rootObservers, rewrite := some ⟨absPath, none⟩ } : EventDispatch)]
      else []) [] (some target) =
      (if h.rootObservers ≠ [] then
        h.rootObservers.map (fun s => (s, absPath, none)) else []) := by
    by_cases hro : h.rootObservers = []
    · simp [hro, invocationsFrom]
    · simp only [ne_eq, hro, not_false_eq_true, if_true]
      rw [invocationsFrom_cons_some]
      simp [invocationsFrom]
  have hinv : invocations target
      ((if ((lookupNode nodes1 target).getD {}).observers ≠ [] then
        [{ subIds := ((lookupNode nodes1 target).getD {}).observers, rewrite := none }]
        else []) ++ expectedDeep nodes1 absPath.reverse 0 chain ++
        (if h.rootObservers ≠ [] then
          [{ subIds := h.rootObservers, rewrite := some ⟨absPath, none⟩ }] else [])) =
      ((lookupNode nodes1 target).getD {}).observers.map
          (fun s => (s, ([] : Path), some target)) ++
        expectedDeepInv nodes1 absPath.reverse 0 chain ++
        (if h.rootObservers ≠ [] then
          h.rootObservers.map (fun s => (s, absPath, none)) else []) := by
    rw [invocations]
    by_cases hos : ((lookupNode nodes1 target).getD {}).observers = []
    · rw [hos]
      simp only [ne_eq, not_true_eq_false, if_false, List.nil_append, List.map_nil]
      rw [invocationsFrom_deep nodes1 absPath.reverse chain 0 _ [] (some target) htail]
      rw [hrootinv]
    · rw [hS _ hos]
      simp only [List.cons_append, List.nil_append]
      rw [invocationsFrom_cons_none]
      rw [invocationsFrom_deep nodes1 absPath.reverse chain 0 _ [] (some target) htail]
      rw [hrootinv]
      rw [List.append_assoc]
  refine ⟨_, ?_, hinv, ?_⟩
  · simp only [Hierarchy.buildDispatches]
    rw [← hn1]
    rw [deepDispatches_chain nodes1 absPath.reverse hchain fuel 0 _ hfuel]
    by_cases hro : h.rootObservers = []
    · simp [hro]
    · simp [hro]
  · intro hnd
    obtain ⟨hndSD, hndR, hdisjSDR⟩ := List.nodup_append.mp hnd
    obtain ⟨hndS, hndD, hdisjSD⟩ := List.nodup_append.mp hndSD
    refine ⟨?_, ?_, ?_⟩
    · intro s hs
      rw [hinv, List.count_append, List.count_append]
      rw [count_map_trip_self _ _ _ _ hndS hs]
      rw [edi_count_zero nodes1 absPath.reverse chain 0 _
        (fun hmem => hdisjSD hs hmem)]
      by_cases hro : h.rootObservers = []
      · simp [hro]
      · simp only [ne_eq, hro, not_false_eq_true, if_true]
        rw [count_map_trip_zero _ _ _ _
          (fun hmem => hdisjSDR (List.mem_append.mpr (Or.inl hs)) hmem)]
    · intro i a n s hget hl hs
      have hsDJ : s ∈ deepJoin nodes1 chain := by
        have hmem : a ∈ chain := List.get?_mem hget
        simp only [deepJoin, List.mem_join]
        refine ⟨((lookupNode nodes1 a).getD {}).deepObservers, ?_, by simp [hl]; exact hs⟩
        exact List.mem_map.mpr ⟨a, hmem, rfl⟩
      rw [hinv, List.count_append, List.count_append]
      rw [count_map_trip_zero _ _ _ _ (fun hmemS => hdisjSD hmemS hsDJ)]
      have h1 := edi_count_one nodes1 absPath.reverse chain 0 i a n s hndD hget hl hs
      rw [Nat.zero_add] at h1
      rw [h1]
      by_cases hro : h.rootObservers = []
      · simp [hro]
      · simp only [ne_eq, hro, not_false_eq_true, if_true]
        rw [count_map_trip_zero _ _ _ _
          (fun hmem => hdisjSDR (List.mem_append.mpr (Or.inr hsDJ)) hmem)]
    · intro s hs
      have hroot : h.rootObservers ≠ [] := by
        intro hh
        rw [hh] at hs
        simp at hs
      rw [hinv, List.count_append, List.count_append]
      rw [count_map_trip_zero _ _ _ _
        (fun hmemS => hdisjSDR (List.mem_append.mpr (Or.inl hmemS)) hs)]
      rw [edi_count_zero nodes1 absPath.reverse chain 0 _
        (fun hmem => hdisjSDR (List.mem_append.mpr (Or.inr hmem)) hs)]
      simp only [ne_eq, hroot, not_false_eq_true, if_true]
      rw [count_map_trip_self _ _ _ _ hndR hs]



theorem C3_witness :
    (invocations exA
      [({ subIds := [0], rewrite := none } : EventDispatch),
       { subIds := [1], rewrite := some ⟨[], some exA⟩ },
       { subIds := [2], rewrite := some ⟨[Index.seq 0], some exRoot⟩ },
       { subIds := [3], rewrite := some ⟨[Index.key "r", Index.seq 0], none⟩ }]).count
      (0, ([] : Path), some exA) = 1 := by
  have hchain : AncChain exHobs.nodes exA [exA, exRoot] :=
    @AncChain.consStep exHobs.nodes exA exRoot
      { parent := some exRoot, children := [], observers := [0], deepObservers := [1] }
      [exRoot] (by decide) (by decide)
      (@AncChain.stopNoParent exHobs.nodes exRoot
        { parent := none, children := [exA], observers := [], deepObservers := [2] }
        (by decide) (by decide))
  obtain ⟨ds, hbd, hinv, hc⟩ := C3_observer_delivery exHobs exA
    [Index.key "r", Index.seq 0] 3 [exA, exRoot] exHobs.nodes (by decide) hchain
    (by decide)
  have hlit : exHobs.buildDispatches exA [Index.key "r", Index.seq 0] 3 =
      some ([({ subIds := [0], rewrite := none } : EventDispatch),
        { subIds := [1], rewrite := some ⟨[], some exA⟩ },
        { subIds := [2], rewrite := some ⟨[Index.seq 0], some exRoot⟩ },
        { subIds := [3], rewrite := some ⟨[Index.key "r", Index.seq 0], none⟩ }],
        { exHobs with nodes := exHobs.nodes }) := by decide
  rw [hbd] at hlit
  have hpair := Option.some.inj hlit
  have hds := congrArg Prod.fst hpair
  simp only at hds
  rw [← hds]
  exact (hc (by decide)).1 0 (by decide)




theorem C4_counterexample :
    (notifyExec exSc4 100 exHc4 exEv0).delivered.map (fun x => (x.1, x.2.1)) =
      [(0, 100), (2, 102)] ∧
    (1, 101) ∉ (notifyExec exSc4 100 exHc4 exEv0).delivered.map (fun x => (x.1, x.2.1)) ∧
    (notifyExec exSc4 100 exHc4 exEv0).panicked = false ∧
    (notifyExec exSc4 100 exHc4 exEv0).fuelOut = false := by decide

theorem C5_counterexample :
    (notifyExec exSc5 100 exHc5 exEv0).delivered.map (fun x => (x.1, x.2.1)) =
      [(0, 100), (1, 100)] ∧
    (notifyExec exSc5 100 exHc5 exEv0).hier.observers = [0] ∧
    (lookupNode (notifyExec exSc5 100 exHc5 exEv0).hier.nodes exCa).map
      (fun n => n.observers) = some [0] ∧
    (notifyExec exSc5 100 exHc5 exEv0).panicked = false := by decide



theorem doNotify_delivered (st : MState) (ev : MRawEvent) :
    (doNotify st ev).delivered = st.delivered := by
  unfold doNotify
  cases hbd : st.hier.buildDispatches ev.target ev.absPath (st.hier.nodes.length + 1) with
  | none => rfl
  | some p =>
    obtain ⟨ds, h2⟩ := p
    by_cases hc : h2.calling <;> simp [hc]

theorem step_delivered_prefix (sc : Scripts) (st : MState) :
    st.delivered <+: (step sc st).delivered := by
  rw [step]
  cases hst : st.stack with
  | nil => exact List.prefix_refl _
  | cons w rest =>
    cases w with
    | disp obs ds ev rp ct =>
      cases ds with
      | nil => exact List.prefix_refl _
      | cons d ds2 => exact List.prefix_refl _
    | subs obs ss ev rp ct =>
      cases ss with
      | nil => exact List.prefix_refl _
      | cons s ss2 =>
        by_cases hmem : s ∈ obs
        · simp only [hmem, if_pos]
          exact ⟨[(s, ev.key, rp, ct)], rfl⟩
        · simp only [hmem, if_neg, if_false]
          exact List.prefix_refl _
    | cmds cs =>
      cases cs with
      | nil => exact List.prefix_refl _
      | cons c cs2 =>
        cases c with
        | emit ev2 =>
          rw [show (doNotify { st with stack := Work.cmds cs2 :: rest } ev2).delivered =
            st.delivered from doNotify_delivered _ _]
        | unsub cid id => exact List.prefix_refl _
        | unsubRoot id => exact List.prefix_refl _
    | resetW obs =>
      cases hp : st.hier.pending with
      | none => simp [hp]
      | some pd =>
        obtain ⟨ev, ds⟩ := pd
        simp [hp]

theorem runSteps_delivered_prefix (sc : Scripts) :
    ∀ (fuel : Nat) (st : MState), st.delivered <+: (runSteps sc fuel st).delivered := by
  intro fuel
  induction fuel with
  | zero =>
    intro st
    rw [runSteps]
    by_cases hs : st.stack = [] <;> simp [hs]
  | succ fuel ih =>
    intro st
    rw [runSteps]
    by_cases hs : st.stack = []
    · simp [hs]
    · simp only [hs, if_neg, if_false]
      exact ( step_delivered_prefix sc st).trans (ih (step sc st))

theorem runSteps_stack_empty (sc : Scripts) :
    ∀ (fuel : Nat) (st : MState),
    (runSteps sc fuel st).fuelOut = false → (runSteps sc fuel st).stack = [] := by
  intro fuel
  induction fuel with
  | zero =>
    intro st h
    rw [runSteps] at h ⊢
    by_cases hs : st.stack = []
    · simpa [hs] using hs
    · simp [hs] at h
  | succ fuel ih =>
    intro st h
    rw [runSteps] at h ⊢
    by_cases hs : st.stack = []
    · simpa [hs] using hs
    · simp only [hs, if_neg, if_false] at h ⊢
      exact ih (step sc st) h



theorem hasReset_disp (a : List SubscriptionID) (b : List EventDispatch) (c : MRawEvent)
    (d : Path) (e : Option ContainerID) (rest : List Work) :
    hasReset (Work.disp a b c d e :: rest) = hasReset rest := rfl

theorem hasReset_subs (a : List SubscriptionID) (b : List SubscriptionID) (c : MRawEvent)
    (d : Path) (e : Option ContainerID) (rest : List Work) :
    hasReset (Work.subs a b c d e :: rest) = hasReset rest := rfl

theorem hasReset_cmds (cs : List ObsCmd) (rest : List Work) :
    hasReset (Work.cmds cs :: rest) = hasReset rest := rfl

theorem hasReset_resetW (o : List SubscriptionID) (rest : List Work) :
    hasReset (Work.resetW o :: rest) = true := rfl

theorem unsubscribe_fields (h : Hierarchy) (c : ContainerID) (id : SubscriptionID) :
    ((h.unsubscribe c id).2.calling = h.calling ∧
     (h.unsubscribe c id).2.pending = h.pending ∧
     (h.unsubscribe c id).2.observers = h.observers) := by
  unfold Hierarchy.unsubscribe
  cases hl : lookupNode h.nodes c with
  | none => exact ⟨rfl, rfl, rfl⟩
  | some node =>
    by_cases hmem : id ∈ node.observers
    · by_cases hc : h.calling <;> simp [hmem, hc]
    · simp [hmem]

theorem unsubscribeRoot_fields (h : Hierarchy) (id : SubscriptionID) :
    ((h.unsubscribeRoot id).2.calling = h.calling ∧
     (h.unsubscribeRoot id).2.pending = h.pending ∧
     (h.unsubscribeRoot id).2.observers = h.observers) := by
  unfold Hierarchy.unsubscribeRoot
  by_cases hmem : id ∈ h.rootObservers
  · by_cases hc : h.calling <;> simp [hmem, hc]
  · simp [hmem]

theorem buildDispatches_hier (h : Hierarchy) (t : ContainerID) (p : Path) (fuel : Nat)
    (ds : List EventDispatch) (h2 : Hierarchy)
    (hbd : h.buildDispatches t p fuel = some (ds, h2)) :
    h2.calling = h.calling ∧ h2.pending = h.pending ∧ h2.observers = h.observers ∧
    h2.rootObservers = h.rootObservers ∧ h2.deletedObservers = h.deletedObservers := by
  simp only [Hierarchy.buildDispatches] at hbd
  cases hdd : deepDispatches
      (if (lookupNode h.nodes t).isSome = true then h.nodes else setNode h.nodes t {})
      p.reverse fuel 0 t
      (if ((lookupNode (if (lookupNode h.nodes t).isSome = true then h.nodes
          else setNode h.nodes t {}) t).getD {}).observers ≠ [] then
        [{ subIds := ((lookupNode (if (lookupNode h.nodes t).isSome = true then h.nodes
          else setNode h.nodes t {}) t).getD {}).observers, rewrite := none }]
      else []) with
  | none =>
    rw [hdd] at hbd
    cases hbd
  | some ds0 =>
    rw [hdd] at hbd
    simp at hbd
    obtain ⟨hds, hh2⟩ := hbd
    rw [← hh2]
    exact ⟨rfl, rfl, rfl, rfl, rfl⟩



theorem doNotify_flags (st : MState) (ev : MRawEvent) :
    ((st.panicked = true → (doNotify st ev).panicked = true) ∧
     (st.fuelOut = true → (doNotify st ev).fuelOut = true)) := by
  unfold doNotify
  cases hbd : st.hier.buildDispatches ev.target ev.absPath (st.hier.nodes.length + 1) with
  | none => exact ⟨fun h => h, fun _ => rfl⟩
  | some p =>
    obtain ⟨ds, h2⟩ := p
    by_cases hc : h2.calling <;> simp [hc]



theorem step_eq_nil (sc : Scripts) (st : MState) (h : st.stack = []) : step sc st = st := by
  rw [step, h]

theorem step_eq_disp_nil (sc : Scripts) (st : MState) (obs : List SubscriptionID)
    (ev : MRawEvent) (rp : Path) (ct : Option ContainerID) (rest : List Work)
    (h : st.stack = Work.disp obs [] ev rp ct :: rest) :
    step sc st = { st with stack := rest } := by
  rw [step, h]

theorem step_eq_disp_cons (sc : Scripts) (st : MState) (obs : List SubscriptionID)
    (d : EventDispatch) (ds : List EventDispatch) (ev : MRawEvent) (rp : Path)
    (ct : Option ContainerID) (rest : List Work)
    (h : st.stack = Work.disp obs (d :: ds) ev rp ct :: rest) :
    step sc st = { st with stack :=
        (Work.subs obs d.subIds ev (pcOf d rp ct).1 (pcOf d rp ct).2 ::
          Work.disp obs ds ev (pcOf d rp ct).1 (pcOf d rp ct).2 :: rest) } := by
  rw [step, h]
  rfl

theorem step_eq_subs_nil (sc : Scripts) (st : MState) (obs : List SubscriptionID)
    (ev : MRawEvent) (rp : Path) (ct : Option ContainerID) (rest : List Work)
    (h : st.stack = Work.subs obs [] ev rp ct :: rest) :
    step sc st = { st with stack := rest } := by
  rw [step, h]

theorem step_eq_subs_mem (sc : Scripts) (st : MState) (obs : List SubscriptionID)
    (s : SubscriptionID) (ss : List SubscriptionID) (ev : MRawEvent) (rp : Path)
    (ct : Option ContainerID) (rest : List Work)
    (h : st.stack = Work.subs obs (s :: ss) ev rp ct :: rest) (hmem : s ∈ obs) :
    step sc st = { st with
      delivered := st.delivered ++ [(s, ev.key, rp, ct)]
      stack := Work.cmds (sc s) :: Work.subs obs ss ev rp ct :: rest } := by
  rw [step, h]
  simp [hmem]

theorem step_eq_subs_notmem (sc : Scripts) (st : MState) (obs : List SubscriptionID)
    (s : SubscriptionID) (ss : List SubscriptionID) (ev : MRawEvent) (rp : Path)
    (ct : Option ContainerID) (rest : List Work)
    (h : st.stack = Work.subs obs (s :: ss) ev rp ct :: rest) (hmem : s ∉ obs) :
    step sc st = { st with panicked := true, stack := [] } := by
  rw [step, h]
  simp [hmem]

theorem step_eq_cmds_nil (sc : Scripts) (st : MState) (rest : List Work)
    (h : st.stack = Work.cmds [] :: rest) :
    step sc st = { st with stack := rest } := by
  rw [step, h]

theorem step_eq_cmds_emit (sc : Scripts) (st : MState) (ev : MRawEvent) (cs : List ObsCmd)
    (rest : List Work) (h : st.stack = Work.cmds (ObsCmd.emit ev :: cs) :: rest) :
    step sc st = doNotify { st with stack := Work.cmds cs :: rest } ev := by
  rw [step, h]

theorem step_eq_cmds_unsub (sc : Scripts) (st : MState) (cid : ContainerID)
    (id : SubscriptionID) (cs : List ObsCmd) (rest : List Work)
    (h : st.stack = Work.cmds (ObsCmd.unsub cid id :: cs) :: rest) :
    step sc st = { st with
      hier := (st.hier.unsubscribe cid id).2
      stack := Work.cmds cs :: rest } := by
  rw [step, h]

theorem step_eq_cmds_unsubRoot (sc : Scripts) (st : MState)
    (id : SubscriptionID) (cs : List ObsCmd) (rest : List Work)
    (h : st.stack = Work.cmds (ObsCmd.unsubRoot id :: cs) :: rest) :
    step sc st = { st with
      hier := (st.hier.unsubscribeRoot id).2
      stack := Work.cmds cs :: rest } := by
  rw [step, h]

theorem step_eq_reset_pending (sc : Scripts) (st : MState) (obs : List SubscriptionID)
    (rest : List Work) (ev : MRawEvent) (ds : List EventDispatch)
    (h : st.stack = Work.resetW obs :: rest) (hp : st.hier.pending = some (ev, ds)) :
    step sc st = { st with
      hier := { st.hier with
        observers := []
        deletedObservers := []
        pending := none }
      stack := Work.disp ((obs.filter (fun s => s ∉ st.hier.deletedObservers)).foldl
          (fun acc s => insertSub s acc) st.hier.observers) ds ev [] (some ev.target) ::
        Work.resetW ((obs.filter (fun s => s ∉ st.hier.deletedObservers)).foldl
          (fun acc s => insertSub s acc) st.hier.observers) :: rest } := by
  rw [step, h]
  simp only [hp]

theorem step_eq_reset_none (sc : Scripts) (st : MState) (obs : List SubscriptionID)
    (rest : List Work) (h : st.stack = Work.resetW obs :: rest)
    (hp : st.hier.pending = none) :
    step sc st = { st with
      hier := { st.hier with
        observers := (obs.filter (fun s => s ∉ st.hier.deletedObservers)).foldl
          (fun acc s => insertSub s acc) st.hier.observers
        deletedObservers := []
        calling := false }
      stack := rest } := by
  rw [step, h]
  simp only [hp]



theorem step_flags (sc : Scripts) (st : MState) :
    ((st.panicked = true → (step sc st).panicked = true) ∧
     (st.fuelOut = true → (step sc st).fuelOut = true)) := by
  cases hst : st.stack with
  | nil => rw [step_eq_nil sc st hst]; exact ⟨fun h => h, fun h => h⟩
  | cons w rest =>
    cases w with
    | disp obs ds ev rp ct =>
      cases ds with
      | nil => rw [step_eq_disp_nil sc st obs ev rp ct rest hst]; exact ⟨fun h => h, fun h => h⟩
      | cons d ds2 =>
        rw [step_eq_disp_cons sc st obs d ds2 ev rp ct rest hst]
        exact ⟨fun h => h, fun h => h⟩
    | subs obs ss ev rp ct =>
      cases ss with
      | nil => rw [step_eq_subs_nil sc st obs ev rp ct rest hst]; exact ⟨fun h => h, fun h => h⟩
      | cons s ss2 =>
        by_cases hmem : s ∈ obs
        · rw [step_eq_subs_mem sc st obs s ss2 ev rp ct rest hst hmem]
          exact ⟨fun h => h, fun h => h⟩
        · rw [step_eq_subs_notmem sc st obs s ss2 ev rp ct rest hst hmem]
          exact ⟨fun _ => rfl, fun h => h⟩
    | cmds cs =>
      cases cs with
      | nil => rw [step_eq_cmds_nil sc st rest hst]; exact ⟨fun h => h, fun h => h⟩
      | cons c cs2 =>
        cases c with
        | emit ev2 =>
          rw [step_eq_cmds_emit sc st ev2 cs2 rest hst]
          exact doNotify_flags { st with stack := Work.cmds cs2 :: rest } ev2
        | unsub cid id =>
          rw [step_eq_cmds_unsub sc st cid id cs2 rest hst]
          exact ⟨fun h => h, fun h => h⟩
        | unsubRoot id =>
          rw [step_eq_cmds_unsubRoot sc st id cs2 rest hst]
          exact ⟨fun h => h, fun h => h⟩
    | resetW obs =>
      cases hp : st.hier.pending with
      | some pd =>
        obtain ⟨ev, ds⟩ := pd
        rw [step_eq_reset_pending sc st obs rest ev ds hst hp]
        exact ⟨fun h => h, fun h => h⟩
      | none =>
        rw [step_eq_reset_none sc st obs rest hst hp]
        exact ⟨fun h => h, fun h => h⟩

theorem step_dispInv (sc : Scripts) (st : MState) (h : DispInv st) : DispInv (step sc st) := by
  rcases h with hp | hf | ⟨h1, h2⟩
  · exact Or.inl ((step_flags sc st).1 hp)
  · exact Or.inr (Or.inl ((step_flags sc st).2 hf))
  · cases hst : st.stack with
    | nil => rw [step_eq_nil sc st hst]; exact Or.inr (Or.inr ⟨h1, h2⟩)
    | cons w rest =>
      rw [hst] at h1 h2
      cases w with
      | disp obs ds ev rp ct =>
        rw [hasReset_disp] at h1 h2
        cases ds with
        | nil =>
          rw [step_eq_disp_nil sc st obs ev rp ct rest hst]
          exact Or.inr (Or.inr ⟨h1, h2⟩)
        | cons d ds2 =>
          rw [step_eq_disp_cons sc st obs d ds2 ev rp ct rest hst]
          exact Or.inr (Or.inr ⟨fun hc => by
              rw [hasReset_subs, hasReset_disp]; exact h1 hc,
            fun hc => by rw [hasReset_subs, hasReset_disp]; exact h2 hc⟩)
      | subs obs ss ev rp ct =>
        rw [hasReset_subs] at h1 h2
        cases ss with
        | nil =>
          rw [step_eq_subs_nil sc st obs ev rp ct rest hst]
          exact Or.inr (Or.inr ⟨h1, h2⟩)
        | cons s ss2 =>
          by_cases hmem : s ∈ obs
          · rw [step_eq_subs_mem sc st obs s ss2 ev rp ct rest hst hmem]
            exact Or.inr (Or.inr ⟨fun hc => by
                rw [hasReset_cmds, hasReset_subs]; exact h1 hc,
              fun hc => by rw [hasReset_cmds, hasReset_subs]; exact h2 hc⟩)
          · rw [step_eq_subs_notmem sc st obs s ss2 ev rp ct rest hst hmem]
            exact Or.inl rfl
      | cmds cs =>
        rw [hasReset_cmds] at h1 h2
        cases cs with
        | nil =>
          rw [step_eq_cmds_nil sc st rest hst]
          exact Or.inr (Or.inr ⟨h1, h2⟩)
        | cons c cs2 =>
          cases c with
          | unsub cid id =>
            rw [step_eq_cmds_unsub sc st cid id cs2 rest hst]
            refine Or.inr (Or.inr ⟨?_, ?_⟩)
            · intro hc
              rw [hasReset_cmds]
              exact h1 (by rw [← (unsubscribe_fields st.hier cid id).1]; exact hc)
            · intro hc
              rw [hasReset_cmds]
              exact h2 (by rw [← (unsubscribe_fields st.hier cid id).2.1]; exact hc)
          | unsubRoot id =>
            rw [step_eq_cmds_unsubRoot sc st id cs2 rest hst]
            refine Or.inr (Or.inr ⟨?_, ?_⟩)
            · intro hc
              rw [hasReset_cmds]
              exact h1 (by rw [← (unsubscribeRoot_fields st.hier id).1]; exact hc)
            · intro hc
              rw [hasReset_cmds]
              exact h2 (by rw [← (unsubscribeRoot_fields st.hier id).2.1]; exact hc)
          | emit ev2 =>
            rw [step_eq_cmds_emit sc st ev2 cs2 rest hst]
            unfold doNotify
            cases hbd : ({ st with stack := Work.cmds cs2 :: rest } : MState).hier.buildDispatches
                ev2.target ev2.absPath
                (({ st with stack := Work.cmds cs2 :: rest } : MState).hier.nodes.length + 1) with
            | none => exact Or.inr (Or.inl rfl)
            | some p =>
              obtain ⟨ds, h3⟩ := p
              obtain ⟨hcall, hpend, _, _, _⟩ := buildDispatches_hier _ _ _ _ _ _ hbd
              by_cases hc3 : h3.calling
              · simp only [hc3, if_pos]
                refine Or.inr (Or.inr ⟨?_, ?_⟩)
                · intro hc
                  rw [hasReset_cmds]
                  exact h1 (by rw [← hcall]; exact hc3)
                · intro _
                  rw [hasReset_cmds]
                  exact h1 (by rw [← hcall]; exact hc3)
              · simp only [hc3, if_neg, if_false]
                exact Or.inr (Or.inr ⟨fun _ => rfl, fun _ => rfl⟩)
      | resetW obs =>
        cases hpd : st.hier.pending with
        | some pd =>
          obtain ⟨ev, ds⟩ := pd
          rw [step_eq_reset_pending sc st obs rest ev ds hst hpd]
          exact Or.inr (Or.inr ⟨fun _ => rfl, fun _ => rfl⟩)
        | none =>
          rw [step_eq_reset_none sc st obs rest hst hpd]
          exact Or.inr (Or.inr ⟨fun hc => by simp at hc, fun hc => by
            rw [hpd] at hc; simp at hc⟩)

theorem runSteps_dispInv (sc : Scripts) :
    ∀ (fuel : Nat) (st : MState), DispInv st → DispInv (runSteps sc fuel st) := by
  intro fuel
  induction fuel with
  | zero =>
    intro st h
    rw [runSteps]
    by_cases hs : st.stack = []
    · simpa [hs] using h
    · simp only [hs, if_neg, if_false]
      rcases h with hp | hf | hpair
      · exact Or.inl hp
      · exact Or.inr (Or.inl rfl)
      · exact Or.inr (Or.inl rfl)
  | succ fuel ih =>
    intro st h
    rw [runSteps]
    by_cases hs : st.stack = []
    · simpa [hs] using h
    · simp only [hs, if_neg, if_false]
      exact ih (step sc st) (step_dispInv sc st h)



/-- Claim C4 (amended): a notify during a running dispatch stores the event
and its dispatches as THE pending dispatch, replacing any previously queued
one, and invokes nothing; delivery logs only grow (so everything a drained
pending dispatch delivers comes after the already-delivered primary
invocations); the drain step takes the currently pending dispatch and runs it
before continuing; and a run that completes without panic or fuel exhaustion
ends with an empty stack, `calling = false` and no pending dispatch. -/
theorem C4_reentrant_dispatch_amended :
    (∀ (st : MState) (ev : MRawEvent) (ds : List EventDispatch) (h2 : Hierarchy),
      st.hier.buildDispatches ev.target ev.absPath (st.hier.nodes.length + 1) =
        some (ds, h2) →
      h2.calling = true →
      doNotify st ev = { st with hier := { h2 with pending := some (ev, ds) } }) ∧
    (∀ (sc : Scripts) (fuel : Nat) (st : MState),
      st.delivered <+: (runSteps sc fuel st).delivered) ∧
    (∀ (sc : Scripts) (st : MState) (obs : List SubscriptionID) (rest : List Work)
      (ev : MRawEvent) (ds : List EventDispatch),
      st.stack = Work.resetW obs :: rest → st.hier.pending = some (ev, ds) →
      step sc st = { st with
        hier := { st.hier with
          observers := []
          deletedObservers := []
          pending := none }
        stack := Work.disp ((obs.filter (fun s => s ∉ st.hier.deletedObservers)).foldl
            (fun acc s => insertSub s acc) st.hier.observers) ds ev [] (some ev.target) ::
          Work.resetW ((obs.filter (fun s => s ∉ st.hier.deletedObservers)).foldl
            (fun acc s => insertSub s acc) st.hier.observers) :: rest }) ∧
    (∀ (sc : Scripts) (fuel : Nat) (st : MState), DispInv st →
      (runSteps sc fuel st).panicked = false →
      (runSteps sc fuel st).fuelOut = false →
      (runSteps sc fuel st).stack = [] ∧
      (runSteps sc fuel st).hier.calling = false ∧
      (runSteps sc fuel st).hier.pending = none) := by
  refine ⟨?_, ?_, ?_, ?_⟩
  · intro st ev ds h2 hbd hcall
    unfold doNotify
    rw [hbd]
    simp [hcall]
  · intro sc fuel st
    exact runSteps_delivered_prefix sc fuel st
  · intro sc st obs rest ev ds hstack hpend
    exact step_eq_reset_pending sc st obs rest ev ds hstack hpend
  · intro sc fuel st hinv hpan hfo
    have hstk := runSteps_stack_empty sc fuel st hfo
    have hinv2 := runSteps_dispInv sc fuel st hinv
    rcases hinv2 with hp | hf | ⟨h1, h2⟩
    · rw [hpan] at hp; cases hp
    · rw [hfo] at hf; cases hf
    · refine ⟨hstk, ?_, ?_⟩
      · by_cases hc : (runSteps sc fuel st).hier.calling = true
        · have := h1 hc
          rw [hstk] at this
          cases this
        · simpa using hc
      · by_cases hc : (runSteps sc fuel st).hier.pending.isSome = true
        · have := h2 hc
          rw [hstk] at this
          cases this
        · cases hcc : (runSteps sc fuel st).hier.pending with
          | none => rfl
          | some pd => rw [hcc] at hc; simp at hc

theorem C4_amended_witness :
    (notifyExec exSc4 100 exHc4 exEv0).hier.calling = false ∧
    (notifyExec exSc4 100 exHc4 exEv0).hier.pending = none := by
  have h := C4_reentrant_dispatch_amended.2.2.2 exSc4 100
    (doNotify { hier := exHc4 } exEv0) (by decide) (by decide) (by decide)
  exact ⟨h.2.1, h.2.2⟩



theorem mem_setNode (nodes : List (ContainerID × HNode)) (t : ContainerID) (n : HNode)
    (p : ContainerID × HNode) (hp : p ∈ setNode nodes t n) :
    p ∈ nodes ∨ p = (t, n) := by
  unfold setNode at hp
  by_cases hf : (List.find? (fun q => decide (q.1 = t)) nodes).isSome
  · rw [if_pos hf] at hp
    obtain ⟨q, hq, hqe⟩ := List.mem_map.mp hp
    by_cases hqt : q.1 = t
    · simp [hqt] at hqe
      exact Or.inr hqe.symm
    · simp [hqt] at hqe
      exact Or.inl (hqe ▸ hq)
  · rw [if_neg hf] at hp
    rcases List.mem_append.mp hp with h | h
    · exact Or.inl h
    · simp at h
      exact Or.inr h

theorem deepDispatches_clean (id : SubscriptionID) (nodes : List (ContainerID × HNode))
    (ptr : Path)
    (hclean : ∀ p ∈ nodes, id ∉ p.2.deepObservers) :
    ∀ (fuel count : Nat) (c : ContainerID) (acc r : List EventDispatch),
    deepDispatches nodes ptr fuel count c acc = some r →
    (∀ d ∈ acc, id ∉ d.subIds) → ∀ d ∈ r, id ∉ d.subIds := by
  intro fuel
  induction fuel with
  | zero => intro count c acc r h hacc; simp [deepDispatches] at h
  | succ fuel ih =>
    intro count c acc r h hacc
    rw [deepDispatches] at h
    cases hl : lookupNode nodes c with
    | none =>
      simp only [hl] at h
      cases h
      exact hacc
    | some node =>
      have hnode : id ∉ node.deepObservers := by
        unfold lookupNode at hl
        cases hf : nodes.find? (fun q => decide (q.1 = c)) with
        | none => rw [hf] at hl; cases hl
        | some q =>
          rw [hf] at hl
          simp at hl
          have hmem := List.mem_of_find?_eq_some hf
          exact hl ▸ hclean q hmem
      simp only [hl] at h
      have happ : ∀ d ∈ acc ++ [({ subIds := node.deepObservers, rewrite := some ⟨(ptr.take count).reverse, some c⟩ } : EventDispatch)], id ∉ d.subIds := by
        intro d hd
        rcases List.mem_append.mp hd with hd | hd
        · exact hacc d hd
        · simp at hd
          rw [hd]
          exact hnode
      have hacc2 : ∀ d ∈ (if node.deepObservers ≠ [] then acc ++ [({ subIds := node.deepObservers, rewrite := some ⟨(ptr.take count).reverse, some c⟩ } : EventDispatch)] else acc), id ∉ d.subIds := by
        by_cases hne : node.deepObservers = []
        · simpa [hne] using hacc
        · simpa [hne] using happ
      cases hp : node.parent with
      | none =>
        simp only [hp] at h
        cases h
        exact hacc2
      | some par =>
        simp only [hp] at h
        exact ih (count + 1) par _ r h hacc2

theorem buildDispatches_clean (id : SubscriptionID) (h : Hierarchy) (t : ContainerID)
    (p : Path) (fuel : Nat) (ds : List EventDispatch) (h2 : Hierarchy)
    (hbd : h.buildDispatches t p fuel = some (ds, h2))
    (hnodes : ∀ q ∈ h.nodes, id ∉ q.2.observers ∧ id ∉ q.2.deepObservers)
    (hroot : id ∉ h.rootObservers) :
    (∀ d ∈ ds, id ∉ d.subIds) ∧
    (∀ q ∈ h2.nodes, id ∉ q.2.observers ∧ id ∉ q.2.deepObservers) := by
  have hn1 : ∀ q ∈ (if (lookupNode h.nodes t).isSome = true then h.nodes
      else setNode h.nodes t {}), id ∉ q.2.observers ∧ id ∉ q.2.deepObservers := by
    by_cases hiso : (lookupNode h.nodes t).isSome = true
    · simpa [hiso] using hnodes
    · simp only [hiso, if_neg, if_false]
      intro q hq
      rcases mem_setNode h.nodes t {} q hq with hq2 | hq2
      · exact hnodes q hq2
      · rw [hq2]
        exact ⟨by simp [HNode], by simp [HNode]⟩
  simp only [Hierarchy.buildDispatches] at hbd
  have hshallow : ∀ d ∈ (if ((lookupNode (if (lookupNode h.nodes t).isSome = true then h.nodes else setNode h.nodes t {}) t).getD {}).observers ≠ [] then [({ subIds := ((lookupNode (if (lookupNode h.nodes t).isSome = true then h.nodes else setNode h.nodes t {}) t).getD {}).observers, rewrite := none } : EventDispatch)] else []), id ∉ d.subIds := by
    set N := (if (lookupNode h.nodes t).isSome = true then h.nodes
      else setNode h.nodes t {}) with hN
    have hobs : id ∉ ((lookupNode N t).getD {}).observers := by
      cases hl : lookupNode N t with
      | none => simp [HNode]
      | some node =>
        unfold lookupNode at hl
        cases hf : N.find? (fun q => decide (q.1 = t)) with
        | none => rw [hf] at hl; cases hl
        | some q =>
          rw [hf] at hl
          simp at hl
          have hmem := List.mem_of_find?_eq_some hf
          simpa [hl] using (hn1 q hmem).1
    by_cases hne : ((lookupNode N t).getD {}).observers = []
    · simp [hne]
    · simp only [hne, ne_eq, not_false_eq_true, if_true]
      intro d hd
      simp at hd
      rw [hd]
      exact hobs
  cases hdd : deepDispatches
      (if (lookupNode h.nodes t).isSome = true then h.nodes else setNode h.nodes t {})
      p.reverse fuel 0 t
      (if ((lookupNode (if (lookupNode h.nodes t).isSome = true then h.nodes
          else setNode h.nodes t {}) t).getD {}).observers ≠ [] then
        [{ subIds := ((lookupNode (if (lookupNode h.nodes t).isSome = true then h.nodes
          else setNode h.nodes t {}) t).getD {}).observers, rewrite := none }]
      else []) with
  | none => rw [hdd] at hbd; cases hbd
  | some ds0 =>
    rw [hdd] at hbd
    simp at hbd
    obtain ⟨hds, hh2⟩ := hbd
    have hds0 : ∀ d ∈ ds0, id ∉ d.subIds :=
      deepDispatches_clean id _ p.reverse (fun q hq => (hn1 q hq).2) fuel 0 t _ ds0 hdd
        hshallow
    constructor
    · rw [← hds]
      by_cases hro : h.rootObservers = []
      · simpa [hro] using hds0
      · simp only [hro, ne_eq, not_false_eq_true, if_true]
        intro d hd
        rcases List.mem_append.mp hd with hd | hd
        · exact hds0 d hd
        · simp at hd
          rw [hd]
          exact hroot
    · rw [← hh2]
      exact hn1



theorem lookupNode_mem (nodes : List (ContainerID × HNode)) (c : ContainerID) (n : HNode)
    (hl : lookupNode nodes c = some n) : (c, n) ∈ nodes := by
  unfold lookupNode at hl
  cases hf : nodes.find? (fun q => decide (q.1 = c)) with
  | none => rw [hf] at hl; cases hl
  | some q =>
    rw [hf] at hl
    simp at hl
    have hmem := List.mem_of_find?_eq_some hf
    have hkey : q.1 = c := by simpa using List.find?_some hf
    have : q = (c, n) := by
      obtain ⟨q1, q2⟩ := q
      simp at hkey hl
      rw [hkey, hl]
    exact this ▸ hmem

theorem unsubscribe_clean (id : SubscriptionID) (h : Hierarchy) (c : ContainerID)
    (i : SubscriptionID) (hc : HierClean id h) :
    HierClean id (h.unsubscribe c i).2 := by
  obtain ⟨hn, hr, hp⟩ := hc
  unfold Hierarchy.unsubscribe
  cases hl : lookupNode h.nodes c with
  | none => exact ⟨hn, hr, hp⟩
  | some node =>
    by_cases hmem : i ∈ node.observers
    · have hnode := hn (c, node) (lookupNode_mem h.nodes c node hl)
      have hclean2 : ∀ q ∈ setNode h.nodes c
          { node with observers := node.observers.erase i },
          id ∉ q.2.observers ∧ id ∉ q.2.deepObservers := by
        intro q hq
        rcases mem_setNode _ _ _ q hq with hq2 | hq2
        · exact hn q hq2
        · rw [hq2]
          refine ⟨fun hin => hnode.1 (List.mem_of_mem_erase hin), hnode.2⟩
      by_cases hcall : h.calling
      · simp only [hmem, if_pos, hcall, if_true]
        exact ⟨hclean2, hr, hp⟩
      · simp only [hmem, if_pos, hcall, if_false]
        exact ⟨hclean2, hr, hp⟩
    · simp only [hmem, if_neg, if_false]
      exact ⟨hn, hr, hp⟩

theorem unsubscribeRoot_clean (id : SubscriptionID) (h : Hierarchy)
    (i : SubscriptionID) (hc : HierClean id h) :
    HierClean id (h.unsubscribeRoot i).2 := by
  obtain ⟨hn, hr, hp⟩ := hc
  unfold Hierarchy.unsubscribeRoot
  by_cases hmem : i ∈ h.rootObservers
  · have hr2 : id ∉ h.rootObservers.erase i := fun hin => hr (List.mem_of_mem_erase hin)
    by_cases hcall : h.calling
    · simp only [hmem, if_pos, hcall, if_true]
      exact ⟨hn, hr2, hp⟩
    · simp only [hmem, if_pos, hcall, if_false]
      exact ⟨hn, hr2, hp⟩
  · simp only [hmem, if_neg, if_false]
    exact ⟨hn, hr, hp⟩

theorem step_clean (id : SubscriptionID) (sc : Scripts) (st : MState)
    (h : CleanSt id st) :
    CleanSt id (step sc st) ∧
    (∀ x ∈ (step sc st).delivered, x ∈ st.delivered ∨ x.1 ≠ id) := by
  obtain ⟨hh, hw⟩ := h
  cases hst : st.stack with
  | nil =>
    rw [step_eq_nil sc st hst]
    exact ⟨⟨hh, hw⟩, fun x hx => Or.inl hx⟩
  | cons w rest =>
    rw [hst] at hw
    have hwrest : ∀ w2 ∈ rest, WorkClean id w2 := fun w2 hw2 => hw w2 (by simp [hw2])
    have hwhead : WorkClean id w := hw w (by simp)
    cases w with
    | disp obs ds ev rp ct =>
      cases ds with
      | nil =>
        rw [step_eq_disp_nil sc st obs ev rp ct rest hst]
        exact ⟨⟨hh, hwrest⟩, fun x hx => Or.inl hx⟩
      | cons d ds2 =>
        rw [step_eq_disp_cons sc st obs d ds2 ev rp ct rest hst]
        refine ⟨⟨hh, ?_⟩, fun x hx => Or.inl hx⟩
        intro w2 hw2
        rcases List.mem_cons.mp hw2 with rfl | hw2
        · exact hwhead d (by simp)
        · rcases List.mem_cons.mp hw2 with rfl | hw2
          · exact fun d2 hd2 => hwhead d2 (by simp [hd2])
          · exact hwrest w2 hw2
    | subs obs ss ev rp ct =>
      cases ss with
      | nil =>
        rw [step_eq_subs_nil sc st obs ev rp ct rest hst]
        exact ⟨⟨hh, hwrest⟩, fun x hx => Or.inl hx⟩
      | cons s ss2 =>
        by_cases hmem : s ∈ obs
        · rw [step_eq_subs_mem sc st obs s ss2 ev rp ct rest hst hmem]
          have hs : id ∉ s :: ss2 := hwhead
          refine ⟨⟨hh, ?_⟩, ?_⟩
          · intro w2 hw2
            rcases List.mem_cons.mp hw2 with rfl | hw2
            · trivial
            · rcases List.mem_cons.mp hw2 with rfl | hw2
              · exact fun hin => hs (by simp [hin])
              · exact hwrest w2 hw2
          · intro x hx
            simp only at hx
            rcases List.mem_append.mp hx with hx | hx
            · exact Or.inl hx
            · simp at hx
              refine Or.inr ?_
              rw [hx]
              simp
              intro hid
              exact hs (by simp [hid])
        · rw [step_eq_subs_notmem sc st obs s ss2 ev rp ct rest hst hmem]
          exact ⟨⟨hh, by simp⟩, fun x hx => Or.inl hx⟩
    | cmds cs =>
      cases cs with
      | nil =>
        rw [step_eq_cmds_nil sc st rest hst]
        exact ⟨⟨hh, hwrest⟩, fun x hx => Or.inl hx⟩
      | cons c cs2 =>
        have hstackclean : ∀ w2 ∈ Work.cmds cs2 :: rest, WorkClean id w2 := by
          intro w2 hw2
          rcases List.mem_cons.mp hw2 with rfl | hw2
          · trivial
          · exact hwrest w2 hw2
        cases c with
        | unsub cid i =>
          rw [step_eq_cmds_unsub sc st cid i cs2 rest hst]
          exact ⟨⟨unsubscribe_clean id st.hier cid i hh, hstackclean⟩,
            fun x hx => Or.inl hx⟩
        | unsubRoot i =>
          rw [step_eq_cmds_unsubRoot sc st i cs2 rest hst]
          exact ⟨⟨unsubscribeRoot_clean id st.hier i hh, hstackclean⟩,
            fun x hx => Or.inl hx⟩
        | emit ev2 =>
          rw [step_eq_cmds_emit sc st ev2 cs2 rest hst]
          unfold doNotify
          cases hbd : ({ st with stack := Work.cmds cs2 :: rest } : MState).hier.buildDispatches
              ev2.target ev2.absPath
              (({ st with stack := Work.cmds cs2 :: rest } : MState).hier.nodes.length + 1) with
          | none =>
            exact ⟨⟨hh, by simp⟩, fun x hx => Or.inl hx⟩
          | some p =>
            obtain ⟨ds, h3⟩ := p
            obtain ⟨hcall, hpend, hobs, hroot3, hdel⟩ := buildDispatches_hier _ _ _ _ _ _ hbd
            obtain ⟨hdsclean, hnodes3⟩ := buildDispatches_clean id _ _ _ _ _ _ hbd hh.1 hh.2.1
            by_cases hc3 : h3.calling
            · simp only [hc3, if_pos]
              refine ⟨⟨⟨hnodes3, ?_, ?_⟩, hstackclean⟩, fun x hx => Or.inl hx⟩
              · rw [hroot3]
                exact hh.2.1
              · exact hdsclean
            · simp only [hc3, if_neg, if_false]
              refine ⟨⟨⟨hnodes3, ?_, ?_⟩, ?_⟩, fun x hx => Or.inl hx⟩
              · rw [hroot3]
                exact hh.2.1
              · rw [hpend]
                exact hh.2.2
              · intro w2 hw2
                rcases List.mem_cons.mp hw2 with rfl | hw2
                · exact hdsclean
                · rcases List.mem_cons.mp hw2 with rfl | hw2
                  · trivial
                  · exact hstackclean w2 hw2
    | resetW obs =>
      cases hpd : st.hier.pending with
      | some pd =>
        obtain ⟨ev, ds⟩ := pd
        rw [step_eq_reset_pending sc st obs rest ev ds hst hpd]
        have hdsclean : ∀ d ∈ ds, id ∉ d.subIds := by
          have := hh.2.2
          rw [hpd] at this
          exact this
        refine ⟨⟨⟨hh.1, hh.2.1, trivial⟩, ?_⟩, fun x hx => Or.inl hx⟩
        intro w2 hw2
        rcases List.mem_cons.mp hw2 with rfl | hw2
        · exact hdsclean
        · rcases List.mem_cons.mp hw2 with rfl | hw2
          · trivial
          · exact hwrest w2 hw2
      | none =>
        rw [step_eq_reset_none sc st obs rest hst hpd]
        refine ⟨⟨⟨hh.1, hh.2.1, ?_⟩, hwrest⟩, fun x hx => Or.inl hx⟩
        rw [show ({ st.hier with
            observers := (obs.filter (fun s => s ∉ st.hier.deletedObservers)).foldl
              (fun acc s => insertSub s acc) st.hier.observers
            deletedObservers := []
            calling := false } : Hierarchy).pending = st.hier.pending from rfl, hpd]
        trivial

theorem runSteps_clean (id : SubscriptionID) (sc : Scripts) :
    ∀ (fuel : Nat) (st : MState), CleanSt id st →
    ∀ x ∈ (runSteps sc fuel st).delivered, x ∈ st.delivered ∨ x.1 ≠ id := by
  intro fuel
  induction fuel with
  | zero =>
    intro st hc x hx
    rw [runSteps] at hx
    by_cases hs : st.stack = []
    · simp [hs] at hx
      exact Or.inl hx
    · simp [hs] at hx
      exact Or.inl hx
  | succ fuel ih =>
    intro st hc x hx
    rw [runSteps] at hx
    by_cases hs : st.stack = []
    · simp [hs] at hx
      exact Or.inl hx
    · simp only [hs, if_neg, if_false] at hx
      obtain ⟨hc2, hdel⟩ := step_clean id sc st hc
      rcases ih (step sc st) hc2 x hx with hmem | hne
      · exact hdel x hmem
      · exact Or.inr hne



/-- Claim C5 (amended): `unsubscribe` during a dispatch removes the id from
the container's shallow observer set immediately, returns true, and buffers
the id in `deleted_observers` while the observer table itself is untouched;
the drain step restores the taken table with the buffered ids filtered out
and clears the buffer; and once a subscription id is no longer referenced by
any observer set, pending dispatch or stack frame, no later delivery goes to
it.  (The observer IS still invoked by the remaining already-snapshotted
dispatches of the current pass — see the counterexample.) -/
theorem C5_unsubscribe_during_dispatch_amended :
    (∀ (h : Hierarchy) (c : ContainerID) (id : SubscriptionID) (n : HNode),
      lookupNode h.nodes c = some n → id ∈ n.observers → h.calling = true →
      h.unsubscribe c id = (true, { h with
        nodes := setNode h.nodes c { n with observers := n.observers.erase id }
        deletedObservers := h.deletedObservers ++ [id] })) ∧
    (∀ (sc : Scripts) (st : MState) (obs : List SubscriptionID) (rest : List Work),
      st.stack = Work.resetW obs :: rest → st.hier.pending = none →
      step sc st = { st with
        hier := { st.hier with
          observers := (obs.filter (fun s => s ∉ st.hier.deletedObservers)).foldl
            (fun acc s => insertSub s acc) st.hier.observers
          deletedObservers := []
          calling := false }
        stack := rest }) ∧
    (∀ (id : SubscriptionID) (sc : Scripts) (fuel : Nat) (st : MState),
      CleanSt id st →
      ∀ x ∈ (runSteps sc fuel st).delivered, x ∈ st.delivered ∨ x.1 ≠ id) := by
  refine ⟨?_, ?_, ?_⟩
  · intro h c id n hl hmem hcall
    unfold Hierarchy.unsubscribe
    rw [hl]
    simp [hmem, hcall]
  · intro sc st obs rest hstack hpend
    exact step_eq_reset_none sc st obs rest hstack hpend
  · intro id sc fuel st hc
    exact runSteps_clean id sc fuel st hc

theorem C5_amended_witness :
    ({ exHc5 with calling := true } : Hierarchy).unsubscribe exCa 1 =
      (true, { ({ exHc5 with calling := true } : Hierarchy) with
        nodes := setNode ({ exHc5 with calling := true } : Hierarchy).nodes exCa
          { ({ parent := none, children := [], observers := [0, 1], deepObservers := [] } : HNode) with observers := List.erase [0, 1] 1 }
        deletedObservers :=
          ({ exHc5 with calling := true } : Hierarchy).deletedObservers ++ [1] }) := by
  exact C5_unsubscribe_during_dispatch_amended.1 { exHc5 with calling := true } exCa 1
    { parent := none, children := [], observers := [0, 1], deepObservers := [] }
    (by decide) (by decide) rfl




theorem cacheOk_mkLeaf (runs : List CString) : CacheOk (mkLeaf runs) :=
  CacheOk.leaf _ _ (by simp [checkCacheLeafB, updateCacheLeaf, mkLeaf])

theorem cacheOk_mkInternal (cs : List RNode) (h : ∀ c ∈ cs, CacheOk c) :
    CacheOk (mkInternal cs) :=
  CacheOk.inNode _ _ (by simp [checkCacheInternalB, updateCacheInternal, mkInternal]) h

theorem cacheOk_inNode_inv {cs : List RNode} {c : Nat} (h : CacheOk (RNode.inNode cs c)) :
    ∀ x ∈ cs, CacheOk x := by
  cases h with
  | inNode _ _ hchk hall => exact hall

mutual

theorem insertNode_ok (t : RNode) (idx : Nat) (s : CString) (h : CacheOk t) :
    ∀ r ∈ insertNode t idx s, CacheOk r := by
  cases t with
  | leaf runs c =>
    intro r hr
    rw [insertNode] at hr
    by_cases hlen : (mergeRuns (spliceRuns runs idx s)).length ≤ 4
    · simp only [hlen, if_pos] at hr
      simp at hr
      rw [hr]
      exact cacheOk_mkLeaf _
    · simp only [hlen, if_neg, if_false] at hr
      simp at hr
      rcases hr with hr | hr
      · rw [hr]; exact cacheOk_mkLeaf _
      · rw [hr]; exact cacheOk_mkLeaf _
  | inNode cs c =>
    intro r hr
    rw [insertNode] at hr
    have hcs2 := insertChildren_ok cs idx s (cacheOk_inNode_inv h)
    by_cases hlen : (insertChildren cs idx s).length ≤ 4
    · simp only [hlen, if_pos] at hr
      simp at hr
      rw [hr]
      exact cacheOk_mkInternal _ hcs2
    · simp only [hlen, if_neg, if_false] at hr
      simp at hr
      rcases hr with hr | hr
      · rw [hr]
        exact cacheOk_mkInternal _ (fun x hx => hcs2 x (List.mem_of_mem_take hx))
      · rw [hr]
        exact cacheOk_mkInternal _ (fun x hx => hcs2 x (List.mem_of_mem_drop hx))

theorem insertChildren_ok (l : List RNode) (idx : Nat) (s : CString)
    (h : ∀ c ∈ l, CacheOk c) : ∀ r ∈ insertChildren l idx s, CacheOk r := by
  cases l with
  | nil =>
    intro r hr
    rw [insertChildren] at hr
    simp at hr
    rw [hr]
    exact cacheOk_mkLeaf _
  | cons c rest =>
    cases rest with
    | nil =>
      intro r hr
      rw [insertChildren] at hr
      exact insertNode_ok c idx s (h c (by simp)) r hr
    | cons c2 rest2 =>
      intro r hr
      rw [insertChildren] at hr
      by_cases hle : idx ≤ nodeLen c
      · simp only [hle, if_pos] at hr
        rcases List.mem_append.mp hr with hr | hr
        · exact insertNode_ok c idx s (h c (by simp)) r hr
        · exact h r (by simp; rcases List.mem_cons.mp hr with hr | hr; exacts [Or.inr (Or.inl hr), Or.inr (Or.inr hr)])
      · simp only [hle, if_neg, if_false] at hr
        rcases List.mem_cons.mp hr with hr | hr
        · rw [hr]
          exact h c (by simp)
        · exact insertChildren_ok (c2 :: rest2) (idx - nodeLen c) s
            (fun x hx => h x (by simp at hx ⊢; tauto)) r hr

end



theorem mergeNodes_ok (a b : RNode) (ha : CacheOk a) (hb : CacheOk b) :
    ∀ r ∈ mergeNodes a b, CacheOk r := by
  cases a with
  | leaf r1 c1 =>
    cases b with
    | leaf r2 c2 =>
      intro r hr
      rw [mergeNodes] at hr
      by_cases hlen : (mergeRuns (r1 ++ r2)).length ≤ 4
      · simp only [hlen, if_pos] at hr
        simp at hr
        rw [hr]
        exact cacheOk_mkLeaf _
      · simp only [hlen, if_neg, if_false] at hr
        simp at hr
        rcases hr with hr | hr <;> (rw [hr]; exact cacheOk_mkLeaf _)
    | inNode c2 n2 =>
      intro r hr
      have hmn : mergeNodes (RNode.leaf r1 c1) (RNode.inNode c2 n2) =
          [RNode.leaf r1 c1, RNode.inNode c2 n2] := rfl
      rw [hmn] at hr
      simp at hr
      rcases hr with hr | hr <;> rw [hr] <;> assumption
  | inNode c1 n1 =>
    cases b with
    | leaf r2 c2 =>
      intro r hr
      have hmn : mergeNodes (RNode.inNode c1 n1) (RNode.leaf r2 c2) =
          [RNode.inNode c1 n1, RNode.leaf r2 c2] := rfl
      rw [hmn] at hr
      simp at hr
      rcases hr with hr | hr <;> rw [hr] <;> assumption
    | inNode c2 n2 =>
      intro r hr
      rw [mergeNodes] at hr
      have hall : ∀ x ∈ c1 ++ c2, CacheOk x := by
        intro x hx
        rcases List.mem_append.mp hx with hx | hx
        · exact cacheOk_inNode_inv ha x hx
        · exact cacheOk_inNode_inv hb x hx
      by_cases hlen : (c1 ++ c2).length ≤ 4
      · simp only [hlen, if_pos] at hr
        simp at hr
        rw [hr]
        exact cacheOk_mkInternal _ hall
      · simp only [hlen, if_neg, if_false] at hr
        simp at hr
        rcases hr with hr | hr
        · rw [hr]
          exact cacheOk_mkInternal _ (fun x hx => hall x (List.mem_of_mem_take hx))
        · rw [hr]
          exact cacheOk_mkInternal _ (fun x hx => hall x (List.mem_of_mem_drop hx))

theorem rebalance_ok : ∀ (l : List RNode), (∀ c ∈ l, CacheOk c) →
    ∀ r ∈ rebalance l, CacheOk r
  | [], h => by simp [rebalance]
  | [c], h => by
    intro r hr
    rw [rebalance] at hr
    simp at hr
    rw [hr]
    exact h c (by simp)
  | a :: b :: rest, h => by
    intro r hr
    rw [rebalance] at hr
    by_cases hc : childCount a < 2 ∨ childCount b < 2
    · simp only [hc, if_pos] at hr
      rcases List.mem_append.mp hr with hr | hr
      · exact mergeNodes_ok a b (h a (by simp)) (h b (by simp)) r hr
      · exact rebalance_ok rest (fun x hx => h x (by simp [hx])) r hr
    · simp only [hc, if_neg, if_false] at hr
      rcases List.mem_cons.mp hr with hr | hr
      · rw [hr]
        exact h a (by simp)
      · exact rebalance_ok (b :: rest) (fun x hx => h x (by simp at hx ⊢; tauto)) r hr
termination_by l => l.length
decreasing_by all_goals simp <;> omega

mutual

theorem deleteNode_ok (t : RNode) (f g : Nat) (h : CacheOk t) :
    CacheOk (deleteNode t f g) := by
  cases t with
  | leaf runs c =>
    rw [deleteNode]
    exact cacheOk_mkLeaf _
  | inNode cs c =>
    rw [deleteNode]
    exact cacheOk_mkInternal _
      (rebalance_ok _ (deleteChildren_ok cs f g (cacheOk_inNode_inv h)))

theorem deleteChildren_ok (l : List RNode) (f g : Nat)
    (h : ∀ c ∈ l, CacheOk c) : ∀ r ∈ deleteChildren l f g, CacheOk r := by
  cases l with
  | nil =>
    intro r hr
    rw [deleteChildren] at hr
    simp at hr
  | cons c rest =>
    intro r hr
    rw [deleteChildren] at hr
    by_cases h1 : g ≤ f
    · simp only [h1, if_pos] at hr
      exact h r hr
    · simp only [h1, if_neg, if_false] at hr
      by_cases h2 : f ≥ nodeLen c
      · simp only [h2, if_pos] at hr
        rcases List.mem_cons.mp hr with hr | hr
        · rw [hr]
          exact h c (by simp)
        · exact deleteChildren_ok rest (f - nodeLen c) (g - nodeLen c)
            (fun x hx => h x (by simp [hx])) r hr
      · simp only [h2, if_neg, if_false] at hr
        by_cases h3 : g ≤ nodeLen c
        · simp only [h3, if_pos] at hr
          rcases List.mem_cons.mp hr with hr | hr
          · rw [hr]
            exact deleteNode_ok c f g (h c (by simp))
          · exact h r (by simp [hr])
        · simp only [h3, if_neg, if_false] at hr
          rcases List.mem_cons.mp hr with hr | hr
          · rw [hr]
            exact deleteNode_ok c f (nodeLen c) (h c (by simp))
          · exact deleteChildren_ok rest 0 (g - nodeLen c)
              (fun x hx => h x (by simp [hx])) r hr

end

/-- Claim C8: `update_cache_leaf` / `update_cache_internal` recompute exactly
the sums checked by `check_cache_leaf` / `check_cache_internal` (leaf cache =
sum of run lengths, internal cache = sum of child caches), and the check
assertions hold recursively on every tree state reachable by inserts and
range deletions from the empty tree. -/
theorem C8_rle_cache_invariant :
    (∀ runs : List CString, checkCacheLeafB runs (updateCacheLeaf runs) = true) ∧
    (∀ cs : List RNode, checkCacheInternalB cs (updateCacheInternal cs) = true) ∧
    (∀ t : RNode, ReachT t → CacheOk t) := by
  refine ⟨?_, ?_, ?_⟩
  · intro runs
    simp [checkCacheLeafB, updateCacheLeaf]
  · intro cs
    simp [checkCacheInternalB, updateCacheInternal]
  · intro t ht
    induction ht with
    | init => exact cacheOk_mkLeaf []
    | @ins t idx s ht ih =>
      unfold insertTree
      have hall := insertNode_ok t idx s ih
      cases hres : insertNode t idx s with
      | nil => exact cacheOk_mkInternal [] (by simp)
      | cons x rest =>
        cases rest with
        | nil =>
          simpa using hall x (by rw [hres]; simp)
        | cons y rest2 =>
          exact cacheOk_mkInternal _ (fun z hz => hall z (by rw [hres]; exact hz))
    | @del t pos len ht ih =>
      exact deleteNode_ok t pos (pos + len) ih

theorem C8_witness :
    CacheOk (insertTree (mkLeaf []) 0 ('a' :: 'b' :: [])) := by
  exact C8_rle_cache_invariant.2.2 _ (ReachT.ins 0 _ ReachT.init)

theorem keyLeB_total (c d : Change) : keyLeB c d = true ∨ keyLeB d c = true := by
  unfold keyLeB
  by_cases h : c.lamport < d.lamport ∨ (c.lamport = d.lamport ∧ (c.csite < d.csite ∨
      (c.csite = d.csite ∧ c.ccounter ≤ d.ccounter)))
  · left; exact decide_eq_true h
  · right
    apply decide_eq_true
    omega

theorem keyLeB_of_not (c d : Change) (h : keyLeB c d = false) : keyLeB d c = true := by
  rcases keyLeB_total c d with h2 | h2
  · rw [h] at h2; cases h2
  · exact h2

theorem insortChange_append_max (c : Change) :
    ∀ (cs : List Change), (∀ d ∈ cs, keyLeB c d = false) →
    insortChange c cs = cs ++ [c] := by
  intro cs
  induction cs with
  | nil => intro h; rfl
  | cons d ds ih =>
    intro h
    rw [insortChange]
    rw [h d (by simp)]
    simp only [Bool.false_eq_true, if_false]
    rw [ih (fun x hx => h x (by simp [hx]))]
    rfl

theorem insortChange_append_single (c0 c : Change) (hle : keyLeB c0 c = true) :
    ∀ (l : List Change), insortChange c0 (l ++ [c]) = insortChange c0 l ++ [c] := by
  intro l
  induction l with
  | nil =>
    rw [List.nil_append, insortChange, insortChange, hle]
    simp
  | cons d ds ih =>
    rw [List.cons_append, insortChange, insortChange]
    by_cases h : keyLeB c0 d = true
    · simp [h]
    · simp only [Bool.not_eq_true] at h
      rw [h]
      simp only [Bool.false_eq_true, if_false]
      rw [ih]
      rfl

theorem sortChanges_append_max (c : Change) :
    ∀ (cs : List Change), (∀ d ∈ cs, keyLeB c d = false) →
    sortChanges (cs ++ [c]) = sortChanges cs ++ [c] := by
  intro cs
  induction cs with
  | nil => intro h; rfl
  | cons d ds ih =>
    intro h
    rw [List.cons_append, sortChanges, sortChanges]
    rw [ih (fun x hx => h x (by simp [hx]))]
    exact insortChange_append_single d c (keyLeB_of_not c d (h d (by simp))) _

theorem interp_append_max (cs : List Change) (c : Change)
    (h : ∀ d ∈ cs, keyLeB c d = false) :
    interp (cs ++ [c]) = applyChange (interp cs) c := by
  unfold interp
  rw [sortChanges_append_max c cs h, List.foldl_append]
  rfl

theorem aliveList_cons (f : CElem) (fs : List CElem) :
    aliveList (f :: fs) = if f.alive then f :: aliveList fs else aliveList fs := by
  by_cases h : f.alive <;> simp [aliveList, h]

theorem visibleChars_eq_map (doc : List CElem) :
    visibleChars doc = (aliveList doc).map (fun f => f.ch) := by
  induction doc with
  | nil => rfl
  | cons f fs ih =>
    by_cases h : f.alive
    · simp only [visibleChars, List.filterMap_cons, h, if_true, aliveList_cons, List.map_cons]
      exact congrArg _ ih
    · simp only [visibleChars, List.filterMap_cons, h, Bool.false_eq_true, if_false,
        aliveList_cons]
      exact ih

theorem keyLeB_false_of_lt (c d : Change) (h : d.lamport < c.lamport) :
    keyLeB c d = false := by
  unfold keyLeB
  apply decide_eq_false
  omega

theorem aliveList_map_kill (ts : List OpId) :
    ∀ (doc : List CElem),
    aliveList (doc.map (fun f => if f.eid ∈ ts then { f with alive := false } else f))
      = (aliveList doc).filter (fun f => decide (f.eid ∉ ts)) := by
  intro doc
  induction doc with
  | nil => rfl
  | cons f fs ih =>
    by_cases hm : f.eid ∈ ts <;> by_cases ha : f.alive = true <;>
      simp [List.map_cons, aliveList_cons, hm, ha, List.filter_cons, ih]

theorem filter_window (A : List CElem) (pos len : Nat)
    (hnd : (A.map (fun f => f.eid)).Nodup) :
    A.filter (fun f => decide (f.eid ∉ ((A.drop pos).take len).map (fun g => g.eid)))
      = A.take pos ++ (A.drop pos).drop len := by
  have hA : A = A.take pos ++ ((A.drop pos).take len ++ (A.drop pos).drop len) := by
    rw [List.take_append_drop, List.take_append_drop]
  set T := A.take pos with hT
  set W := (A.drop pos).take len with hW
  set D := (A.drop pos).drop len with hD
  have hmap : A.map (fun f => f.eid)
      = T.map (fun f => f.eid) ++ (W.map (fun f => f.eid) ++ D.map (fun f => f.eid)) := by
    conv_lhs => rw [hA]
    simp [List.map_append]
  rw [hmap] at hnd
  rw [List.nodup_append] at hnd
  obtain ⟨hndT, hndWD, hdisjT⟩ := hnd
  rw [List.nodup_append] at hndWD
  obtain ⟨hndW, hndD, hdisjWD⟩ := hndWD
  conv_lhs => rw [hA]
  rw [List.filter_append, List.filter_append]
  have hTkeep : T.filter (fun f => decide (f.eid ∉ W.map (fun g => g.eid))) = T := by
    apply List.filter_eq_self.mpr
    intro f hf
    apply decide_eq_true
    intro hmem
    exact hdisjT (List.mem_map_of_mem _ hf) (List.mem_append_left _ hmem)
  have hWdrop : W.filter (fun f => decide (f.eid ∉ W.map (fun g => g.eid))) = [] := by
    apply List.filter_eq_nil.mpr
    intro f hf
    simp only [decide_eq_true_eq]
    intro hc
    exact hc (List.mem_map_of_mem _ hf)
  have hDkeep : D.filter (fun f => decide (f.eid ∉ W.map (fun g => g.eid))) = D := by
    apply List.filter_eq_self.mpr
    intro f hf
    apply decide_eq_true
    intro hmem
    exact hdisjWD hmem (List.mem_map_of_mem _ hf)
  rw [hTkeep, hWdrop, hDkeep]
  rfl

theorem drop_min_length {α : Type} (l : List α) (n : Nat) :
    l.drop (min n l.length) = l.drop n := by
  rcases Nat.le_total n l.length with h | h
  · rw [Nat.min_eq_left h]
  · rw [Nat.min_eq_right h, List.drop_length, List.drop_eq_nil_of_le h]

theorem value_length_eq (r : Replica) : r.value.length = (aliveList r.doc).length := by
  rw [Replica.value, visibleChars_eq_map, List.length_map]

theorem localDelete_value (r : Replica) (pos len : Nat)
    (hl : ∀ c ∈ r.changes, c.lamport < r.nextLamport)
    (hnd : ((r.doc).map (fun f => f.eid)).Nodup) :
    (localDelete r pos len).value =
      r.value.take pos ++ r.value.drop (min (pos + len) r.value.length) := by
  set A := aliveList r.doc with hAdef
  have hV : r.value = A.map (fun f => f.ch) := by
    rw [Replica.value, visibleChars_eq_map]
  by_cases h0 : A.length = 0
  · have hA0 : A = [] := List.length_eq_zero.mp h0
    have : localDelete r pos len = r := by
      unfold localDelete
      simp only [← hAdef]
      rw [if_pos h0]
    rw [this, hV, hA0]
    simp
  · by_cases hT : (((A.drop pos).take len).map (fun f => f.eid)).isEmpty
    · have hW : (A.drop pos).take len = [] := by
        rcases hw : (A.drop pos).take len with _ | ⟨a, l⟩
        · rfl
        · rw [hw] at hT; simp [List.isEmpty] at hT
      have hwin : min len (A.length - pos) = 0 := by
        have := congrArg List.length hW
        simp at this
        omega
      have hre : localDelete r pos len = r := by
        unfold localDelete
        simp only [← hAdef]
        rw [if_neg h0, if_pos hT]
      rw [hre, hV]
      have hL : (A.map (fun f => f.ch)).length = A.length := List.length_map _ _
      rcases Nat.eq_zero_or_pos len with hlen | hlen
      · subst hlen
        rcases Nat.le_total pos A.length with hp | hp
        · rw [Nat.add_zero, Nat.min_eq_left (by omega)]
          exact (List.take_append_drop _ _).symm
        · rw [Nat.add_zero, Nat.min_eq_right (by omega)]
          rw [List.take_of_length_le (by omega), List.drop_length]
          simp
      · have hp : A.length ≤ pos := by omega
        rw [Nat.min_eq_right (by omega), List.take_of_length_le (by omega), List.drop_length]
        simp
    · -- the real delete: a fresh change tombstones the window
      set targets := ((A.drop pos).take len).map (fun f => f.eid) with htg
      set c : Change :=
        { csite := r.rsite, ccounter := r.nextCounter, lamport := r.nextLamport,
          op := .del targets } with hc
      have hre : localDelete r pos len =
          { r with
              changes := r.changes ++ [c]
              nextCounter := r.nextCounter + targets.length
              nextLamport := r.nextLamport + 1 } := by
        unfold localDelete
        simp only [← hAdef, ← htg]
        rw [if_neg h0, if_neg hT]
      have hkey : ∀ d ∈ r.changes, keyLeB c d = false := by
        intro d hd
        exact keyLeB_false_of_lt c d (hl d hd)
      have hdoc' : interp (r.changes ++ [c]) =
          (r.doc).map (fun f => if f.eid ∈ targets then { f with alive := false } else f) := by
        rw [interp_append_max _ _ hkey]
        rfl
      have hndA : (A.map (fun f => f.eid)).Nodup := by
        have hsub : List.Sublist (A.map (fun f => f.eid)) ((r.doc).map (fun f => f.eid)) :=
          List.Sublist.map _ (List.filter_sublist _)
        exact List.Nodup.sublist hsub hnd
      have hval : (localDelete r pos len).value
          = ((A.filter (fun f => decide (f.eid ∉ targets))).map (fun f => f.ch)) := by
        rw [hre]
        show visibleChars (interp (r.changes ++ [c])) = _
        rw [hdoc', visibleChars_eq_map, aliveList_map_kill]
      rw [hval, htg, filter_window A pos len hndA, hV]
      rw [List.map_append, drop_min_length, List.map_take, List.map_drop, List.map_drop,
        List.drop_drop]

theorem mem_of_getLast?_eq {α : Type} (l : List α) (a : α) (h : l.getLast? = some a) :
    a ∈ l := by
  have h2 := List.mem_getLast?_eq_getLast (l := l) (x := a) (by rw [h]; rfl)
  obtain ⟨hne, heq⟩ := h2
  rw [heq]
  exact List.getLast_mem hne

theorem nodup_middle_iff {α : Type} (l1 l2 : List α) (a : α) :
    (l1 ++ a :: l2).Nodup ↔ a ∉ l1 ++ l2 ∧ (l1 ++ l2).Nodup := by
  rw [List.nodup_middle, List.nodup_cons]

theorem walkPeers_covered (e : CElem) (l : List CElem)
    (h : ∀ f ∈ l, idInVV e.ctx f.eid = true) : walkPeers e l = 0 := by
  cases l with
  | nil => rfl
  | cons f fs =>
    rw [walkPeers]
    by_cases h1 : some f.eid = e.origRight
    · rw [if_pos h1]
    · rw [if_neg h1, if_neg]
      intro hc
      have hcb := hc.2.2
      unfold concurrentB at hcb
      rw [h f (by simp)] at hcb
      simp at hcb

theorem idxOfId_middle :
    ∀ (X0 : List CElem) (prev : CElem) (Y : List CElem),
    (∀ f ∈ X0, f.eid ≠ prev.eid) →
    idxOfId (X0 ++ prev :: Y) prev.eid = X0.length := by
  intro X0
  induction X0 with
  | nil =>
    intro prev Y h
    unfold idxOfId
    simp [List.findIdx_cons]
  | cons a as ih =>
    intro prev Y h
    unfold idxOfId
    rw [List.cons_append, List.findIdx_cons]
    have ha : (decide (a.eid = prev.eid)) = false :=
      decide_eq_false (h a (by simp))
    rw [ha]
    show (as ++ prev :: Y).findIdx (fun f => decide (f.eid = prev.eid)) + 1 = as.length + 1
    have hih := ih prev Y (fun f hf => h f (by simp [hf]))
    unfold idxOfId at hih
    rw [hih]

theorem idxOfId_cons_ne (f : CElem) (fs : List CElem) (l : OpId) (hne : f.eid ≠ l) :
    idxOfId (f :: fs) l = idxOfId fs l + 1 := by
  unfold idxOfId
  rw [List.findIdx_cons]
  rw [decide_eq_false hne]
  rfl

theorem integrate_cons (f : CElem) (fs : List CElem) (e : CElem) (l : OpId)
    (hoL : e.origLeft = some l) (hne : f.eid ≠ l) :
    integrate (f :: fs) e = f :: integrate fs e := by
  simp only [integrate, hoL]
  rw [idxOfId_cons_ne f fs l hne]
  rw [List.drop_succ_cons]
  have harith : idxOfId fs l + 1 + 1 + walkPeers e (fs.drop (idxOfId fs l + 1))
      = (idxOfId fs l + 1 + walkPeers e (fs.drop (idxOfId fs l + 1))) + 1 := by omega
  rw [harith, List.take_succ_cons, List.drop_succ_cons, List.cons_append]

theorem integrate_at (e : CElem) :
    ∀ (doc : List CElem) (pos : Nat),
    (∀ f ∈ doc, idInVV e.ctx f.eid = true) →
    ((doc.map (fun f => f.eid)).Nodup) →
    pos ≤ (aliveList doc).length →
    e.origLeft = originLeftAt doc pos →
    ∃ j, j ≤ doc.length ∧
      integrate doc e = doc.take j ++ e :: doc.drop j ∧
      aliveList (doc.take j) = (aliveList doc).take pos ∧
      aliveList (doc.drop j) = (aliveList doc).drop pos := by
  intro doc
  induction doc with
  | nil =>
    intro pos hcov hnd hpos hoL
    have hoL0 : e.origLeft = none := by
      rw [hoL]; simp [originLeftAt, aliveList]
    refine ⟨0, by omega, ?_, by simp [aliveList], by simp [aliveList]⟩
    simp [integrate, hoL0, walkPeers]
  | cons f fs ih =>
    intro pos hcov hnd hpos hoL
    cases pos with
    | zero =>
      have hoL0 : e.origLeft = none := by
        rw [hoL]; simp [originLeftAt]
      have hw : walkPeers e (f :: fs) = 0 := walkPeers_covered e _ hcov
      refine ⟨0, by omega, ?_, by simp [aliveList], by simp⟩
      simp [integrate, hoL0, hw]
    | succ p =>
      have hndf : f.eid ∉ fs.map (fun g => g.eid) := by
        rw [List.map_cons, List.nodup_cons] at hnd
        exact hnd.1
      have hndfs : (fs.map (fun g => g.eid)).Nodup := by
        rw [List.map_cons, List.nodup_cons] at hnd
        exact hnd.2
      have hcov' : ∀ g ∈ fs, idInVV e.ctx g.eid = true :=
        fun g hg => hcov g (by simp [hg])
      by_cases hf : f.alive = true
      · have hA : aliveList (f :: fs) = f :: aliveList fs := by
          rw [aliveList_cons, if_pos hf]
        cases p with
        | zero =>
          have hoL1 : e.origLeft = some f.eid := by
            rw [hoL]
            unfold originLeftAt
            rw [hA]
            simp
          have hw : walkPeers e fs = 0 := walkPeers_covered e fs hcov'
          have hidx : idxOfId (f :: fs) f.eid = 0 := by
            unfold idxOfId
            simp [List.findIdx_cons]
          refine ⟨1, by simp, ?_, ?_, ?_⟩
          · simp only [integrate, hoL1]
            rw [hidx]
            simp [hw]
          · rw [List.take_succ_cons, List.take_zero, hA, List.take_succ_cons, List.take_zero]
            simp [aliveList_cons, hf, aliveList]
          · rw [List.drop_succ_cons, List.drop_zero, hA, List.drop_succ_cons, List.drop_zero]
        | succ q =>
          have hpos' : q + 1 ≤ (aliveList fs).length := by
            rw [hA] at hpos
            simp at hpos
            omega
          have hne : (aliveList fs).take (q + 1) ≠ [] := by
            intro hcon
            have hlen : ((aliveList fs).take (q + 1)).length = 0 := by rw [hcon]; rfl
            rw [List.length_take] at hlen
            omega
          have hoL' : e.origLeft = originLeftAt fs (q + 1) := by
            rw [hoL]
            unfold originLeftAt
            rw [hA, List.take_succ_cons]
            rcases hA' : (aliveList fs).take (q + 1) with _ | ⟨a0, rest⟩
            · exact absurd hA' hne
            · rw [List.getLast?_cons_cons]
          obtain ⟨g, hg⟩ : ∃ g, ((aliveList fs).take (q + 1)).getLast? = some g := by
            rcases hgl : ((aliveList fs).take (q + 1)).getLast? with _ | g
            · exact absurd (List.getLast?_eq_none_iff.mp hgl) hne
            · exact ⟨g, rfl⟩
          have hgfs : g ∈ fs :=
            List.mem_of_mem_filter (List.mem_of_mem_take (mem_of_getLast?_eq _ _ hg))
          have hoLg : e.origLeft = some g.eid := by
            rw [hoL']
            unfold originLeftAt
            rw [hg]
            rfl
          have hnefg : f.eid ≠ g.eid := by
            intro hcon
            exact hndf (hcon ▸ List.mem_map_of_mem _ hgfs)
          obtain ⟨j, hj, heq, htake, hdrop⟩ := ih (q + 1) hcov' hndfs hpos' hoL'
          refine ⟨j + 1, by simp; omega, ?_, ?_, ?_⟩
          · rw [integrate_cons f fs e g.eid hoLg hnefg, heq]
            rw [List.take_succ_cons, List.drop_succ_cons, List.cons_append]
          · rw [List.take_succ_cons, aliveList_cons, if_pos hf, htake, hA, List.take_succ_cons]
          · rw [List.drop_succ_cons, hdrop, hA, List.drop_succ_cons]
      · have hA : aliveList (f :: fs) = aliveList fs := by
          rw [aliveList_cons, if_neg hf]
        have hpos' : p + 1 ≤ (aliveList fs).length := by
          rw [hA] at hpos
          exact hpos
        have hne : (aliveList fs).take (p + 1) ≠ [] := by
          intro hcon
          have hlen : ((aliveList fs).take (p + 1)).length = 0 := by rw [hcon]; rfl
          rw [List.length_take] at hlen
          omega
        have hoL' : e.origLeft = originLeftAt fs (p + 1) := by
          rw [hoL]
          unfold originLeftAt
          rw [hA]
        obtain ⟨g, hg⟩ : ∃ g, ((aliveList fs).take (p + 1)).getLast? = some g := by
          rcases hgl : ((aliveList fs).take (p + 1)).getLast? with _ | g
          · exact absurd (List.getLast?_eq_none_iff.mp hgl) hne
          · exact ⟨g, rfl⟩
        have hgfs : g ∈ fs :=
          List.mem_of_mem_filter (List.mem_of_mem_take (mem_of_getLast?_eq _ _ hg))
        have hoLg : e.origLeft = some g.eid := by
          rw [hoL']
          unfold originLeftAt
          rw [hg]
          rfl
        have hnefg : f.eid ≠ g.eid := by
          intro hcon
          exact hndf (hcon ▸ List.mem_map_of_mem _ hgfs)
        obtain ⟨j, hj, heq, htake, hdrop⟩ := ih (p + 1) hcov' hndfs hpos' hoL'
        refine ⟨j + 1, by simp; omega, ?_, ?_, ?_⟩
        · rw [integrate_cons f fs e g.eid hoLg hnefg, heq]
          rw [List.take_succ_cons, List.drop_succ_cons, List.cons_append]
        · rw [List.take_succ_cons, aliveList_cons, if_neg hf, htake, hA]
        · rw [List.drop_succ_cons, hdrop, hA]

theorem mkInsElems_props (site lam : Nat) (ctx : List Nat) (oR : Option OpId) :
    ∀ (chs : List Char) (cnt : Nat) (oL : Option OpId),
    (∀ f ∈ mkInsElems site lam ctx oR cnt oL chs,
      f.alive = true ∧ f.ctx = ctx ∧ f.eid.site = site ∧ cnt ≤ f.eid.counter ∧
        f.eid.counter < cnt + chs.length) ∧
    ((mkInsElems site lam ctx oR cnt oL chs).map (fun f => f.eid)).Nodup ∧
    (mkInsElems site lam ctx oR cnt oL chs).map (fun f => f.ch) = chs := by
  intro chs
  induction chs with
  | nil =>
    intro cnt oL
    refine ⟨by simp [mkInsElems], by simp [mkInsElems], by simp [mkInsElems]⟩
  | cons ch rest ih =>
    intro cnt oL
    obtain ⟨ih1, ih2, ih3⟩ := ih (cnt + 1) (some ⟨site, cnt⟩)
    rw [mkInsElems]
    refine ⟨?_, ?_, ?_⟩
    · intro f hf
      rcases List.mem_cons.mp hf with h | h
      · subst h
        refine ⟨rfl, rfl, rfl, by simp, by simp⟩
      · obtain ⟨p1, p2, p3, p4, p5⟩ := ih1 f h
        exact ⟨p1, p2, p3, by omega, by simpa [Nat.add_comm, Nat.add_assoc, Nat.add_left_comm] using p5⟩
    · rw [List.map_cons, List.nodup_cons]
      refine ⟨?_, ih2⟩
      intro hmem
      simp only [List.mem_map] at hmem
      obtain ⟨g, hg, hgeid⟩ := hmem
      have hge := (ih1 g hg).2.2.2.1
      have hc := congrArg OpId.counter hgeid
      simp at hc
      omega
    · rw [List.map_cons, ih3]

theorem foldl_integrate_run (site lam : Nat) (ctx : List Nat) (oR : Option OpId) :
    ∀ (chs : List Char) (cnt : Nat) (X0 Y : List CElem) (prev : CElem),
    (((X0 ++ prev :: Y).map (fun f => f.eid)).Nodup) →
    (∀ f ∈ Y, idInVV ctx f.eid = true) →
    (∀ f ∈ X0 ++ prev :: Y, f.eid.site = site → f.eid.counter < cnt) →
    (mkInsElems site lam ctx oR cnt (some prev.eid) chs).foldl
        (fun d e => integrate d e) (X0 ++ prev :: Y)
      = X0 ++ prev :: (mkInsElems site lam ctx oR cnt (some prev.eid) chs ++ Y) := by
  intro chs
  induction chs with
  | nil =>
    intro cnt X0 Y prev hnd hcov hfresh
    simp [mkInsElems]
  | cons ch rest ih =>
    intro cnt X0 Y prev hnd hcov hfresh
    rw [mkInsElems, List.foldl_cons]
    set e1 : CElem :=
      { eid := ⟨site, cnt⟩, ch := ch, origLeft := some prev.eid, origRight := oR,
        alive := true, lamport := lam, ctx := ctx } with he1
    have hX0ne : ∀ f ∈ X0, f.eid ≠ prev.eid := by
      intro f hf hcon
      rw [List.map_append, List.map_cons] at hnd
      rw [List.nodup_append] at hnd
      exact hnd.2.2 (List.mem_map_of_mem _ hf) (hcon ▸ List.mem_cons_self _ _)
    have hstep : integrate (X0 ++ prev :: Y) e1 = X0 ++ prev :: e1 :: Y := by
      simp only [integrate]
      rw [idxOfId_middle X0 prev Y hX0ne]
      have hdrop : (X0 ++ prev :: Y).drop (X0.length + 1) = Y := by
        have hsh : X0 ++ prev :: Y = (X0 ++ [prev]) ++ Y := by simp
        have hl : (X0 ++ [prev]).length = X0.length + 1 := by simp
        rw [hsh, ← hl, List.drop_left]
      have htake : (X0 ++ prev :: Y).take (X0.length + 1) = X0 ++ [prev] := by
        have hsh : X0 ++ prev :: Y = (X0 ++ [prev]) ++ Y := by simp
        have hl : (X0 ++ [prev]).length = X0.length + 1 := by simp
        rw [hsh, ← hl, List.take_left]
      rw [hdrop]
      have hw : walkPeers e1 Y = 0 := by
        apply walkPeers_covered
        intro f hf
        exact hcov f hf
      rw [hw, Nat.add_zero, htake, hdrop]
      simp
    rw [hstep]
    have hresh : X0 ++ prev :: e1 :: Y = (X0 ++ [prev]) ++ e1 :: Y := by simp
    rw [hresh]
    have hnd' : (((X0 ++ [prev]) ++ e1 :: Y).map (fun f => f.eid)).Nodup := by
      rw [List.map_append, List.map_cons]
      rw [nodup_middle_iff]
      constructor
      · intro hmem
        rw [← List.map_append] at hmem
        simp only [List.mem_map] at hmem
        obtain ⟨g, hg, hgeid⟩ := hmem
        have hsite := congrArg OpId.site hgeid
        have hcnt := congrArg OpId.counter hgeid
        simp at hsite hcnt
        have hgm : g ∈ X0 ++ prev :: Y := by
          rcases List.mem_append.mp hg with h | h
          · rcases List.mem_append.mp h with h2 | h2
            · exact List.mem_append.mpr (Or.inl h2)
            · simp at h2
              subst h2
              exact List.mem_append.mpr (Or.inr (List.mem_cons_self _ _))
          · exact List.mem_append.mpr (Or.inr (List.mem_cons_of_mem _ h))
        have := hfresh g hgm hsite
        omega
      · rw [← List.map_append]
        have : (X0 ++ [prev]) ++ Y = X0 ++ prev :: Y := by simp
        rw [this]
        exact hnd
    have hcov' : ∀ f ∈ Y, idInVV ctx f.eid = true := hcov
    have hfresh' : ∀ f ∈ (X0 ++ [prev]) ++ e1 :: Y, f.eid.site = site → f.eid.counter < cnt + 1 := by
      intro f hf hsite
      rcases List.mem_append.mp hf with h | h
      · have hfm : f ∈ X0 ++ prev :: Y := by
          rcases List.mem_append.mp h with h2 | h2
          · exact List.mem_append.mpr (Or.inl h2)
          · simp at h2
            subst h2
            exact List.mem_append.mpr (Or.inr (List.mem_cons_self _ _))
        have := hfresh f hfm hsite
        omega
      · rcases List.mem_cons.mp h with h2 | h2
        · subst h2
          simp
        · have := hfresh f (List.mem_append.mpr (Or.inr (List.mem_cons_of_mem _ h2))) hsite
          omega
    have hrun := ih (cnt + 1) (X0 ++ [prev]) Y e1 hnd' hcov' hfresh'
    have heid : e1.eid = (⟨site, cnt⟩ : OpId) := rfl
    rw [heid] at hrun
    rw [hrun]
    simp

theorem aliveList_append (A B : List CElem) :
    aliveList (A ++ B) = aliveList A ++ aliveList B := by
  simp [aliveList, List.filter_append]

theorem localInsert_fields (n : Nat) (r : Replica) (pos : Nat) (ch : Char) (rest : List Char) :
    (localInsert n r pos (ch :: rest)).rsite = r.rsite ∧
    (localInsert n r pos (ch :: rest)).changes = r.changes ++ [insChangeOf n r pos (ch :: rest)] ∧
    (localInsert n r pos (ch :: rest)).nextCounter = r.nextCounter + (ch :: rest).length ∧
    (localInsert n r pos (ch :: rest)).nextLamport = r.nextLamport + 1 :=
  ⟨rfl, rfl, rfl, rfl⟩

theorem localInsert_spec (n : Nat) (r : Replica) (pos : Nat) (ch : Char) (rest : List Char)
    (hl : ∀ c ∈ r.changes, c.lamport < r.nextLamport)
    (hnd : ((r.doc).map (fun f => f.eid)).Nodup)
    (hcov : ∀ f ∈ r.doc, idInVV (vvOf n r.changes) f.eid = true)
    (hfresh : ∀ f ∈ r.doc, f.eid.site = r.rsite → f.eid.counter < r.nextCounter)
    (hpos : pos ≤ (aliveList r.doc).length) :
    ∃ j, j ≤ r.doc.length ∧
      (localInsert n r pos (ch :: rest)).doc
        = r.doc.take j ++ mkInsElems r.rsite r.nextLamport (vvOf n r.changes)
            (originRightAt r.doc pos) r.nextCounter (originLeftAt r.doc pos) (ch :: rest)
            ++ r.doc.drop j ∧
      aliveList (r.doc.take j) = (aliveList r.doc).take pos ∧
      aliveList (r.doc.drop j) = (aliveList r.doc).drop pos := by
  set e1 : CElem :=
    { eid := ⟨r.rsite, r.nextCounter⟩, ch := ch, origLeft := originLeftAt r.doc pos,
      origRight := originRightAt r.doc pos, alive := true, lamport := r.nextLamport,
      ctx := vvOf n r.changes } with he1
  have hmk : mkInsElems r.rsite r.nextLamport (vvOf n r.changes)
      (originRightAt r.doc pos) r.nextCounter (originLeftAt r.doc pos) (ch :: rest)
      = e1 :: mkInsElems r.rsite r.nextLamport (vvOf n r.changes)
          (originRightAt r.doc pos) (r.nextCounter + 1) (some ⟨r.rsite, r.nextCounter⟩) rest := by
    rw [mkInsElems]
  have hdoc : (localInsert n r pos (ch :: rest)).doc
      = (mkInsElems r.rsite r.nextLamport (vvOf n r.changes)
          (originRightAt r.doc pos) r.nextCounter (originLeftAt r.doc pos) (ch :: rest)).foldl
          (fun d e => integrate d e) r.doc := by
    show interp ((localInsert n r pos (ch :: rest)).changes) = _
    rw [(localInsert_fields n r pos ch rest).2.1]
    rw [interp_append_max _ _ (fun d hd => keyLeB_false_of_lt _ d (hl d hd))]
    rfl
  have hcov1 : ∀ f ∈ r.doc, idInVV e1.ctx f.eid = true := hcov
  obtain ⟨j, hj, heq, htake, hdrop⟩ := integrate_at e1 r.doc pos hcov1 hnd hpos rfl
  refine ⟨j, hj, ?_, htake, hdrop⟩
  rw [hdoc, hmk, List.foldl_cons]
  have hstep : integrate r.doc e1 = r.doc.take j ++ e1 :: r.doc.drop j := heq
  rw [hstep]
  have hnd2 : (((r.doc.take j ++ e1 :: r.doc.drop j)).map (fun f => f.eid)).Nodup := by
    rw [List.map_append, List.map_cons, nodup_middle_iff]
    constructor
    · intro hmem
      rw [← List.map_append, List.take_append_drop] at hmem
      simp only [List.mem_map] at hmem
      obtain ⟨g, hg, hgeid⟩ := hmem
      have hsite := congrArg OpId.site hgeid
      have hcnt := congrArg OpId.counter hgeid
      simp at hsite hcnt
      have := hfresh g hg hsite
      omega
    · rw [← List.map_append, List.take_append_drop]
      exact hnd
  have hcovY : ∀ f ∈ r.doc.drop j, idInVV (vvOf n r.changes) f.eid = true :=
    fun f hf => hcov f (List.mem_of_mem_drop hf)
  have hfresh2 : ∀ f ∈ r.doc.take j ++ e1 :: r.doc.drop j,
      f.eid.site = r.rsite → f.eid.counter < r.nextCounter + 1 := by
    intro f hf hsite
    rcases List.mem_append.mp hf with h | h
    · have := hfresh f (List.mem_of_mem_take h) hsite
      omega
    · rcases List.mem_cons.mp h with h2 | h2
      · subst h2
        simp
      · have := hfresh f (List.mem_of_mem_drop h2) hsite
        omega
  have hrun := foldl_integrate_run r.rsite r.nextLamport (vvOf n r.changes)
    (originRightAt r.doc pos) rest (r.nextCounter + 1) (r.doc.take j) (r.doc.drop j) e1
    hnd2 hcovY hfresh2
  have heid : e1.eid = (⟨r.rsite, r.nextCounter⟩ : OpId) := rfl
  rw [heid] at hrun
  rw [hrun]
  simp

theorem localInsert_value (n : Nat) (r : Replica) (pos : Nat) (s : List Char)
    (hl : ∀ c ∈ r.changes, c.lamport < r.nextLamport)
    (hnd : ((r.doc).map (fun f => f.eid)).Nodup)
    (hcov : ∀ f ∈ r.doc, idInVV (vvOf n r.changes) f.eid = true)
    (hfresh : ∀ f ∈ r.doc, f.eid.site = r.rsite → f.eid.counter < r.nextCounter)
    (hpos : pos ≤ r.value.length) :
    (localInsert n r pos s).value = r.value.take pos ++ s ++ r.value.drop pos := by
  cases s with
  | nil =>
    have hre : localInsert n r pos [] = r := rfl
    rw [hre, List.append_nil, List.take_append_drop]
  | cons ch rest =>
    rw [value_length_eq] at hpos
    obtain ⟨j, hj, hdoc, htake, hdrop⟩ :=
      localInsert_spec n r pos ch rest hl hnd hcov hfresh hpos
    obtain ⟨hprops, hndmk, hchars⟩ := mkInsElems_props r.rsite r.nextLamport (vvOf n r.changes)
      (originRightAt r.doc pos) (ch :: rest) r.nextCounter (originLeftAt r.doc pos)
    set es := mkInsElems r.rsite r.nextLamport (vvOf n r.changes)
      (originRightAt r.doc pos) r.nextCounter (originLeftAt r.doc pos) (ch :: rest) with hes
    have hales : aliveList es = es := by
      apply List.filter_eq_self.mpr
      intro f hf
      exact (hprops f hf).1
    have hval : (localInsert n r pos (ch :: rest)).value
        = (aliveList ((localInsert n r pos (ch :: rest)).doc)).map (fun f => f.ch) := by
      rw [Replica.value, visibleChars_eq_map]
    rw [hval, hdoc, aliveList_append, aliveList_append, hales, htake, hdrop]
    rw [List.map_append, List.map_append, hchars]
    rw [Replica.value, visibleChars_eq_map, List.map_take, List.map_drop]

theorem SInv_cov (r : Replica) (h : SInv r) :
    ∀ f ∈ r.doc, idInVV (vvOf 1 r.changes) f.eid = true := by
  intro f hf
  obtain ⟨hs, hl, hnd, hdocp, hvv⟩ := h
  obtain ⟨hsite, hcnt⟩ := hdocp f hf
  unfold idInVV vvOf
  apply decide_eq_true
  rw [hsite]
  have hr1 : List.range 1 = [0] := rfl
  rw [hr1, List.map_cons, List.map_nil]
  show f.eid.counter < siteVV r.changes 0
  omega

theorem SInv_fresh (r : Replica) (h : SInv r) :
    ∀ f ∈ r.doc, f.eid.site = r.rsite → f.eid.counter < r.nextCounter := by
  intro f hf _
  exact (h.2.2.2.1 f hf).2

theorem siteVV_append_one (cs : List Change) (c : Change) (s : Nat) :
    siteVV (cs ++ [c]) s = siteVV cs s + (if c.csite = s then c.spanLen else 0) := by
  unfold siteVV
  rw [List.filter_append]
  by_cases h : c.csite = s
  · rw [if_pos h]
    have hone : List.filter (fun d => decide (d.csite = s)) [c] = [c] := by
      simp [h]
    rw [hone, List.map_append, List.sum_append]
    rfl
  · rw [if_neg h]
    have hzero : List.filter (fun d => decide (d.csite = s)) [c] = [] := by
      simp [h]
    rw [hzero, List.append_nil, Nat.add_zero]

theorem SInv_localInsert (r : Replica) (pos : Nat) (s : List Char)
    (h : SInv r) (hpos : pos ≤ r.value.length) :
    SInv (localInsert 1 r pos s) := by
  cases s with
  | nil => exact h
  | cons ch rest =>
    obtain ⟨hs, hl, hnd, hdocp, hvv⟩ := h
    rw [value_length_eq] at hpos
    obtain ⟨j, hj, hdoc, htake, hdrop⟩ :=
      localInsert_spec 1 r pos ch rest hl hnd (SInv_cov r ⟨hs, hl, hnd, hdocp, hvv⟩)
        (SInv_fresh r ⟨hs, hl, hnd, hdocp, hvv⟩) hpos
    obtain ⟨hprops, hndmk, hchars⟩ := mkInsElems_props r.rsite r.nextLamport (vvOf 1 r.changes)
      (originRightAt r.doc pos) (ch :: rest) r.nextCounter (originLeftAt r.doc pos)
    set es := mkInsElems r.rsite r.nextLamport (vvOf 1 r.changes)
      (originRightAt r.doc pos) r.nextCounter (originLeftAt r.doc pos) (ch :: rest) with hes
    have heslen : es.length = (ch :: rest).length := by
      have hc := congrArg List.length hchars
      simpa using hc
    obtain ⟨hf1, hf2, hf3, hf4⟩ := localInsert_fields 1 r pos ch rest
    refine ⟨by rw [hf1, hs], ?_, ?_, ?_, ?_⟩
    · intro c hc
      rw [hf2] at hc
      rw [hf4]
      rcases List.mem_append.mp hc with hm | hm
      · have := hl c hm
        omega
      · simp at hm
        subst hm
        show r.nextLamport < r.nextLamport + 1
        omega
    · rw [hdoc, List.map_append, List.map_append]
      have hndBAC : (es.map (fun f => f.eid)
          ++ ((r.doc.take j).map (fun f => f.eid)
              ++ (r.doc.drop j).map (fun f => f.eid))).Nodup := by
        apply List.nodup_append.mpr
        refine ⟨hndmk, ?_, ?_⟩
        · rw [← List.map_append, List.take_append_drop]
          exact hnd
        · intro a haes hadoc
          rw [← List.map_append, List.take_append_drop] at hadoc
          simp only [List.mem_map] at haes hadoc
          obtain ⟨g, hg, hgeid⟩ := haes
          obtain ⟨f, hf, hfeid⟩ := hadoc
          obtain ⟨_, _, hgsite, hgle, hglt⟩ := hprops g hg
          obtain ⟨hfsite, hfcnt⟩ := hdocp f hf
          have : g.eid = f.eid := by rw [hgeid, hfeid]
          have hceq := congrArg OpId.counter this
          omega
      have hperm : List.Perm
          (((r.doc.take j).map (fun f => f.eid) ++ es.map (fun f => f.eid))
            ++ (r.doc.drop j).map (fun f => f.eid))
          (es.map (fun f => f.eid)
            ++ ((r.doc.take j).map (fun f => f.eid)
                ++ (r.doc.drop j).map (fun f => f.eid))) := by
        have h1 : List.Perm
            ((r.doc.take j).map (fun f => f.eid) ++ es.map (fun f => f.eid))
            (es.map (fun f => f.eid) ++ (r.doc.take j).map (fun f => f.eid)) :=
          List.perm_append_comm
        have h2 := h1.append_right ((r.doc.drop j).map (fun f => f.eid))
        nth_rewrite 2 [List.append_assoc] at h2
        exact h2
      exact hperm.nodup_iff.mpr hndBAC
    · intro f hf
      rw [hdoc] at hf
      rw [hf3]
      rcases List.mem_append.mp hf with hm | hm
      · rcases List.mem_append.mp hm with hm2 | hm2
        · obtain ⟨h1, h2⟩ := hdocp f (List.mem_of_mem_take hm2)
          refine ⟨h1, by omega⟩
        · obtain ⟨_, _, hsite, _, hlt⟩ := hprops f hm2
          rw [hs] at hsite
          exact ⟨hsite, hlt⟩
      · obtain ⟨h1, h2⟩ := hdocp f (List.mem_of_mem_drop hm)
        refine ⟨h1, by omega⟩
    · rw [hf2, hf3, siteVV_append_one]
      rw [if_pos (show (insChangeOf 1 r pos (ch :: rest)).csite = 0 from hs)]
      have hsp : (insChangeOf 1 r pos (ch :: rest)).spanLen = (ch :: rest).length := by
        show es.length = (ch :: rest).length
        exact heslen
      rw [hsp]
      omega

theorem SInv_localDelete (r : Replica) (pos len : Nat) (h : SInv r) :
    SInv (localDelete r pos len) := by
  obtain ⟨hs, hl, hnd, hdocp, hvv⟩ := h
  set A := aliveList r.doc with hAdef
  by_cases h0 : A.length = 0
  · have hre : localDelete r pos len = r := by
      unfold localDelete
      simp only [← hAdef]
      rw [if_pos h0]
    rw [hre]
    exact ⟨hs, hl, hnd, hdocp, hvv⟩
  · by_cases hT : (((A.drop pos).take len).map (fun f => f.eid)).isEmpty
    · have hre : localDelete r pos len = r := by
        unfold localDelete
        simp only [← hAdef]
        rw [if_neg h0, if_pos hT]
      rw [hre]
      exact ⟨hs, hl, hnd, hdocp, hvv⟩
    · set targets := ((A.drop pos).take len).map (fun f => f.eid) with htg
      set c : Change :=
        { csite := r.rsite, ccounter := r.nextCounter, lamport := r.nextLamport,
          op := .del targets } with hc
      have hre : localDelete r pos len =
          { r with
              changes := r.changes ++ [c]
              nextCounter := r.nextCounter + targets.length
              nextLamport := r.nextLamport + 1 } := by
        unfold localDelete
        simp only [← hAdef, ← htg]
        rw [if_neg h0, if_neg hT]
      have hdoc' : interp (r.changes ++ [c]) =
          (r.doc).map (fun f => if f.eid ∈ targets then { f with alive := false } else f) := by
        rw [interp_append_max _ _ (fun d hd => keyLeB_false_of_lt _ d (hl d hd))]
        rfl
      rw [hre]
      have hmapeid : (((r.doc).map
            (fun f => if f.eid ∈ targets then { f with alive := false } else f)).map
          (fun f => f.eid)) = (r.doc).map (fun f => f.eid) := by
        rw [List.map_map]
        apply List.map_congr_left
        intro f _
        by_cases hm : f.eid ∈ targets <;> simp [hm]
      refine ⟨hs, ?_, ?_, ?_, ?_⟩
      · intro d hd
        rcases List.mem_append.mp hd with hm | hm
        · have := hl d hm
          show d.lamport < r.nextLamport + 1
          omega
        · simp at hm
          subst hm
          show r.nextLamport < r.nextLamport + 1
          omega
      · show ((interp (r.changes ++ [c])).map (fun f => f.eid)).Nodup
        rw [hdoc', hmapeid]
        exact hnd
      · intro f hf
        replace hf : f ∈ interp (r.changes ++ [c]) := hf
        rw [hdoc'] at hf
        simp only [List.mem_map] at hf
        obtain ⟨g, hg, hgf⟩ := hf
        obtain ⟨h1, h2⟩ := hdocp g hg
        have heid : f.eid = g.eid := by
          subst hgf
          by_cases hm : g.eid ∈ targets <;> simp [hm]
        rw [heid]
        refine ⟨h1, ?_⟩
        show g.eid.counter < r.nextCounter + targets.length
        omega
      · show siteVV (r.changes ++ [c]) 0 = r.nextCounter + targets.length
        rw [siteVV_append_one]
        rw [if_pos (show c.csite = 0 from hs)]
        have hsp : c.spanLen = targets.length := rfl
        rw [hsp]
        omega

theorem localDelete_noop (r : Replica) (pos len : Nat) (h0 : r.value.length = 0) :
    localDelete r pos len = r := by
  rw [value_length_eq] at h0
  set A := aliveList r.doc with hAdef
  unfold localDelete
  simp only [← hAdef]
  rw [if_pos h0]

theorem stepS_spec (g : List Char) (r : Replica) (a : SAct)
    (hv : r.value = g) (hi : SInv r) :
    (applySR r (preprocessS g a)).value = naiveApply g (preprocessS g a) ∧
    SInv (applySR r (preprocessS g a)) := by
  cases a with
  | sins rawpos s =>
    have ha2 : preprocessS g (SAct.sins rawpos s) = SAct.sins (rawpos % (g.length + 1)) s := rfl
    rw [ha2]
    have hpos : rawpos % (g.length + 1) ≤ r.value.length := by
      rw [hv]
      have := Nat.mod_lt rawpos (show 0 < g.length + 1 by omega)
      omega
    constructor
    · show (localInsert 1 r (rawpos % (g.length + 1)) s).value = _
      rw [localInsert_value 1 r _ s hi.2.1 hi.2.2.1 (SInv_cov r hi) (SInv_fresh r hi) hpos, hv]
      rfl
    · exact SInv_localInsert r _ s hi hpos
  | sdel rawpos rawlen =>
    by_cases hg : g.length = 0
    · have ha2 : preprocessS g (SAct.sdel rawpos rawlen) = SAct.sdel 0 0 := by
        simp only [preprocessS]
        rw [if_pos hg]
      rw [ha2]
      have hgnil : g = [] := List.length_eq_zero.mp hg
      have hno : localDelete r 0 0 = r :=
        localDelete_noop r 0 0 (by rw [hv, hgnil]; rfl)
      constructor
      · show (localDelete r 0 0).value = _
        rw [hno, hv, hgnil]
        rfl
      · show SInv (localDelete r 0 0)
        rw [hno]
        exact hi
    · have ha2 : preprocessS g (SAct.sdel rawpos rawlen)
          = SAct.sdel (rawpos % g.length) (min rawlen (g.length - rawpos % g.length)) := by
        simp only [preprocessS]
        rw [if_neg hg]
      rw [ha2]
      set p := rawpos % g.length with hp
      set l2 := min rawlen (g.length - p) with hl2
      have hplt : p < g.length := Nat.mod_lt rawpos (by omega)
      have hnaive : naiveApply g (SAct.sdel p l2) = g.take p ++ g.drop (p + l2) := by
        cases g with
        | nil => simp at hg
        | cons c0 cs => rfl
      constructor
      · show (localDelete r p l2).value = _
        rw [localDelete_value r p l2 hi.2.1 hi.2.2.1, hv, hnaive]
        have hmin : min (p + l2) g.length = p + l2 := by
          rw [Nat.min_eq_left]
          omega
        rw [hmin]
      · exact SInv_localDelete r p l2 hi

theorem runSingle_inv (acts : List SAct) :
    (runSingle acts).2.value = (runSingle acts).1 ∧ SInv (runSingle acts).2 := by
  have hinit_inv : SInv { rsite := 0, changes := [], nextCounter := 0, nextLamport := 0 } := by
    refine ⟨rfl, ?_, ?_, ?_, rfl⟩
    · intro c hc
      exact absurd hc (List.not_mem_nil c)
    · exact List.nodup_nil
    · intro f hf
      exact absurd hf (List.not_mem_nil f)
  suffices hgen : ∀ (as : List SAct) (g : List Char) (r : Replica), r.value = g → SInv r →
      (as.foldl (fun p a =>
        let a2 := preprocessS p.1 a
        (naiveApply p.1 a2, applySR p.2 a2)) (g, r)).2.value
        = (as.foldl (fun p a =>
        let a2 := preprocessS p.1 a
        (naiveApply p.1 a2, applySR p.2 a2)) (g, r)).1 ∧
      SInv (as.foldl (fun p a =>
        let a2 := preprocessS p.1 a
        (naiveApply p.1 a2, applySR p.2 a2)) (g, r)).2 by
    exact hgen acts [] _ rfl hinit_inv
  intro as
  induction as with
  | nil =>
    intro g r hval hinv
    exact ⟨hval, hinv⟩
  | cons a rest ih =>
    intro g r hval hinv
    rw [List.foldl_cons]
    obtain ⟨h1, h2⟩ := stepS_spec g r a hval hinv
    exact ih (naiveApply g (preprocessS g a)) (applySR r (preprocessS g a)) h1 h2

/-- Claim C2: Single-replica fidelity: for every sequence of (preprocessed,
boundary-aligned) local insert/delete actions applied to one fresh replica's
text container, after each action `get_value()` equals the result of applying
the same actions to an ordinary string (`insert_str` for inserts, `drain` for
deletes); in particular `insert(0,"abc"); insert(1,"x")` yields `"axbc"`. -/
theorem C2_single_replica_fidelity :
    (∀ acts : List SAct, (runSingle acts).2.value = (runSingle acts).1) ∧
    (runSingle [SAct.sins 0 ('a' :: 'b' :: 'c' :: []), SAct.sins 1 ('x' :: [])]).2.value
      = 'a' :: 'x' :: 'b' :: 'c' :: [] := by
  constructor
  · intro acts
    exact (runSingle_inv acts).1
  · decide

/-- Claim C7: `TextHandle.delete(pos, len)` is a no-op when the visible length
is `0`; otherwise it removes exactly the visible range
`[pos, min(pos+len, visible_len))` and leaves the rest unchanged, failing for
no `len` (the model is a total function). -/
theorem C7_delete_clamping (r : Replica) (pos len : Nat)
    (hl : ∀ c ∈ r.changes, c.lamport < r.nextLamport)
    (hnd : ((r.doc).map (fun f => f.eid)).Nodup) :
    (r.value.length = 0 → localDelete r pos len = r) ∧
    (localDelete r pos len).value =
      r.value.take pos ++ r.value.drop (min (pos + len) r.value.length) := by
  constructor
  · intro h0
    exact localDelete_noop r pos len h0
  · exact localDelete_value r pos len hl hnd

/-- Witness for C7: on the concrete replica holding `"abc"`, `delete(1, 5)`
clamps to the end and leaves `"a"`. -/
theorem C7_witness :
    (localDelete rC7 1 5).value = 'a' :: [] := by
  have h := (C7_delete_clamping rC7 1 5 (by decide) (by decide)).2
  rw [h]
  decide

theorem keyLeB_trans (c d e : Change) (h1 : keyLeB c d = true) (h2 : keyLeB d e = true) :
    keyLeB c e = true := by
  unfold keyLeB at h1 h2 ⊢
  rw [decide_eq_true_eq] at h1 h2
  apply decide_eq_true
  omega

theorem keyLeB_antisymm_keys (c d : Change) (h1 : keyLeB c d = true) (h2 : keyLeB d c = true) :
    c.lamport = d.lamport ∧ startKey c = startKey d := by
  unfold keyLeB at h1 h2
  rw [decide_eq_true_eq] at h1 h2
  unfold startKey
  have hl : c.lamport = d.lamport := by omega
  have hs : c.csite = d.csite := by omega
  have hc : c.ccounter = d.ccounter := by omega
  rw [hl, hs, hc]
  exact ⟨rfl, rfl⟩

theorem insortChange_perm (c : Change) :
    ∀ l : List Change, List.Perm (insortChange c l) (c :: l) := by
  intro l
  induction l with
  | nil => exact List.Perm.refl _
  | cons d ds ih =>
    rw [insortChange]
    by_cases h : keyLeB c d = true
    · rw [if_pos h]
    · rw [if_neg h]
      exact (ih.cons d).trans (List.Perm.swap c d ds)

theorem sortChanges_perm (cs : List Change) : List.Perm (sortChanges cs) cs := by
  induction cs with
  | nil => exact List.Perm.refl _
  | cons c cs ih =>
    rw [sortChanges]
    exact (insortChange_perm c (sortChanges cs)).trans (ih.cons c)

theorem mem_insortChange (c x : Change) (l : List Change) (h : x ∈ insortChange c l) :
    x = c ∨ x ∈ l :=
  List.mem_cons.mp ((insortChange_perm c l).subset h)

theorem pairwise_insortChange (c : Change) :
    ∀ l : List Change, List.Pairwise (fun a b => keyLeB a b = true) l →
    List.Pairwise (fun a b => keyLeB a b = true) (insortChange c l) := by
  intro l
  induction l with
  | nil =>
    intro _
    exact List.pairwise_singleton _ c
  | cons d ds ih =>
    intro hp
    rw [List.pairwise_cons] at hp
    obtain ⟨hd, hds⟩ := hp
    rw [insortChange]
    by_cases h : keyLeB c d = true
    · rw [if_pos h]
      rw [List.pairwise_cons]
      refine ⟨?_, List.pairwise_cons.mpr ⟨hd, hds⟩⟩
      intro x hx
      rcases List.mem_cons.mp hx with hx | hx
      · rw [hx]
        exact h
      · exact keyLeB_trans c d x h (hd x hx)
    · rw [if_neg h]
      rw [List.pairwise_cons]
      refine ⟨?_, ih hds⟩
      intro x hx
      rcases mem_insortChange c x _ hx with hx | hx
      · rw [hx]
        exact keyLeB_of_not c d (Bool.not_eq_true _ ▸ (by revert h; cases keyLeB c d <;> simp))
      · exact hd x hx

theorem sortChanges_sorted (cs : List Change) :
    List.Pairwise (fun a b => keyLeB a b = true) (sortChanges cs) := by
  induction cs with
  | nil => exact List.Pairwise.nil
  | cons c cs ih =>
    rw [sortChanges]
    exact pairwise_insortChange c _ ih

theorem sorted_nodupkeys_perm_eq :
    ∀ (l1 l2 : List Change),
    List.Pairwise (fun a b => keyLeB a b = true) l1 →
    List.Pairwise (fun a b => keyLeB a b = true) l2 →
    List.Perm l1 l2 →
    (l1.map startKey).Nodup →
    l1 = l2 := by
  intro l1
  induction l1 with
  | nil =>
    intro l2 _ _ hperm _
    exact (List.Perm.nil_eq hperm).symm ▸ rfl
  | cons c cs1 ih =>
    intro l2 hp1 hp2 hperm hnd
    cases l2 with
    | nil => exact absurd hperm.symm (by intro hcon; exact absurd (List.Perm.nil_eq hcon) (by simp))
    | cons d cs2 =>
      have hceq : c = d := by
        have hcmem : c ∈ d :: cs2 := hperm.subset (List.mem_cons_self c cs1)
        have hdmem : d ∈ c :: cs1 := hperm.symm.subset (List.mem_cons_self d cs2)
        rcases List.mem_cons.mp hcmem with h1 | h1
        · exact h1
        · rcases List.mem_cons.mp hdmem with h2 | h2
          · exact h2.symm
          · -- c strictly inside l2's tail and d strictly inside l1's tail
            have hle1 : keyLeB c d = true := (List.pairwise_cons.mp hp1).1 d h2
            have hle2 : keyLeB d c = true := (List.pairwise_cons.mp hp2).1 c h1
            have hkeys := (keyLeB_antisymm_keys c d hle1 hle2).2
            rw [List.map_cons, List.nodup_cons] at hnd
            exact absurd (hkeys ▸ List.mem_map_of_mem startKey h2) hnd.1
      subst hceq
      have hperm' : List.Perm cs1 cs2 := hperm.cons_inv
      have heq := ih cs2 (List.pairwise_cons.mp hp1).2 (List.pairwise_cons.mp hp2).2 hperm'
        (by rw [List.map_cons, List.nodup_cons] at hnd; exact hnd.2)
      rw [heq]

theorem sortChanges_eq_of_perm (cs ds : List Change)
    (hnd : (cs.map startKey).Nodup) (hp : List.Perm cs ds) :
    sortChanges cs = sortChanges ds := by
  apply sorted_nodupkeys_perm_eq _ _ (sortChanges_sorted cs) (sortChanges_sorted ds)
  · exact (sortChanges_perm cs).trans (hp.trans (sortChanges_perm ds).symm)
  · exact ((sortChanges_perm cs).map startKey).nodup_iff.mpr hnd

theorem interp_respects_perm (cs ds : List Change)
    (hnd : (cs.map startKey).Nodup) (hp : List.Perm cs ds) :
    interp cs = interp ds := by
  unfold interp
  rw [sortChanges_eq_of_perm cs ds hnd hp]

theorem sumSpans_append (l t : List Change) : sumSpans (l ++ t) = sumSpans l + sumSpans t := by
  unfold sumSpans
  rw [List.map_append, List.sum_append]

theorem contig_mem_bounds :
    ∀ (l : List Change) (a : Nat), contig a l → (∀ c ∈ l, 1 ≤ c.spanLen) →
    ∀ c ∈ l, a ≤ c.ccounter ∧ c.ccounter < a + sumSpans l := by
  intro l
  induction l with
  | nil =>
    intro a _ _ c hc
    exact absurd hc (List.not_mem_nil c)
  | cons d ds ih =>
    intro a hcont hsp c hc
    obtain ⟨hd, hrest⟩ := hcont
    have hsum : sumSpans (d :: ds) = d.spanLen + sumSpans ds := by
      unfold sumSpans
      rw [List.map_cons, List.sum_cons]
    rcases List.mem_cons.mp hc with h | h
    · subst h
      have := hsp c (List.mem_cons_self c ds)
      omega
    · have := ih (a + d.spanLen) hrest (fun x hx => hsp x (List.mem_cons_of_mem d hx)) c h
      omega

theorem contig_append_one :
    ∀ (l : List Change) (a : Nat) (c : Change), contig a l →
    c.ccounter = a + sumSpans l → contig a (l ++ [c]) := by
  intro l
  induction l with
  | nil =>
    intro a c _ hc
    refine ⟨?_, trivial⟩
    unfold sumSpans at hc
    simpa using hc
  | cons d ds ih =>
    intro a c hcont hc
    obtain ⟨hd, hrest⟩ := hcont
    refine ⟨hd, ?_⟩
    apply ih (a + d.spanLen) c hrest
    have hsum : sumSpans (d :: ds) = d.spanLen + sumSpans ds := by
      unfold sumSpans
      rw [List.map_cons, List.sum_cons]
    omega

theorem contig_take :
    ∀ (l : List Change) (a k : Nat), contig a l → contig a (l.take k) := by
  intro l
  induction l with
  | nil =>
    intro a k _
    rw [List.take_nil]
    trivial
  | cons d ds ih =>
    intro a k hcont
    cases k with
    | zero => trivial
    | succ m =>
      obtain ⟨hd, hrest⟩ := hcont
      exact ⟨hd, ih (a + d.spanLen) m hrest⟩

theorem sumSpans_take_strict :
    ∀ (l : List Change) (k k' : Nat), (∀ c ∈ l, 1 ≤ c.spanLen) →
    k < k' → k' ≤ l.length →
    sumSpans (l.take k) < sumSpans (l.take k') := by
  intro l
  induction l with
  | nil =>
    intro k k' _ hlt hle
    simp at hle
    omega
  | cons d ds ih =>
    intro k k' hsp hlt hle
    have hsum : ∀ m, sumSpans ((d :: ds).take (m + 1))
        = d.spanLen + sumSpans (ds.take m) := by
      intro m
      rw [List.take_succ_cons]
      unfold sumSpans
      rw [List.map_cons, List.sum_cons]
    cases k' with
    | zero => omega
    | succ m' =>
      cases k with
      | zero =>
        rw [hsum m']
        have hd := hsp d (List.mem_cons_self d ds)
        have : sumSpans ((d :: ds).take 0) = 0 := rfl
        omega
      | succ m =>
        rw [hsum m, hsum m']
        have := ih m m' (fun x hx => hsp x (List.mem_cons_of_mem d hx)) (by omega)
          (by simp at hle; omega)
        omega

theorem sumSpans_take_inj (l : List Change) (k k' : Nat)
    (hsp : ∀ c ∈ l, 1 ≤ c.spanLen) (hk : k ≤ l.length) (hk' : k' ≤ l.length)
    (heq : sumSpans (l.take k) = sumSpans (l.take k')) : k = k' := by
  rcases Nat.lt_trichotomy k k' with h | h | h
  · have := sumSpans_take_strict l k k' hsp h hk'
    omega
  · exact h
  · have := sumSpans_take_strict l k' k hsp h hk
    omega

theorem filter_not_lt_bound :
    ∀ (l : List Change) (a k : Nat), contig a l → (∀ c ∈ l, 1 ≤ c.spanLen) →
    k ≤ l.length →
    l.filter (fun c => !(decide (c.ccounter < a + sumSpans (l.take k)))) = l.drop k := by
  intro l
  induction l with
  | nil =>
    intro a k _ _ _
    rw [List.drop_nil]
    rfl
  | cons d ds ih =>
    intro a k hcont hsp hk
    obtain ⟨hd, hrest⟩ := hcont
    cases k with
    | zero =>
      rw [List.drop_zero]
      apply List.filter_eq_self.mpr
      intro c hc
      have hb := (contig_mem_bounds (d :: ds) a ⟨hd, hrest⟩ hsp c hc).1
      have hs0 : sumSpans ((d :: ds).take 0) = 0 := rfl
      rw [hs0]
      simp
      omega
    | succ m =>
      have hsum : sumSpans ((d :: ds).take (m + 1)) = d.spanLen + sumSpans (ds.take m) := by
        rw [List.take_succ_cons]
        unfold sumSpans
        rw [List.map_cons, List.sum_cons]
      rw [List.filter_cons_of_neg]
      · have hcong : ds.filter (fun c => !(decide (c.ccounter < a + sumSpans ((d :: ds).take (m + 1)))))
            = ds.filter (fun c => !(decide (c.ccounter < (a + d.spanLen) + sumSpans (ds.take m)))) := by
          apply List.filter_congr
          intro c _
          have harith : a + sumSpans ((d :: ds).take (m + 1))
              = (a + d.spanLen) + sumSpans (ds.take m) := by
            rw [hsum]
            omega
          rw [harith]
        rw [hcong, ih (a + d.spanLen) m hrest (fun x hx => hsp x (List.mem_cons_of_mem d hx))
          (by simp at hk; omega)]
        rfl
      · have hd1 := hsp d (List.mem_cons_self d ds)
        rw [hsum]
        simp
        omega

theorem import_site_perm
    (hist : List Change) (s : Nat)
    (hspans : ∀ c ∈ hist, 1 ≤ c.spanLen)
    (hcontig : contig 0 (histSite hist s))
    (rdch rsch : List Change) (kd ks : Nat)
    (hkd : kd ≤ (histSite hist s).length) (hks : ks ≤ (histSite hist s).length)
    (hpd : List.Perm (rdch.filter (fun c => decide (c.csite = s))) ((histSite hist s).take kd))
    (hps : List.Perm (rsch.filter (fun c => decide (c.csite = s))) ((histSite hist s).take ks))
    (vvd : List Nat)
    (hvvd : vvd.getD s 0 = sumSpans ((histSite hist s).take kd)) :
    List.Perm
      ((rdch ++ ((rsch.filter (fun c => !(idInVV vvd ⟨c.csite, c.ccounter⟩))).filter
          (fun c => !(hasStart rdch c.csite c.ccounter)))).filter
        (fun c => decide (c.csite = s)))
      ((histSite hist s).take (max kd ks)) := by
  set L := histSite hist s with hL
  have hLF : L = hist.filter (fun c => decide (c.csite = s)) := by
    rw [hL]
    rfl
  have hspL : ∀ c ∈ L, 1 ≤ c.spanLen := by
    intro c hc
    rw [hLF] at hc
    exact hspans c (List.mem_of_mem_filter hc)
  have hsiteL : ∀ c ∈ L, c.csite = s := by
    intro c hc
    rw [hLF] at hc
    exact of_decide_eq_true ((List.mem_filter.mp hc).2)
  rw [List.filter_append]
  have hN : ((rsch.filter (fun c => !(idInVV vvd ⟨c.csite, c.ccounter⟩))).filter
        (fun c => !(hasStart rdch c.csite c.ccounter))).filter (fun c => decide (c.csite = s))
      = (rsch.filter (fun c => decide (c.csite = s))).filter
        (fun c => !(hasStart rdch c.csite c.ccounter) && !(idInVV vvd ⟨c.csite, c.ccounter⟩)) := by
    simp only [List.filter_filter]
    apply List.filter_congr
    intro c _
    cases hq : decide (c.csite = s) <;>
      cases h2 : (!(hasStart rdch c.csite c.ccounter)) <;>
      cases h1 : (!(idInVV vvd ⟨c.csite, c.ccounter⟩)) <;> rfl
  rw [hN]
  have hstep3 := hps.filter
    (fun c => !(hasStart rdch c.csite c.ccounter) && !(idInVV vvd ⟨c.csite, c.ccounter⟩))
  have hR : ∀ c ∈ L.take ks,
      (!(hasStart rdch c.csite c.ccounter) && !(idInVV vvd ⟨c.csite, c.ccounter⟩))
      = !(decide (c.ccounter < sumSpans (L.take kd))) := by
    intro c hc
    have hcs : c.csite = s := hsiteL c (List.mem_of_mem_take hc)
    have hP1 : (idInVV vvd ⟨c.csite, c.ccounter⟩) = decide (c.ccounter < sumSpans (L.take kd)) := by
      show decide ((⟨c.csite, c.ccounter⟩ : OpId).counter
        < vvd.getD (⟨c.csite, c.ccounter⟩ : OpId).site 0) = _
      show decide (c.ccounter < vvd.getD c.csite 0) = _
      rw [hcs, hvvd]
    by_cases hlt : c.ccounter < sumSpans (L.take kd)
    · rw [hP1, decide_eq_true hlt]
      simp
    · have hhs : hasStart rdch c.csite c.ccounter = false := by
        rw [hcs]
        by_contra hcon
        rw [Bool.not_eq_false] at hcon
        unfold hasStart at hcon
        rw [List.any_eq_true] at hcon
        obtain ⟨d, hd, hdp⟩ := hcon
        rw [Bool.and_eq_true] at hdp
        have hds : d.csite = s := of_decide_eq_true hdp.1
        have hdc : d.ccounter = c.ccounter := of_decide_eq_true hdp.2
        have hdf : d ∈ rdch.filter (fun x => decide (x.csite = s)) :=
          List.mem_filter.mpr ⟨hd, decide_eq_true hds⟩
        have hdLd : d ∈ L.take kd := hpd.subset hdf
        have hb := (contig_mem_bounds (L.take kd) 0 (contig_take L 0 kd hcontig)
          (fun x hx => hspL x (List.mem_of_mem_take hx)) d hdLd).2
        omega
      rw [hP1, hhs, decide_eq_false hlt]
      rfl
  have hRd := List.filter_congr hR
  rw [hRd] at hstep3
  rcases Nat.le_total kd ks with hle | hle
  · have hmax : max kd ks = ks := Nat.max_eq_right hle
    rw [hmax]
    have hLdLs : L.take kd = (L.take ks).take kd := by
      rw [List.take_take, Nat.min_eq_left hle]
    have hlen : kd ≤ (L.take ks).length := by
      rw [List.length_take]
      omega
    have hfilter : (L.take ks).filter (fun c => !(decide (c.ccounter < sumSpans (L.take kd))))
        = (L.take ks).drop kd := by
      have hcontigLs : contig 0 (L.take ks) := contig_take L 0 ks hcontig
      have hspLs : ∀ c ∈ L.take ks, 1 ≤ c.spanLen :=
        fun c hc => hspL c (List.mem_of_mem_take hc)
      have hbeq : (fun (c : Change) => !(decide (c.ccounter < sumSpans (L.take kd))))
          = (fun (c : Change) => !(decide (c.ccounter < 0 + sumSpans ((L.take ks).take kd)))) := by
        rw [← hLdLs, Nat.zero_add]
      rw [hbeq]
      exact filter_not_lt_bound (L.take ks) 0 kd hcontigLs hspLs hlen
    rw [hfilter] at hstep3
    have hcomb := hpd.append hstep3
    have hsplit : L.take kd ++ (L.take ks).drop kd = L.take ks := by
      rw [hLdLs, List.take_append_drop]
    rw [hsplit] at hcomb
    exact hcomb
  · have hmax : max kd ks = kd := Nat.max_eq_left hle
    rw [hmax]
    have hLsLd : L.take ks = (L.take kd).take ks := by
      rw [List.take_take, Nat.min_eq_left hle]
    have hfilter : (L.take ks).filter (fun c => !(decide (c.ccounter < sumSpans (L.take kd))))
        = [] := by
      apply List.filter_eq_nil.mpr
      intro c hc
      have hcLd : c ∈ L.take kd := by
        rw [hLsLd] at hc
        exact List.mem_of_mem_take hc
      have hb := (contig_mem_bounds (L.take kd) 0 (contig_take L 0 kd hcontig)
        (fun x hx => hspL x (List.mem_of_mem_take hx)) c hcLd).2
      simp
      omega
    rw [hfilter] at hstep3
    have hcomb := hpd.append hstep3
    rw [List.append_nil] at hcomb
    exact hcomb

theorem getD_set_self' {α : Type} (l : List α) (i : Nat) (a d : α) (hi : i < l.length) :
    (l.set i a).getD i d = a := by
  have h1 : (l.set i a)[i]? = some a := by
    rw [List.getElem?_set_self]
    · simp [hi]
  rw [List.getD_eq_getElem?_getD, h1]
  rfl

theorem getD_set_ne' {α : Type} (l : List α) (i j : Nat) (a d : α) (hne : i ≠ j) :
    (l.set i a).getD j d = l.getD j d := by
  rw [List.getD_eq_getElem?_getD, List.getElem?_set_ne hne, ← List.getD_eq_getElem?_getD]

theorem set_getD_self {α : Type} :
    ∀ (l : List α) (i : Nat) (d : α), i < l.length → l.set i (l.getD i d) = l := by
  intro l
  induction l with
  | nil =>
    intro i d h
    simp at h
  | cons a as ih =>
    intro i d h
    cases i with
    | zero => rfl
    | succ m =>
      show a :: as.set m ((a :: as).getD (m + 1) d) = a :: as
      have hg : (a :: as).getD (m + 1) d = as.getD m d := rfl
      rw [hg, ih m d (by simp at h; omega)]

theorem sumSpans_perm (l1 l2 : List Change) (h : List.Perm l1 l2) :
    sumSpans l1 = sumSpans l2 :=
  (h.map Change.spanLen).sum_eq

theorem siteVV_eq_sumSpans_filter (cs : List Change) (s : Nat) :
    siteVV cs s = sumSpans (cs.filter (fun c => decide (c.csite = s))) := rfl

theorem vvOf_getD (n : Nat) (cs : List Change) (s : Nat) (h : s < n) :
    (vvOf n cs).getD s 0 = siteVV cs s := by
  unfold vvOf
  rw [List.getD_eq_getElem?_getD, List.getElem?_map, List.getElem?_range h]
  rfl

theorem vvOf_getD_ge (n : Nat) (cs : List Change) (s : Nat) (h : n ≤ s) :
    (vvOf n cs).getD s 0 = 0 := by
  unfold vvOf
  apply List.getD_eq_default
  rw [List.length_map, List.length_range]
  exact h

theorem histSite_nil_of_ge (hist : List Change) (n s : Nat)
    (hh : ∀ c ∈ hist, c.csite < n) (hs : n ≤ s) : histSite hist s = [] := by
  apply List.filter_eq_nil.mpr
  intro c hc
  have := hh c hc
  simp
  omega

theorem histSite_append (h t : List Change) (s : Nat) :
    histSite (h ++ t) s = histSite h s ++ histSite t s := by
  unfold histSite
  rw [List.filter_append]

theorem rep_mk_set_self (sc : Nat) (reps : List Replica) (h : List Change)
    (i : Nat) (r : Replica) (hi : i < reps.length) :
    (World.mk sc (reps.set i r) h).rep i = r := by
  show (reps.set i r).getD i _ = r
  exact getD_set_self' reps i r _ hi

theorem rep_mk_set_ne (sc : Nat) (reps : List Replica) (h h' : List Change)
    (i j : Nat) (r : Replica) (hne : i ≠ j) :
    (World.mk sc (reps.set i r) h).rep j = (World.mk sc reps h').rep j := by
  show (reps.set i r).getD j _ = reps.getD j _
  exact getD_set_ne' reps i j r _ hne

theorem WInv_init (n : Nat) : WInv (initWorld n) := by
  have hrep : ∀ i, i < n → (initWorld n).rep i
      = { rsite := i, changes := [], nextCounter := 0, nextLamport := 0 } := by
    intro i hi
    show (((List.range n).map _).getD i _) = _
    rw [List.getD_eq_getElem?_getD, List.getElem?_map, List.getElem?_range hi]
    rfl
  refine ⟨by simp [initWorld], by simp [initWorld], ?_, ?_, ?_⟩
  · intro c hc
    exact absurd hc (List.not_mem_nil c)
  · intro s
    show contig 0 (histSite [] s)
    exact trivial
  · intro i hi
    rw [hrep i hi]
    refine ⟨rfl, ?_, ?_, rfl⟩
    · intro s
      exact ⟨0, by simp, by exact List.Perm.refl _⟩
    · exact List.Perm.refl _

theorem WInv_local_append
    (sc : Nat) (reps : List Replica) (hist : List Change)
    (hinv : WInv (World.mk sc reps hist))
    (i : Nat) (hi : i < sc) (r2 : Replica) (c0 : Change)
    (hrs : r2.rsite = ((World.mk sc reps hist).rep i).rsite)
    (hch : r2.changes = ((World.mk sc reps hist).rep i).changes ++ [c0])
    (hnc : r2.nextCounter = ((World.mk sc reps hist).rep i).nextCounter + c0.spanLen)
    (hcs : c0.csite = i)
    (hcc : c0.ccounter = ((World.mk sc reps hist).rep i).nextCounter)
    (hsp1 : 1 ≤ c0.spanLen) :
    WInv (World.mk sc (reps.set i r2) (hist ++ [c0])) := by
  obtain ⟨hlen0, hnd0, hsc0, hcontig0, hreps0⟩ := hinv
  have hlen : reps.length = sc := hlen0
  have hnd : (hist.map startKey).Nodup := hnd0
  have hsc : ∀ c ∈ hist, 1 ≤ c.spanLen ∧ c.csite < sc := hsc0
  have hcontig : ∀ s : Nat, contig 0 (histSite hist s) := hcontig0
  have hreps : ∀ j, j < sc →
      ((World.mk sc reps hist).rep j).rsite = j ∧
      (∀ s : Nat, ∃ k, k ≤ (histSite hist s).length ∧
        List.Perm (((World.mk sc reps hist).rep j).changes.filter
          (fun c => decide (c.csite = s))) ((histSite hist s).take k)) ∧
      List.Perm (((World.mk sc reps hist).rep j).changes.filter
        (fun c => decide (c.csite = j))) (histSite hist j) ∧
      ((World.mk sc reps hist).rep j).nextCounter = sumSpans (histSite hist j) := hreps0
  obtain ⟨hrsI, hRSI, hownI, hncI⟩ := hreps i hi
  have hilen : i < reps.length := by
    rw [hlen]
    exact hi
  have hhs : ∀ s : Nat, histSite (hist ++ [c0]) s
      = histSite hist s ++ if c0.csite = s then [c0] else [] := by
    intro s
    rw [histSite_append]
    congr 1
    unfold histSite
    by_cases h : c0.csite = s <;> simp [h]
  have hkey_fresh : startKey c0 ∉ hist.map startKey := by
    intro hcon
    simp only [List.mem_map] at hcon
    obtain ⟨d, hd, hdk⟩ := hcon
    have hds : d.csite = c0.csite := congrArg Prod.fst hdk
    have hdc : d.ccounter = c0.ccounter := congrArg Prod.snd hdk
    have hdH : d ∈ histSite hist i := by
      unfold histSite
      exact List.mem_filter.mpr ⟨hd, decide_eq_true (by rw [hds, hcs])⟩
    have hb := (contig_mem_bounds (histSite hist i) 0 (hcontig i)
      (fun x hx => (hsc x (List.mem_of_mem_filter hx)).1) d hdH).2
    have hdc2 : d.ccounter = sumSpans (histSite hist i) := by
      rw [hdc, hcc, hncI]
    omega
  refine ⟨?_, ?_, ?_, ?_, ?_⟩
  · show (reps.set i r2).length = sc
    rw [List.length_set]
    exact hlen
  · show ((hist ++ [c0]).map startKey).Nodup
    rw [List.map_append, List.map_cons, List.map_nil]
    rw [nodup_middle_iff]
    rw [List.append_nil]
    exact ⟨hkey_fresh, hnd⟩
  · show ∀ c ∈ hist ++ [c0], 1 ≤ c.spanLen ∧ c.csite < sc
    intro c hc
    rcases List.mem_append.mp hc with h | h
    · exact hsc c h
    · simp at h
      subst h
      exact ⟨hsp1, by rw [hcs]; exact hi⟩
  · show ∀ s : Nat, contig 0 (histSite (hist ++ [c0]) s)
    intro s
    rw [hhs s]
    by_cases h : c0.csite = s
    · rw [if_pos h]
      apply contig_append_one _ _ _ (hcontig s)
      have : c0.ccounter = sumSpans (histSite hist i) := by rw [hcc, hncI]
      rw [← h, hcs]
      omega
    · rw [if_neg h, List.append_nil]
      exact hcontig s
  · show ∀ j, j < sc →
      ((World.mk sc (reps.set i r2) (hist ++ [c0])).rep j).rsite = j ∧
      (∀ s : Nat, ∃ k, k ≤ (histSite (hist ++ [c0]) s).length ∧
        List.Perm (((World.mk sc (reps.set i r2) (hist ++ [c0])).rep j).changes.filter
          (fun c => decide (c.csite = s))) ((histSite (hist ++ [c0]) s).take k)) ∧
      List.Perm (((World.mk sc (reps.set i r2) (hist ++ [c0])).rep j).changes.filter
        (fun c => decide (c.csite = j))) (histSite (hist ++ [c0]) j) ∧
      ((World.mk sc (reps.set i r2) (hist ++ [c0])).rep j).nextCounter
        = sumSpans (histSite (hist ++ [c0]) j)
    intro j hj
    by_cases hji : j = i
    · subst hji
      rw [rep_mk_set_self sc reps (hist ++ [c0]) j r2 hilen]
      refine ⟨by rw [hrs, hrsI], ?_, ?_, ?_⟩
      · intro s
        rw [hch, List.filter_append, hhs s]
        by_cases h : c0.csite = s
        · rw [if_pos h]
          have hsj : s = j := by rw [← h, hcs]
          subst hsj
          refine ⟨(histSite hist s ++ [c0]).length, le_refl _, ?_⟩
          rw [List.take_length]
          have hf : List.filter (fun c => decide (c.csite = s)) [c0] = [c0] := by
            simp [h]
          rw [hf]
          exact hownI.append_right [c0]
        · rw [if_neg h, List.append_nil]
          have hf : List.filter (fun c => decide (c.csite = s)) [c0] = [] := by
            simp [h]
          rw [hf, List.append_nil]
          exact hRSI s
      · rw [hch, List.filter_append, hhs j]
        rw [if_pos hcs]
        have hf : List.filter (fun c => decide (c.csite = j)) [c0] = [c0] := by
          simp [hcs]
        rw [hf]
        exact hownI.append_right [c0]
      · rw [hnc, hncI, hhs j, if_pos hcs, sumSpans_append]
        have h1 : sumSpans [c0] = c0.spanLen := by
          unfold sumSpans
          simp
        rw [h1]
    · rw [rep_mk_set_ne sc reps (hist ++ [c0]) hist i j r2 (fun hcon => hji hcon.symm)]
      obtain ⟨hrsJ, hRSJ, hownJ, hncJ⟩ := hreps j hj
      refine ⟨hrsJ, ?_, ?_, ?_⟩
      · intro s
        obtain ⟨k, hk, hp⟩ := hRSJ s
        rw [hhs s]
        by_cases h : c0.csite = s
        · rw [if_pos h]
          refine ⟨k, by simp; omega, ?_⟩
          rw [List.take_append_of_le_length hk]
          exact hp
        · rw [if_neg h, List.append_nil]
          exact ⟨k, hk, hp⟩
      · rw [hhs j, if_neg (by rw [hcs]; exact fun hcon => hji hcon.symm), List.append_nil]
        exact hownJ
      · rw [hhs j, if_neg (by rw [hcs]; exact fun hcon => hji hcon.symm), List.append_nil]
        exact hncJ

theorem localDelete_cases (r : Replica) (pos len : Nat) :
    localDelete r pos len = r ∨
    ∃ ts : List OpId, ts ≠ [] ∧
      (localDelete r pos len).rsite = r.rsite ∧
      (localDelete r pos len).changes = r.changes ++ [delChangeOf r ts] ∧
      (localDelete r pos len).nextCounter = r.nextCounter + ts.length ∧
      (localDelete r pos len).nextLamport = r.nextLamport + 1 := by
  set A := aliveList r.doc with hAdef
  by_cases h0 : A.length = 0
  · left
    unfold localDelete
    simp only [← hAdef]
    rw [if_pos h0]
  · by_cases hT : (((A.drop pos).take len).map (fun f => f.eid)).isEmpty
    · left
      unfold localDelete
      simp only [← hAdef]
      rw [if_neg h0, if_pos hT]
    · right
      refine ⟨((A.drop pos).take len).map (fun f => f.eid), ?_, ?_⟩
      · intro hcon
        rw [hcon] at hT
        exact hT rfl
      · have hre : localDelete r pos len =
            { r with
                changes := r.changes ++ [delChangeOf r (((A.drop pos).take len).map (fun f => f.eid))]
                nextCounter := r.nextCounter + (((A.drop pos).take len).map (fun f => f.eid)).length
                nextLamport := r.nextLamport + 1 } := by
          unfold localDelete
          simp only [← hAdef]
          rw [if_neg h0, if_neg hT]
          rfl
        rw [hre]
        exact ⟨rfl, rfl, rfl, rfl⟩

theorem insChangeOf_spanLen (n : Nat) (r : Replica) (pos : Nat) (ch : Char) (rest : List Char) :
    (insChangeOf n r pos (ch :: rest)).spanLen = (ch :: rest).length := by
  show (mkInsElems r.rsite r.nextLamport (vvOf n r.changes)
    (originRightAt r.doc pos) r.nextCounter (originLeftAt r.doc pos) (ch :: rest)).length = _
  have hchars := (mkInsElems_props r.rsite r.nextLamport (vvOf n r.changes)
    (originRightAt r.doc pos) (ch :: rest) r.nextCounter (originLeftAt r.doc pos)).2.2
  have := congrArg List.length hchars
  simpa using this

theorem WInv_import
    (sc : Nat) (reps : List Replica) (hist : List Change)
    (hinv : WInv (World.mk sc reps hist))
    (src dst : Nat) (hsrc : src < sc) (hdst : dst < sc) :
    WInv (World.mk sc
      (reps.set dst (importChanges ((World.mk sc reps hist).rep dst)
        (exportFrom ((World.mk sc reps hist).rep src)
          (vvOf sc ((World.mk sc reps hist).rep dst).changes)))) hist) := by
  obtain ⟨hlen0, hnd0, hsc0, hcontig0, hreps0⟩ := hinv
  have hlen : reps.length = sc := hlen0
  have hnd : (hist.map startKey).Nodup := hnd0
  have hsc : ∀ c ∈ hist, 1 ≤ c.spanLen ∧ c.csite < sc := hsc0
  have hcontig : ∀ s : Nat, contig 0 (histSite hist s) := hcontig0
  have hreps : ∀ j, j < sc →
      ((World.mk sc reps hist).rep j).rsite = j ∧
      (∀ s : Nat, ∃ k, k ≤ (histSite hist s).length ∧
        List.Perm (((World.mk sc reps hist).rep j).changes.filter
          (fun c => decide (c.csite = s))) ((histSite hist s).take k)) ∧
      List.Perm (((World.mk sc reps hist).rep j).changes.filter
        (fun c => decide (c.csite = j))) (histSite hist j) ∧
      ((World.mk sc reps hist).rep j).nextCounter = sumSpans (histSite hist j) := hreps0
  obtain ⟨hrsD, hRSD, hownD, hncD⟩ := hreps dst hdst
  obtain ⟨hrsS, hRSS, hownS, hncS⟩ := hreps src hsrc
  have hdlen : dst < reps.length := by
    rw [hlen]
    exact hdst
  set rd := (World.mk sc reps hist).rep dst with hrd
  set rs := (World.mk sc reps hist).rep src with hrsrc
  set vvd := vvOf sc rd.changes with hvvddef
  set rd2 := importChanges rd (exportFrom rs vvd) with hrd2
  have hch : rd2.changes = rd.changes
      ++ ((rs.changes.filter (fun c => !(idInVV vvd ⟨c.csite, c.ccounter⟩))).filter
          (fun c => !(hasStart rd.changes c.csite c.ccounter))) := rfl
  have hnc2 : rd2.nextCounter = rd.nextCounter := rfl
  have hrs2 : rd2.rsite = rd.rsite := rfl
  have hspansH : ∀ c ∈ hist, 1 ≤ c.spanLen := fun c hc => (hsc c hc).1
  have hvv_any : ∀ (s kd : Nat),
      List.Perm (rd.changes.filter (fun c => decide (c.csite = s))) ((histSite hist s).take kd) →
      vvd.getD s 0 = sumSpans ((histSite hist s).take kd) := by
    intro s kd hp
    by_cases hslt : s < sc
    · rw [hvvddef, vvOf_getD sc rd.changes s hslt, siteVV_eq_sumSpans_filter]
      exact sumSpans_perm _ _ hp
    · rw [hvvddef, vvOf_getD_ge sc rd.changes s (by omega)]
      have hnil : histSite hist s = [] :=
        histSite_nil_of_ge hist sc s (fun c hc => (hsc c hc).2) (by omega)
      rw [hnil, List.take_nil]
      rfl
  refine ⟨?_, hnd, hsc, hcontig, ?_⟩
  · show (reps.set dst rd2).length = sc
    rw [List.length_set]
    exact hlen
  · show ∀ j, j < sc →
      ((World.mk sc (reps.set dst rd2) hist).rep j).rsite = j ∧
      (∀ s : Nat, ∃ k, k ≤ (histSite hist s).length ∧
        List.Perm (((World.mk sc (reps.set dst rd2) hist).rep j).changes.filter
          (fun c => decide (c.csite = s))) ((histSite hist s).take k)) ∧
      List.Perm (((World.mk sc (reps.set dst rd2) hist).rep j).changes.filter
        (fun c => decide (c.csite = j))) (histSite hist j) ∧
      ((World.mk sc (reps.set dst rd2) hist).rep j).nextCounter = sumSpans (histSite hist j)
    intro j hj
    by_cases hjd : j = dst
    · subst hjd
      rw [rep_mk_set_self sc reps hist j rd2 hdlen]
      refine ⟨by rw [hrs2]; exact hrsD, ?_, ?_, by rw [hnc2]; exact hncD⟩
      · intro s
        obtain ⟨kd, hkd, hpd⟩ := hRSD s
        obtain ⟨ks, hks, hps⟩ := hRSS s
        refine ⟨max kd ks, Nat.max_le.mpr ⟨hkd, hks⟩, ?_⟩
        rw [hch]
        exact import_site_perm hist s hspansH (hcontig s) rd.changes rs.changes kd ks
          hkd hks hpd hps vvd (hvv_any s kd hpd)
      · obtain ⟨ks, hks, hps⟩ := hRSS j
        have hpdFull : List.Perm (rd.changes.filter (fun c => decide (c.csite = j)))
            ((histSite hist j).take (histSite hist j).length) := by
          rw [List.take_length]
          exact hownD
        have hres := import_site_perm hist j hspansH (hcontig j) rd.changes rs.changes
          (histSite hist j).length ks (le_refl _) hks hpdFull hps vvd
          (hvv_any j (histSite hist j).length hpdFull)
        rw [Nat.max_eq_left hks, List.take_length] at hres
        rw [hch]
        exact hres
    · rw [rep_mk_set_ne sc reps hist hist dst j rd2 (fun hcon => hjd hcon.symm)]
      exact hreps j hj

theorem stepW_ains_eq (sc : Nat) (reps : List Replica) (hist : List Change)
    (i pos : Nat) (s : List Char) (hlt : i < reps.length) :
    stepW (World.mk sc reps hist) (WAct.ains i pos s)
    = World.mk sc
        (reps.set i (localInsert sc ((World.mk sc reps hist).rep i) pos s))
        (hist ++ (localInsert sc ((World.mk sc reps hist).rep i) pos s).changes.drop
          ((World.mk sc reps hist).rep i).changes.length) := by
  show (if i < reps.length then _ else _) = _
  rw [if_pos hlt]

theorem stepW_adel_eq (sc : Nat) (reps : List Replica) (hist : List Change)
    (i pos len : Nat) (hlt : i < reps.length) :
    stepW (World.mk sc reps hist) (WAct.adel i pos len)
    = World.mk sc
        (reps.set i (localDelete ((World.mk sc reps hist).rep i) pos len))
        (hist ++ (localDelete ((World.mk sc reps hist).rep i) pos len).changes.drop
          ((World.mk sc reps hist).rep i).changes.length) := by
  show (if i < reps.length then _ else _) = _
  rw [if_pos hlt]

theorem stepW_async_eq (sc : Nat) (reps : List Replica) (hist : List Change)
    (src dst : Nat) (hlt : src < reps.length ∧ dst < reps.length) :
    stepW (World.mk sc reps hist) (WAct.async src dst)
    = World.mk sc
        (reps.set dst (importChanges ((World.mk sc reps hist).rep dst)
          (exportFrom ((World.mk sc reps hist).rep src)
            (vvOf sc ((World.mk sc reps hist).rep dst).changes)))) hist := by
  show (if src < reps.length ∧ dst < reps.length then _ else _) = _
  rw [if_pos hlt]

theorem stepW_WInv (w : World) (a : WAct) (h : WInv w) : WInv (stepW w a) := by
  obtain ⟨sc, reps, hist⟩ := w
  have hlen : reps.length = sc := h.1
  cases a with
  | ains i pos s =>
    by_cases hlt : i < reps.length
    · rw [stepW_ains_eq sc reps hist i pos s hlt]
      have hi : i < sc := by omega
      have hrsI : ((World.mk sc reps hist).rep i).rsite = i := (h.2.2.2.2 i hi).1
      cases s with
      | nil =>
        have hr : localInsert sc ((World.mk sc reps hist).rep i) pos []
            = (World.mk sc reps hist).rep i := rfl
        rw [hr, List.drop_length, List.append_nil]
        have hset : reps.set i ((World.mk sc reps hist).rep i) = reps :=
          set_getD_self reps i _ hlt
        rw [hset]
        exact h
      | cons ch rest =>
        obtain ⟨hf1, hf2, hf3, hf4⟩ :=
          localInsert_fields sc ((World.mk sc reps hist).rep i) pos ch rest
        have hdropc : (localInsert sc ((World.mk sc reps hist).rep i) pos (ch :: rest)).changes.drop
            ((World.mk sc reps hist).rep i).changes.length
            = [insChangeOf sc ((World.mk sc reps hist).rep i) pos (ch :: rest)] := by
          rw [hf2]
          exact List.drop_left _ _
        rw [hdropc]
        apply WInv_local_append sc reps hist h i hi _ _ hf1 hf2 _ _ _ _
        · rw [hf3, insChangeOf_spanLen]
        · show ((World.mk sc reps hist).rep i).rsite = i
          exact hrsI
        · rfl
        · rw [insChangeOf_spanLen]
          simp
    · show WInv (if i < reps.length then _ else _)
      rw [if_neg hlt]
      exact h
  | adel i pos len =>
    by_cases hlt : i < reps.length
    · rw [stepW_adel_eq sc reps hist i pos len hlt]
      have hi : i < sc := by omega
      have hrsI : ((World.mk sc reps hist).rep i).rsite = i := (h.2.2.2.2 i hi).1
      rcases localDelete_cases ((World.mk sc reps hist).rep i) pos len with hno |
        ⟨ts, hts, hg1, hg2, hg3, hg4⟩
      · rw [hno, List.drop_length, List.append_nil]
        have hset : reps.set i ((World.mk sc reps hist).rep i) = reps :=
          set_getD_self reps i _ hlt
        rw [hset]
        exact h
      · have hdropc : (localDelete ((World.mk sc reps hist).rep i) pos len).changes.drop
            ((World.mk sc reps hist).rep i).changes.length
            = [delChangeOf ((World.mk sc reps hist).rep i) ts] := by
          rw [hg2]
          exact List.drop_left _ _
        rw [hdropc]
        apply WInv_local_append sc reps hist h i hi _ _ hg1 hg2 _ _ _ _
        · rw [hg3]
          rfl
        · show ((World.mk sc reps hist).rep i).rsite = i
          exact hrsI
        · rfl
        · show 1 ≤ ts.length
          cases ts with
          | nil => exact absurd rfl hts
          | cons t tss => simp
    · show WInv (if i < reps.length then _ else _)
      rw [if_neg hlt]
      exact h
  | async src dst =>
    by_cases hlt : src < reps.length ∧ dst < reps.length
    · rw [stepW_async_eq sc reps hist src dst hlt]
      exact WInv_import sc reps hist h src dst (by omega) (by omega)
    · show WInv (if src < reps.length ∧ dst < reps.length then _ else _)
      rw [if_neg hlt]
      exact h

theorem runW_WInv (n : Nat) (acts : List WAct) : WInv (runW n acts) := by
  unfold runW
  induction acts using List.reverseRecOn with
  | nil => exact WInv_init n
  | append_singleton as a ih =>
    rw [List.foldl_append, List.foldl_cons, List.foldl_nil]
    exact stepW_WInv _ a ih

theorem Perm_count_eq {α : Type} [DecidableEq α] (l1 l2 : List α) (h : List.Perm l1 l2)
    (a : α) : l1.count a = l2.count a :=
  h.count_eq a

theorem count_filter_key (l : List Change) (c : Change) :
    l.count c = (l.filter (fun d => decide (d.csite = c.csite))).count c := by
  rw [List.count_filter]
  exact decide_eq_true rfl

theorem WInv_changes_keys_nodup (w : World) (h : WInv w) (i : Nat) (hi : i < w.siteCount) :
    (((w.rep i).changes).map startKey).Nodup := by
  obtain ⟨hlen, hnd, hsc, hcontig, hreps⟩ := h
  obtain ⟨hrsI, hRSI, hownI, hncI⟩ := hreps i hi
  have hhist_nodup : w.hist.Nodup := List.Nodup.of_map startKey hnd
  have hcount : ∀ c : Change, ((w.rep i).changes).count c ≤ 1 := by
    intro c
    obtain ⟨k, hk, hp⟩ := hRSI c.csite
    rw [count_filter_key ((w.rep i).changes) c, hp.count_eq c]
    have htknd : ((histSite w.hist c.csite).take k).Nodup := by
      apply List.Nodup.sublist (List.take_sublist k _)
      apply List.Nodup.sublist (List.filter_sublist _)
      exact hhist_nodup
    exact List.nodup_iff_count_le_one.mp htknd c
  have hchnd : ((w.rep i).changes).Nodup := List.nodup_iff_count_le_one.mpr hcount
  apply List.Nodup.map_on _ hchnd
  intro c hc d hd hkeq
  have hsite : c.csite = d.csite := congrArg Prod.fst hkeq
  obtain ⟨k, hk, hp⟩ := hRSI c.csite
  have hcf : c ∈ ((w.rep i).changes).filter (fun x => decide (x.csite = c.csite)) :=
    List.mem_filter.mpr ⟨hc, decide_eq_true rfl⟩
  have hdf : d ∈ ((w.rep i).changes).filter (fun x => decide (x.csite = c.csite)) :=
    List.mem_filter.mpr ⟨hd, decide_eq_true hsite.symm⟩
  have hcH : c ∈ w.hist :=
    List.mem_of_mem_filter (List.mem_of_mem_take (hp.subset hcf))
  have hdH : d ∈ w.hist :=
    List.mem_of_mem_filter (List.mem_of_mem_take (hp.subset hdf))
  exact List.inj_on_of_nodup_map hnd hcH hdH hkeq

theorem WInv_changes_perm_of_vv (w : World) (h : WInv w) (i j : Nat)
    (hi : i < w.siteCount) (hj : j < w.siteCount)
    (hvv : vvOf w.siteCount (w.rep i).changes = vvOf w.siteCount (w.rep j).changes) :
    List.Perm ((w.rep i).changes) ((w.rep j).changes) := by
  obtain ⟨hlen, hnd, hsc, hcontig, hreps⟩ := h
  obtain ⟨hrsI, hRSI, hownI, hncI⟩ := hreps i hi
  obtain ⟨hrsJ, hRSJ, hownJ, hncJ⟩ := hreps j hj
  have hfilters : ∀ s : Nat,
      List.Perm (((w.rep i).changes).filter (fun c => decide (c.csite = s)))
        (((w.rep j).changes).filter (fun c => decide (c.csite = s))) := by
    intro s
    obtain ⟨ki, hki, hpi⟩ := hRSI s
    obtain ⟨kj, hkj, hpj⟩ := hRSJ s
    by_cases hslt : s < w.siteCount
    · have hgi := congrArg (fun l => l.getD s 0) hvv
      simp only at hgi
      rw [vvOf_getD _ _ _ hslt, vvOf_getD _ _ _ hslt] at hgi
      rw [siteVV_eq_sumSpans_filter, siteVV_eq_sumSpans_filter] at hgi
      rw [sumSpans_perm _ _ hpi, sumSpans_perm _ _ hpj] at hgi
      have hkeq : ki = kj := by
        apply sumSpans_take_inj (histSite w.hist s) ki kj
          (fun c hc => (hsc c (List.mem_of_mem_filter hc)).1) hki hkj hgi
      rw [hkeq] at hpi
      exact hpi.trans hpj.symm
    · have hnil : histSite w.hist s = [] :=
        histSite_nil_of_ge w.hist w.siteCount s (fun c hc => (hsc c hc).2) (by omega)
      rw [hnil, List.take_nil] at hpi hpj
      have hi0 : ((w.rep i).changes).filter (fun c => decide (c.csite = s)) = [] :=
        List.perm_nil.mp hpi
      have hj0 : ((w.rep j).changes).filter (fun c => decide (c.csite = s)) = [] :=
        List.perm_nil.mp hpj
      rw [hi0, hj0]
  apply List.perm_iff_count.mpr
  intro c
  rw [count_filter_key ((w.rep i).changes) c, count_filter_key ((w.rep j).changes) c]
  exact (hfilters c.csite).count_eq c

theorem stepW_siteCount (w : World) (a : WAct) : (stepW w a).siteCount = w.siteCount := by
  obtain ⟨sc, reps, hist⟩ := w
  cases a <;> simp only [stepW] <;> split <;> rfl

theorem runW_siteCount (n : Nat) (acts : List WAct) : (runW n acts).siteCount = n := by
  unfold runW
  induction acts using List.reverseRecOn with
  | nil => rfl
  | append_singleton as a ih =>
    rw [List.foldl_append, List.foldl_cons, List.foldl_nil, stepW_siteCount]
    exact ih

/-- Claim C1: Convergence. The final visible state is a pure function of the
SET of applied changes: replay is invariant under reordering of the change
log (for well-formed logs, whose changes have distinct span starts).  And for
every replica count and schedule of local edits and one-way syncs of the
fuzz harness, whenever two replicas' version vectors agree, their
`get_value()` results are identical. -/
theorem C1_convergence :
    (∀ cs ds : List Change, (cs.map startKey).Nodup → List.Perm cs ds →
      interp cs = interp ds) ∧
    (∀ (n : Nat) (acts : List WAct) (i j : Nat), i < n → j < n →
      vvOf n ((runW n acts).rep i).changes = vvOf n ((runW n acts).rep j).changes →
      ((runW n acts).rep i).value = ((runW n acts).rep j).value) := by
  constructor
  · intro cs ds hnd hp
    exact interp_respects_perm cs ds hnd hp
  · intro n acts i j hi hj hvv
    have hinv := runW_WInv n acts
    have hsc := runW_siteCount n acts
    have hperm := WInv_changes_perm_of_vv (runW n acts) hinv i j
      (by rw [hsc]; exact hi) (by rw [hsc]; exact hj) (by rw [hsc]; exact hvv)
    have hkeys := WInv_changes_keys_nodup (runW n acts) hinv i (by rw [hsc]; exact hi)
    show visibleChars (interp ((runW n acts).rep i).changes)
      = visibleChars (interp ((runW n acts).rep j).changes)
    rw [interp_respects_perm _ _ hkeys hperm]

/-- Witness for C1: replaying a two-change log in either order gives the
same document, and after one sync the two replicas of a concrete two-site
run have equal version vectors and equal (nonempty) values. -/
theorem C1_witness :
    (interp [{ csite := 0, ccounter := 0, lamport := 0, op := .ins [] },
             { csite := 1, ccounter := 0, lamport := 1, op := .del [] }]
      = interp [{ csite := 1, ccounter := 0, lamport := 1, op := .del [] },
                { csite := 0, ccounter := 0, lamport := 0, op := .ins [] }]) ∧
    (((runW 2 [WAct.ains 0 0 ('h' :: 'i' :: []), WAct.async 0 1]).rep 0).value
      = ((runW 2 [WAct.ains 0 0 ('h' :: 'i' :: []), WAct.async 0 1]).rep 1).value) ∧
    ((runW 2 [WAct.ains 0 0 ('h' :: 'i' :: []), WAct.async 0 1]).rep 0).value
      = 'h' :: 'i' :: [] := by
  refine ⟨C1_convergence.1 _ _ (by decide) (by decide), ?_, by decide⟩
  exact C1_convergence.2 2 [WAct.ains 0 0 ('h' :: 'i' :: []), WAct.async 0 1] 0 1
    (by decide) (by decide) (by decide)

end Loro
